import Mathlib

/-!
# The in-process publish/subscribe broker and its streaming gateway

A shallow embedding of

* `internal/subpub/subpub.go` (the broker: `Subscribe`, `Publish`, `Close`,
  `subscription.Unsubscribe`),
* `internal/domain/repository/in_memory_repository.go` (the event store and
  its synchronous subscriber list),
* `pkg/validator/validator.go`, `internal/domain/errors/errors.go` and
  `internal/domain/entity/event.go` (the validation of events),
* `internal/usecase/subscribe/subscribe.go`,
  `internal/usecase/publish/publish.go` and
  `internal/pubsub/delivery/grpc/handler.go` (the `Publish` handler and the
  `Subscribe` stream handler with its buffered channel of capacity 100),
* `pkg/config/config.go` (the configuration, its defaults and its checks),

followed by the properties proved about them.

Conventions of the embedding.

* A Go map with string keys is an association list; `mapLookup` is
  `v, ok := m[k]`, `mapStore` is `m[k] = v`, `mapDelete` is `delete(m, k)`.
  Ranging over a map visits the entries in list order (Go leaves the order
  unspecified; the properties below are stated on membership and counts).
* A channel is an address into an explicit heap.  Closing a closed channel and
  sending on a closed channel panic; a panic is the result `none`.
* Calls are taken one at a time: a call of a method is one transition, the
  statements it runs outside its mutex included.  A goroutine started by
  `Publish` is a value of the result, and `goroutine` is its body.
* A handler function is a value; calling it is recorded in the result of the
  operation that calls it.
* A reading `time.Now()` of the clock is an argument of the call that makes it.
-/

/-! ## Go maps with string keys -/

/-- The lookup `v, ok := m[k]`. -/
def mapLookup {β : Type} : List (String × β) → String → Option β
  | [], _ => none
  | (k, v) :: m, key => if key = k then some v else mapLookup m key

/-- The assignment `m[k] = v`. -/
def mapStore {β : Type} : List (String × β) → String → β → List (String × β)
  | [], key, v => [(key, v)]
  | (k, w) :: m, key, v => if key = k then (k, v) :: m else (k, w) :: mapStore m key v

/-- The builtin `delete(m, k)`. -/
def mapDelete {β : Type} : List (String × β) → String → List (String × β)
  | [], _ => []
  | (k, w) :: m, key => if key = k then mapDelete m key else (k, w) :: mapDelete m key

/-- The slice read `m[k]` of a map of slices: the nil slice when the key is absent. -/
def mapSlice {β : Type} (m : List (String × List β)) (key : String) : List β :=
  (mapLookup m key).getD []

namespace subpub

/-! ## `internal/subpub/subpub.go` -/

/-- The address of a `chan struct{}`. -/
abbrev Chan := Nat

/-- A `MessageHandler` value (`func(msg interface{})`), named by a number. -/
abbrev MessageHandler := Nat

/-- A published message (`interface{}`). -/
abbrev Msg := String

/-- The error values the package returns: its own `ErrClosed`, and the two
values of `ctx.Err()` that `Close` passes on. -/
inductive Error
  | ErrClosed
  | Canceled
  | DeadlineExceeded
  deriving DecidableEq, Repr

/-- The struct `subscription`; `done` is the address of its channel, which
also identifies the record (one channel is made per record). -/
structure subscription where
  subject : String
  handler : MessageHandler
  done : Chan
  deriving DecidableEq, Repr

/-- The `done` channels of the heap: `next` is the address the next
`make(chan struct{})` returns, `closed` lists the channels closed so far.
Nothing is ever sent on a `done` channel, so `<-c` is ready exactly when `c`
is closed. -/
structure Heap where
  next : Chan
  closed : List Chan
  deriving DecidableEq, Repr

/-- Allocation `make(chan struct{})`. -/
def Heap.make (h : Heap) : Heap × Chan :=
  ({ h with next := h.next + 1 }, h.next)

/-- Whether `case <-c:` is ready. -/
def Heap.isClosed (h : Heap) (c : Chan) : Bool :=
  decide (c ∈ h.closed)

/-- The builtin `close(c)`: panics (`none`) on a closed channel. -/
def Heap.close (h : Heap) (c : Chan) : Option Heap :=
  if h.isClosed c then none else some { h with closed := c :: h.closed }

/-- The struct `subPub` (the mutex is the atomicity of the transitions). -/
structure subPub where
  subscribers : List (String × List subscription)
  closed : Bool
  deriving DecidableEq, Repr

/-- The constructor `NewSubPub`. -/
def NewSubPub : subPub :=
  { subscribers := [], closed := false }

/-- A broker together with the heap its channels live in. -/
structure World where
  sp : subPub
  heap : Heap
  deriving DecidableEq, Repr

/-- A fresh broker on an empty heap. -/
def World.init : World :=
  { sp := NewSubPub, heap := { next := 0, closed := [] } }

/-- The method `(*subscription).Unsubscribe`: `close(s.done)`. -/
def Unsubscribe (w : World) (s : subscription) : Option World :=
  match w.heap.close s.done with
  | none => none
  | some h => some { w with heap := h }

/-- The method `(*subPub).Subscribe`, returning the new state and the pair
`(Subscription, error)`. -/
def Subscribe (w : World) (subject : String) (cb : MessageHandler) :
    World × Option subscription × Option Error :=
  if w.sp.closed then
    (w, none, some Error.ErrClosed)
  else
    let sub : subscription := { subject := subject, handler := cb, done := w.heap.make.2 }
    ({ sp := { w.sp with
                subscribers := mapStore w.sp.subscribers subject
                  (mapSlice w.sp.subscribers subject ++ [sub]) },
       heap := w.heap.make.1 },
     some sub, none)

/-- The loop of `Publish` over the snapshot: a subscription whose `done` is
closed is skipped, for every other one a goroutine is started with `msg`. -/
def Publish.loop (h : Heap) (msg : Msg) : List subscription → List (subscription × Msg)
  | [] => []
  | sub :: rest =>
    if h.isClosed sub.done then Publish.loop h msg rest
    else (sub, msg) :: Publish.loop h msg rest

/-- The method `(*subPub).Publish`, returning the state, the error and the
goroutines it started (subscription and message of each). -/
def Publish (w : World) (subject : String) (msg : Msg) :
    World × Option Error × List (subscription × Msg) :=
  if w.sp.closed then
    (w, some Error.ErrClosed, [])
  else
    let subscribers := mapSlice w.sp.subscribers subject
    (w, none, Publish.loop w.heap msg subscribers)

/-- The body of a goroutine started by `Publish`, run on heap `h`: it checks
`done` again and calls the handler; the result lists the handler calls. -/
def goroutine (h : Heap) (g : subscription × Msg) : List (MessageHandler × Msg) :=
  if h.isClosed g.1.done then [] else [(g.1.handler, g.2)]

/-- What `Close` needs of a `context.Context`: whether `Done()` is ever closed
and which error `Err()` gives then. -/
inductive Context
  | background
  | canceled
  | deadlineExceeded
  deriving DecidableEq, Repr

/-- How a call of `Close` ends. -/
inductive CloseResult
  | returned (err : Option Error)
  | blocked
  deriving DecidableEq, Repr

/-- The statement `select { case <-ctx.Done(): return ctx.Err() }`. -/
def Context.wait : Context → CloseResult
  | Context.background => CloseResult.blocked
  | Context.canceled => CloseResult.returned (some Error.Canceled)
  | Context.deadlineExceeded => CloseResult.returned (some Error.DeadlineExceeded)

/-- The inner loop of `Close` over one subscriber list; the result is the heap
and the channels closed, in order. -/
def Close.inner (h : Heap) : List subscription → Option (Heap × List Chan)
  | [] => some (h, [])
  | sub :: rest =>
    if h.isClosed sub.done then Close.inner h rest
    else
      match h.close sub.done with
      | none => none
      | some h1 =>
        match Close.inner h1 rest with
        | none => none
        | some (h2, cs) => some (h2, sub.done :: cs)

/-- The outer loop of `Close` over the entries of the map. -/
def Close.outer (h : Heap) : List (String × List subscription) → Option (Heap × List Chan)
  | [] => some (h, [])
  | (_, subs) :: m =>
    match Close.inner h subs with
    | none => none
    | some (h1, cs1) =>
      match Close.outer h1 m with
      | none => none
      | some (h2, cs2) => some (h2, cs1 ++ cs2)

/-- The method `(*subPub).Close`: the state, the channels it closed, and how
the call ends. -/
def Close (w : World) (ctx : Context) : Option (World × List Chan × CloseResult) :=
  if w.sp.closed then
    some (w, [], CloseResult.returned none)
  else
    match Close.outer w.heap w.sp.subscribers with
    | none => none
    | some (h, cs) =>
      some ({ sp := { subscribers := [], closed := true }, heap := h }, cs, ctx.wait)

/-! ### Sequences of calls -/

/-- A call on the broker or on one of its subscription handles. -/
inductive Op
  | subscribe (subject : String) (cb : MessageHandler)
  | publish (subject : String) (msg : Msg)
  | unsubscribe (s : subscription)
  | close (ctx : Context)
  deriving DecidableEq, Repr

/-- What a call gives back. -/
inductive Out
  | subscribed (sub : Option subscription) (err : Option Error)
  | published (err : Option Error) (started : List (subscription × Msg))
  | unsubscribed
  | closed (cancelled : List Chan) (res : CloseResult)
  deriving DecidableEq, Repr

/-- One call; `none` is a panic. -/
def step (w : World) : Op → Option (World × Out)
  | Op.subscribe subject cb =>
    some ((Subscribe w subject cb).1, Out.subscribed (Subscribe w subject cb).2.1 (Subscribe w subject cb).2.2)
  | Op.publish subject msg =>
    some ((Publish w subject msg).1, Out.published (Publish w subject msg).2.1 (Publish w subject msg).2.2)
  | Op.unsubscribe s =>
    match Unsubscribe w s with
    | none => none
    | some w1 => some (w1, Out.unsubscribed)
  | Op.close ctx =>
    match Close w ctx with
    | none => none
    | some (w1, cs, r) => some (w1, Out.closed cs r)

/-- A sequence of calls, with the outputs in order; `none` when one panics. -/
def run (w : World) : List Op → Option (World × List Out)
  | [] => some (w, [])
  | op :: ops =>
    match step w op with
    | none => none
    | some (w1, o) =>
      match run w1 ops with
      | none => none
      | some (w2, os) => some (w2, o :: os)

/-- A handle can only come from an earlier `Subscribe`: its channel has been
allocated. -/
def Op.valid (w : World) : Op → Prop
  | Op.unsubscribe s => s.done < w.heap.next
  | _ => True

/-- The states a broker made by `NewSubPub` reaches. -/
inductive Reachable : World → Prop
  | init : Reachable World.init
  | next (w w1 : World) (op : Op) (o : Out) :
      Reachable w → op.valid w → step w op = some (w1, o) → Reachable w1

end subpub

namespace subpub

/-- What the two loops of `Close` achieve from heap `h` over the subscriptions
whose channels satisfy `P`: no allocation, the channels `cs` closed one after
the other, each once, and `cs` is exactly the open channels among `P`. -/
def ClosePost (h : Heap) (P : Chan → Prop) (h1 : Heap) (cs : List Chan) : Prop :=
  h1.next = h.next ∧ h1.closed = cs.reverse ++ h.closed ∧ cs.Nodup ∧
    ∀ c, c ∈ cs ↔ (c ∉ h.closed ∧ P c)

/-- The invariant of the reachable states. -/
structure Inv (w : World) : Prop where
  keys : (w.sp.subscribers.map Prod.fst).Nodup
  closedLt : ∀ c ∈ w.heap.closed, c < w.heap.next
  doneLt : ∀ k, ∀ s ∈ mapSlice w.sp.subscribers k, s.done < w.heap.next
  subj : ∀ k, ∀ s ∈ mapSlice w.sp.subscribers k, s.subject = k
  nodup : ∀ k, (mapSlice w.sp.subscribers k).Nodup
  empty : w.sp.closed = true → w.sp.subscribers = []

/-- Whether a call is `Unsubscribe`. -/
def Op.isUnsubscribe : Op → Bool
  | Op.unsubscribe _ => true
  | _ => false

/-- Whether a call is `Close`. -/
def Op.isClose : Op → Bool
  | Op.close _ => true
  | _ => false

end subpub

/-! ## `pkg/validator/validator.go` -/

namespace validator

/-- The error values of the package. -/
inductive Error
  | ErrEmptyValue
  | ErrInvalidLength
  deriving DecidableEq, Repr

/-- The predicate `unicode.IsSpace`, which `strings.TrimSpace` cuts by. -/
def isSpace (c : Char) : Bool :=
  let n := c.toNat
  n = 0x09 || n = 0x0A || n = 0x0B || n = 0x0C || n = 0x0D || n = 0x20 || n = 0x85 ||
    n = 0xA0 || n = 0x1680 || (0x2000 ≤ n && n ≤ 0x200A) || n = 0x2028 || n = 0x2029 ||
    n = 0x202F || n = 0x205F || n = 0x3000

/-- The function `strings.TrimSpace`: leading and trailing white space removed. -/
def TrimSpace (value : String) : String :=
  String.mk ((value.data.dropWhile isSpace).reverse.dropWhile isSpace).reverse

/-- The function `ValidateNotEmpty`. -/
def ValidateNotEmpty (value _fieldName : String) : Option Error :=
  if TrimSpace value = "" then some Error.ErrEmptyValue else none

/-- The function `ValidateLength`; `len` of a string is its length in bytes. -/
def ValidateLength (value : String) (min max : Nat) : Option Error :=
  let length := (TrimSpace value).utf8ByteSize
  if length < min ∨ length > max then some Error.ErrInvalidLength else none

/-- The function `ValidateAll`: the first error of the validators, run in order. -/
def ValidateAll {E : Type} : List (Unit → Option E) → Option E
  | [] => none
  | v :: validators =>
    match v () with
    | some err => some err
    | none => ValidateAll validators

end validator

/-! ## The clock, `internal/domain/errors/errors.go` and `internal/domain/entity/event.go` -/

namespace time

/-- What a reading `time.Now()` shows of the wall clock, which is all that
`Format` with the layout of `generateID` prints. -/
structure Time where
  Year : Nat
  Month : Nat
  Day : Nat
  Hour : Nat
  Minute : Nat
  Second : Nat
  Nanosecond : Nat
  deriving DecidableEq, Repr

/-- A number printed in decimal with zeros in front up to `width` digits. -/
def pad (width n : Nat) : String :=
  String.mk (List.replicate (width - (toString n).length) '0') ++ toString n

/-- The call `t.Format("20060102150405.000000000")`: year, month, day, hour,
minute and second without separators, a point, and the nine digits of the
nanoseconds. -/
def Time.Format (t : Time) : String :=
  pad 4 t.Year ++ pad 2 t.Month ++ pad 2 t.Day ++ pad 2 t.Hour ++ pad 2 t.Minute ++
    pad 2 t.Second ++ "." ++ pad 9 t.Nanosecond

end time

namespace errors

/-- The error values of the package. -/
inductive Error
  | ErrInvalidEventKey
  | ErrInvalidEventData
  | ErrEventNotFound
  | ErrServiceClosed
  deriving DecidableEq, Repr

end errors

namespace entity

/-- The struct `Event`; `Timestamp` is the instant of a reading of the clock. -/
structure Event where
  ID : String
  Key : String
  Data : String
  Timestamp : Nat
  deriving DecidableEq, Repr

/-- The function `generateID`: its reading `now` of the clock, formatted with
the layout `20060102150405.000000000`. -/
def generateID (now : time.Time) : String :=
  now.Format

/-- The function `NewEvent`.  It reads the clock twice: `idNow` is the reading
`generateID` makes for `ID`, `now` is the instant of the `time.Now()` that
follows for `Timestamp`. -/
def NewEvent (idNow : time.Time) (now : Nat) (key data : String) : Event :=
  { ID := generateID idNow, Key := key, Data := data, Timestamp := now }

/-- The method `(*Event).Validate`. -/
def Event.Validate (e : Event) : Option errors.Error :=
  validator.ValidateAll
    [fun _ => if (validator.ValidateNotEmpty e.Key "key").isSome
        then some errors.Error.ErrInvalidEventKey else none,
     fun _ => if (validator.ValidateNotEmpty e.Data "data").isSome
        then some errors.Error.ErrInvalidEventData else none,
     fun _ => if (validator.ValidateLength e.Key 1 100).isSome
        then some errors.Error.ErrInvalidEventKey else none]

end entity

/-! ## Buffered channels of `*proto.Event` -/

namespace proto

/-- Modelled from the spec: the message `Event` of the generated package
`pkg/proto`, which is not among the sources; the `Subscribe` stream carries
`{data: string}`, and the code sets the field `Data`. -/
structure Event where
  Data : String
  deriving DecidableEq, Repr

end proto

/-- A buffered `chan *proto.Event`: the values pending, the capacity, and
whether it has been closed. -/
structure EventChan where
  buf : List proto.Event
  cap : Nat
  closed : Bool
  deriving DecidableEq, Repr

/-- The allocation `make(chan *proto.Event, cap)`. -/
def EventChan.make (cap : Nat) : EventChan :=
  { buf := [], cap := cap, closed := false }

/-- The statement `select { case ch <- v: default: }`: a send on a closed
channel panics (`none`); otherwise the value is appended when the buffer has
room (`true`), and the default branch is taken when it is full (`false`). -/
def EventChan.trySend (ch : EventChan) (v : proto.Event) : Option (EventChan × Bool) :=
  if ch.closed then none
  else if ch.buf.length < ch.cap then some ({ ch with buf := ch.buf ++ [v] }, true)
  else some (ch, false)

/-- What `v, ok := <-ch` finds. -/
inductive Received
  | value (v : proto.Event)
  | closedEmpty
  | notReady
  deriving DecidableEq, Repr

/-- The receive `v, ok := <-ch`: the oldest pending value; on an empty buffer
`ok = false` when the channel is closed, and otherwise the case is not ready. -/
def EventChan.recv (ch : EventChan) : EventChan × Received :=
  match ch.buf with
  | v :: rest => ({ ch with buf := rest }, Received.value v)
  | [] => (ch, if ch.closed then Received.closedEmpty else Received.notReady)

/-- The builtin `close(ch)`: panics (`none`) on a closed channel. -/
def EventChan.close (ch : EventChan) : Option EventChan :=
  if ch.closed then none else some { ch with closed := true }

/-! ## `internal/domain/repository/in_memory_repository.go` -/

namespace repository

/-- The function values `func(*entity.Event)` that are registered in this
program: the closure `Handler.Subscribe` builds, which captures its channel
`events` (an address into the heap of channels) and its `key`. -/
structure Callback where
  events : Nat
  key : String
  deriving DecidableEq, Repr

/-- A call of the closure on `event`: the non-blocking send of
`&proto.Event{Data: event.Data}` on its channel.  The result is the heap and
whether the warning of the default branch was logged; `none` is a panic. -/
def Callback.call (cb : Callback) (chans : List EventChan) (event : entity.Event) :
    Option (List EventChan × Bool) :=
  match chans[cb.events]? with
  | none => none
  | some ch =>
    match ch.trySend { Data := event.Data } with
    | none => none
    | some (ch1, ok) => some (chans.set cb.events ch1, !ok)

/-- The struct `InMemoryRepository`. -/
structure InMemoryRepository where
  events : List (String × List entity.Event)
  subscribers : List (String × List Callback)
  closed : Bool
  deriving DecidableEq, Repr

/-- The constructor `NewInMemoryRepository`. -/
def NewInMemoryRepository : InMemoryRepository :=
  { events := [], subscribers := [], closed := false }

/-- The loop of `Save` over the subscribers of the key; the result is the heap
and the keys of the callbacks that dropped the event. -/
def Save.notify (event : entity.Event) :
    List Callback → List EventChan → Option (List EventChan × List String)
  | [], chans => some (chans, [])
  | handler :: subscribers, chans =>
    match handler.call chans event with
    | none => none
    | some (chans1, dropped) =>
      match Save.notify event subscribers chans1 with
      | none => none
      | some (chans2, drops) => some (chans2, if dropped then handler.key :: drops else drops)

/-- The method `Save`. -/
def InMemoryRepository.Save (r : InMemoryRepository) (chans : List EventChan)
    (event : entity.Event) :
    Option (InMemoryRepository × List EventChan × Option errors.Error × List String) :=
  if r.closed then
    some (r, chans, some errors.Error.ErrServiceClosed, [])
  else
    let r1 := { r with events := mapStore r.events event.Key (mapSlice r.events event.Key ++ [event]) }
    match mapLookup r1.subscribers event.Key with
    | some subscribers =>
      match Save.notify event subscribers chans with
      | none => none
      | some (chans1, drops) => some (r1, chans1, none, drops)
    | none => some (r1, chans, none, [])

/-- The method `FindByKey`. -/
def InMemoryRepository.FindByKey (r : InMemoryRepository) (key : String) :
    Option (List entity.Event) × Option errors.Error :=
  if r.closed then
    (none, some errors.Error.ErrServiceClosed)
  else
    match mapLookup r.events key with
    | none => (none, some errors.Error.ErrEventNotFound)
    | some events => (some events, none)

/-- The method `Subscribe`. -/
def InMemoryRepository.Subscribe (r : InMemoryRepository) (key : String) (handler : Callback) :
    InMemoryRepository × Option errors.Error :=
  if r.closed then
    (r, some errors.Error.ErrServiceClosed)
  else if key = "" then
    (r, some errors.Error.ErrInvalidEventKey)
  else
    ({ r with subscribers := mapStore r.subscribers key (mapSlice r.subscribers key ++ [handler]) },
      none)

/-- The method `Unsubscribe`. -/
def InMemoryRepository.Unsubscribe (r : InMemoryRepository) (key : String) :
    InMemoryRepository × Option errors.Error :=
  if r.closed then
    (r, some errors.Error.ErrServiceClosed)
  else
    ({ r with subscribers := mapDelete r.subscribers key }, none)

/-- The method `Close`. -/
def InMemoryRepository.Close (r : InMemoryRepository) : InMemoryRepository × Option errors.Error :=
  if r.closed then (r, none) else ({ r with closed := true }, none)

end repository

/-! ## `internal/usecase/subscribe/subscribe.go` and `internal/usecase/publish/publish.go` -/

namespace subscribe

/-- The struct `Request`. -/
structure Request where
  Key : String
  deriving DecidableEq, Repr

/-- The method `(*subscribeUseCase).Execute` on the repository the use case
holds. -/
def Execute (eventRepo : repository.InMemoryRepository) (req : Request)
    (callback : repository.Callback) : repository.InMemoryRepository × Option errors.Error :=
  if req.Key = "" then
    (eventRepo, some errors.Error.ErrInvalidEventKey)
  else
    eventRepo.Subscribe req.Key callback

end subscribe

namespace publish

/-- The struct `Request`. -/
structure Request where
  Key : String
  Data : String
  deriving DecidableEq, Repr

/-- The method `(*publishUseCase).Execute` on the repository the use case
holds, with the two readings of the clock `NewEvent` makes. -/
def Execute (eventRepo : repository.InMemoryRepository) (chans : List EventChan)
    (idNow : time.Time) (now : Nat) (req : Request) :
    Option (repository.InMemoryRepository × List EventChan × Option errors.Error × List String) :=
  let event := entity.NewEvent idNow now req.Key req.Data
  match event.Validate with
  | some err => some (eventRepo, chans, some err, [])
  | none => eventRepo.Save chans event

end publish

/-! ## `internal/pubsub/delivery/grpc/handler.go` -/

namespace grpc

/-- The status codes the handler returns. -/
inductive Code
  | InvalidArgument
  | Internal
  deriving DecidableEq, Repr

/-- The struct `Handler`: `eventRepo` is the repository that `publishUC` and
`subscribeUC` both hold (`main.go`); an inner map `map[chan *proto.Event]struct{}`
of `subs` is the list of its channels. -/
structure Handler where
  eventRepo : repository.InMemoryRepository
  subs : List (String × List Nat)
  deriving DecidableEq, Repr

/-- A handler with the heap of its channels. -/
structure World where
  h : Handler
  chans : List EventChan
  deriving DecidableEq, Repr

/-- The handler `main.go` builds: `NewHandler` over `NewInMemoryRepository`. -/
def World.init : World :=
  { h := { eventRepo := repository.NewInMemoryRepository, subs := [] }, chans := [] }

/-- The locals `key` and `events` of a running call of `Handler.Subscribe`. -/
structure Stream where
  key : String
  events : Nat
  deriving DecidableEq, Repr

/-- The assignment `m[c] = struct{}{}` on an inner map. -/
def setInsert (m : List Nat) (c : Nat) : List Nat :=
  if c ∈ m then m else m ++ [c]

/-- The builtin `delete(m, c)` on an inner map. -/
def setDelete (m : List Nat) (c : Nat) : List Nat :=
  m.filter (fun x => x ≠ c)

/-- The deferred calls of `Handler.Subscribe`, last deferred first: the
cleanup of `h.subs`, then `close(events)`. -/
def Handler.Subscribe.exit (w : World) (st : Stream) : Option World :=
  let inner := setDelete (mapSlice w.h.subs st.key) st.events
  let subs := if inner.length = 0 then mapDelete w.h.subs st.key
    else mapStore w.h.subs st.key inner
  match w.chans[st.events]? with
  | none => none
  | some ch =>
    match ch.close with
    | none => none
    | some ch1 => some { h := { w.h with subs := subs }, chans := w.chans.set st.events ch1 }

/-- How the first part of `Handler.Subscribe` ends. -/
inductive Entered
  | returned (code : Code)
  | streaming (st : Stream)
  deriving DecidableEq, Repr

/-- The method `Handler.Subscribe` up to its loop: validation, the channel,
the registration in `h.subs`, and the subscribe use case. -/
def Handler.Subscribe (w : World) (key : String) : Option (World × Entered) :=
  if (validator.ValidateNotEmpty key "key").isSome then
    some (w, Entered.returned Code.InvalidArgument)
  else
    let events := w.chans.length
    let subs := mapStore w.h.subs key (setInsert (mapSlice w.h.subs key) events)
    let r := subscribe.Execute w.h.eventRepo { Key := key } { events := events, key := key }
    let w1 : World :=
      { h := { eventRepo := r.1, subs := subs }, chans := w.chans ++ [EventChan.make 100] }
    match r.2 with
    | some _ =>
      match Handler.Subscribe.exit w1 { key := key, events := events } with
      | none => none
      | some w2 => some (w2, Entered.returned Code.Internal)
    | none => some (w1, Entered.streaming { key := key, events := events })

/-- Which case of the `select` of the loop fires: a receive from `events`
(with whether `stream.Send` then fails), or `stream.Context().Done()`. -/
inductive Wake
  | event (sendFails : Bool)
  | ctxDone
  deriving DecidableEq, Repr

/-- What one round of the loop does: it goes on, having sent an event to the
client or nothing, or `Handler.Subscribe` returns. -/
inductive Looped
  | continues (sent : Option proto.Event)
  | returned (code : Option Code)
  deriving DecidableEq, Repr

/-- One round of the loop of `Handler.Subscribe`; a return runs the deferred
calls. -/
def Handler.Subscribe.loop (w : World) (st : Stream) : Wake → Option (World × Looped)
  | Wake.ctxDone =>
    match Handler.Subscribe.exit w st with
    | none => none
    | some w1 => some (w1, Looped.returned none)
  | Wake.event sendFails =>
    match w.chans[st.events]? with
    | none => none
    | some ch =>
      match ch.recv with
      | (ch1, Received.value v) =>
        if sendFails then
          match Handler.Subscribe.exit { w with chans := w.chans.set st.events ch1 } st with
          | none => none
          | some w1 => some (w1, Looped.returned (some Code.Internal))
        else
          some ({ w with chans := w.chans.set st.events ch1 }, Looped.continues (some v))
      | (_, Received.closedEmpty) =>
        match Handler.Subscribe.exit w st with
        | none => none
        | some w1 => some (w1, Looped.returned none)
      | (_, Received.notReady) => some (w, Looped.continues none)

/-- The method `Handler.Publish` with the readings of the clock: the state, the
status code (`none` is success) and the keys of the dropped deliveries. -/
def Handler.Publish (w : World) (idNow : time.Time) (now : Nat) (key data : String) :
    Option (World × Option Code × List String) :=
  match validator.ValidateAll
      [fun _ => validator.ValidateNotEmpty key "key",
       fun _ => validator.ValidateNotEmpty data "data"] with
  | some _ => some (w, some Code.InvalidArgument, [])
  | none =>
    match publish.Execute w.h.eventRepo w.chans idNow now { Key := key, Data := data } with
    | none => none
    | some (repo, chans, err, drops) =>
      some ({ h := { w.h with eventRepo := repo }, chans := chans },
        if err.isSome then some Code.Internal else none, drops)

/-- A call on the server: a `Subscribe` request, a round of the loop of a
running `Subscribe`, a `Publish` request, or the `Close` of the repository. -/
inductive Op
  | subscribe (key : String)
  | wake (st : Stream) (wk : Wake)
  | publish (idNow : time.Time) (now : Nat) (key data : String)
  | closeRepo
  deriving DecidableEq, Repr

/-- What a call gives back. -/
inductive Out
  | entered (e : Entered)
  | looped (l : Looped)
  | published (code : Option Code) (drops : List String)
  | repoClosed
  deriving DecidableEq, Repr

/-- One call; `none` is a panic. -/
def step (w : World) : Op → Option (World × Out)
  | Op.subscribe key =>
    match Handler.Subscribe w key with
    | none => none
    | some (w1, e) => some (w1, Out.entered e)
  | Op.wake st wk =>
    match Handler.Subscribe.loop w st wk with
    | none => none
    | some (w1, l) => some (w1, Out.looped l)
  | Op.publish idNow now key data =>
    match Handler.Publish w idNow now key data with
    | none => none
    | some (w1, code, drops) => some (w1, Out.published code drops)
  | Op.closeRepo =>
    some ({ w with h := { w.h with eventRepo := w.h.eventRepo.Close.1 } }, Out.repoClosed)

/-- A sequence of calls, with the outputs in order; `none` when one panics. -/
def run (w : World) : List Op → Option (World × List Out)
  | [] => some (w, [])
  | op :: ops =>
    match step w op with
    | none => none
    | some (w1, o) =>
      match run w1 ops with
      | none => none
      | some (w2, os) => some (w2, o :: os)

/-- A stream is live while its channel is in `h.subs`: from the registration
at the start of `Handler.Subscribe` to the deferred cleanup. -/
def World.live (w : World) (st : Stream) : Prop :=
  st.events ∈ mapSlice w.h.subs st.key

instance (w : World) (st : Stream) : Decidable (w.live st) :=
  inferInstanceAs (Decidable (st.events ∈ mapSlice w.h.subs st.key))

/-- A round of the loop belongs to a running call of `Handler.Subscribe`. -/
def Op.valid (w : World) : Op → Prop
  | Op.wake st _ => w.live st
  | _ => True

/-- The states the server reaches. -/
inductive Reachable : World → Prop
  | init : Reachable World.init
  | next (w w1 : World) (op : Op) (o : Out) :
      Reachable w → op.valid w → step w op = some (w1, o) → Reachable w1

end grpc

namespace grpc

/-- The invariant of the reachable states of the server: every channel was
made with capacity 100 and holds at most 100 values; the channel of a live
stream is allocated and open; a channel is registered under one key. -/
structure Inv (w : World) : Prop where
  chanOk : ∀ ch ∈ w.chans, ch.cap = 100 ∧ ch.buf.length ≤ 100
  liveOpen : ∀ k, ∀ a ∈ mapSlice w.h.subs k, (w.chans[a]?).map EventChan.closed = some false
  liveKey : ∀ k1 k2 a, a ∈ mapSlice w.h.subs k1 → a ∈ mapSlice w.h.subs k2 → k1 = k2

/-- The callback of every live stream is in the subscriber list of its key. -/
def Registered (w : World) : Prop :=
  ∀ k, ∀ a ∈ mapSlice w.h.subs k,
    (⟨a, k⟩ : repository.Callback) ∈ mapSlice w.h.eventRepo.subscribers k

end grpc

/-! ## `pkg/config/config.go` -/

namespace config

/-- The struct `ServerConfig`; a `time.Duration` is a number of nanoseconds. -/
structure ServerConfig where
  Port : Int
  Host : String
  GracefulShutdownTimeout : Int
  MaxConcurrentStreams : Nat
  deriving DecidableEq, Repr

/-- The struct `LogConfig`. -/
structure LogConfig where
  Level : String
  Format : String
  Output : String
  EnableCaller : Bool
  TimestampFormat : String
  deriving DecidableEq, Repr

/-- The struct `PubSubConfig`. -/
structure PubSubConfig where
  MaxSubscribersPerKey : Int
  MessageBufferSize : Int
  CleanupInterval : Int
  deriving DecidableEq, Repr

/-- The struct `Config`. -/
structure Config where
  Server : ServerConfig
  Log : LogConfig
  PubSub : PubSubConfig
  deriving DecidableEq, Repr

/-- The constant `time.Second`. -/
def Second : Int := 1000000000

/-- The constant `time.Minute`. -/
def Minute : Int := 60 * Second

/-- The function `Default`. -/
def Default : Config :=
  { Server :=
      { Port := 8080, Host := "0.0.0.0", GracefulShutdownTimeout := 30 * Second,
        MaxConcurrentStreams := 100 },
    Log :=
      { Level := "info", Format := "json", Output := "stdout", EnableCaller := true,
        TimestampFormat := "2006-01-02 15:04:05" },
    PubSub :=
      { MaxSubscribersPerKey := 1000, MessageBufferSize := 100, CleanupInterval := 5 * Minute } }

/-- The method `(*Config).validate`: the message of the first failed check. -/
def Config.validate (c : Config) : Option String :=
  if c.Server.Port < 1 ∨ c.Server.Port > 65535 then
    some ("invalid server port: " ++ toString c.Server.Port)
  else if c.Server.Host = "" then some "server host is required"
  else if c.Server.GracefulShutdownTimeout ≤ 0 then
    some "graceful shutdown timeout must be positive"
  else if c.Server.MaxConcurrentStreams < 1 then some "max concurrent streams must be positive"
  else if ¬ (c.Log.Level ∈ ["debug", "info", "warn", "error", "fatal", "panic"]) then
    some ("invalid log level: " ++ c.Log.Level)
  else if ¬ (c.Log.Format ∈ ["json", "text"]) then some ("invalid log format: " ++ c.Log.Format)
  else if c.Log.Output = "" then some "log output is required"
  else if c.PubSub.MaxSubscribersPerKey < 1 then some "max subscribers per key must be positive"
  else if c.PubSub.MessageBufferSize < 1 then some "message buffer size must be positive"
  else if c.PubSub.CleanupInterval ≤ 0 then some "cleanup interval must be positive"
  else none

end config

/-! ## Sequences of calls on the event store -/

namespace repository

/-- A sequence of `Save` calls, one per event, with the errors returned in
order; `none` when a call panics. -/
def InMemoryRepository.saveAll (r : InMemoryRepository) (chans : List EventChan) :
    List entity.Event →
      Option (InMemoryRepository × List EventChan × List (Option errors.Error))
  | [] => some (r, chans, [])
  | event :: events =>
    match r.Save chans event with
    | none => none
    | some (r1, chans1, err, _) =>
      match InMemoryRepository.saveAll r1 chans1 events with
      | none => none
      | some (r2, chans2, errs) => some (r2, chans2, err :: errs)

/-- A sequence of `Subscribe` calls under one key, one per handler, with the
errors returned in order. -/
def InMemoryRepository.subscribeAll (r : InMemoryRepository) (key : String) :
    List Callback → InMemoryRepository × List (Option errors.Error)
  | [] => (r, [])
  | handler :: handlers =>
    ((InMemoryRepository.subscribeAll (r.Subscribe key handler).1 key handlers).1,
      (r.Subscribe key handler).2 ::
        (InMemoryRepository.subscribeAll (r.Subscribe key handler).1 key handlers).2)

end repository

/-! ## Traces of the server, seen from one stream -/

namespace grpc

/-- The invariant of the callbacks in the store: the channel of each is
allocated, the callbacks under one key have different channels, and a channel
belongs to callbacks of one key only. -/
structure CallbackInv (w : World) : Prop where
  cbLt : ∀ k, ∀ cb ∈ mapSlice w.h.eventRepo.subscribers k, cb.events < w.chans.length
  cbNodup : ∀ k,
    ((mapSlice w.h.eventRepo.subscribers k).map repository.Callback.events).Nodup
  cbKey : ∀ k1 k2 cb1 cb2, cb1 ∈ mapSlice w.h.eventRepo.subscribers k1 →
    cb2 ∈ mapSlice w.h.eventRepo.subscribers k2 → cb1.events = cb2.events → k1 = k2

/-- A run of the server: the calls made, each with what it gave back, from the
first state to the last; every round of a loop belongs to a live stream. -/
inductive Runs : World → List (Op × Out) → World → Prop
  | done (w : World) : Runs w [] w
  | next (w w1 w2 : World) (op : Op) (o : Out) (tr : List (Op × Out)) :
      op.valid w → step w op = some (w1, o) → Runs w1 tr w2 → Runs w ((op, o) :: tr) w2

/-- The event a call sends to the client of the stream `st`: the one a round
of the loop of `st` passes to `stream.Send` before going on. -/
def sentBy (st : Stream) : Op × Out → List proto.Event
  | (Op.wake st1 _, Out.looped (Looped.continues (some v))) => if st1 = st then [v] else []
  | _ => []

/-- The event a call publishes under `key`: the `Data` of a `Publish` request
for `key` that returned without error. -/
def publishedBy (key : String) : Op × Out → List proto.Event
  | (Op.publish _ _ k data, Out.published none _) => if k = key then [⟨data⟩] else []
  | _ => []

/-- The events sent to the client of `st` over a run, in order. -/
def sentTo (st : Stream) : List (Op × Out) → List proto.Event
  | [] => []
  | p :: tr => sentBy st p ++ sentTo st tr

/-- The events published under `key` over a run, in order. -/
def publishedOn (key : String) : List (Op × Out) → List proto.Event
  | [] => []
  | p :: tr => publishedBy key p ++ publishedOn key tr

/-- Whether a call is a round of the loop of `st` in which `Handler.Subscribe`
returns. -/
def returnsIn (st : Stream) : Op × Out → Bool
  | (Op.wake st1 _, Out.looped (Looped.returned _)) => decide (st1 = st)
  | _ => false

/-- The bounded queue of the specification, run along the calls of the server:
the events a run puts into the queue of `st` when `pending` events wait in it
at the start. A publish under the key of `st` is accepted while fewer than 100
events are pending and dropped otherwise; an event sent to the client frees a
place. -/
def acceptedOn (st : Stream) : Nat → List (Op × Out) → List proto.Event
  | _, [] => []
  | pending, p :: tr =>
    (if pending < 100 then publishedBy st.key p else []) ++
      acceptedOn st
        (pending + (if pending < 100 then publishedBy st.key p else []).length -
          (sentBy st p).length) tr

end grpc

/-! ## Lemmas on maps -/

theorem mapLookup_mapStore {β : Type} (m : List (String × β)) (k k1 : String) (v : β) :
    mapLookup (mapStore m k v) k1 = if k1 = k then some v else mapLookup m k1 := by
  induction m with
  | nil => simp [mapStore, mapLookup]
  | cons e m ih =>
    obtain ⟨k0, w0⟩ := e
    by_cases h : k = k0
    · subst h
      by_cases h1 : k1 = k <;> simp [mapStore, mapLookup, h1]
    · by_cases h1 : k1 = k
      · subst h1
        simp [mapStore, mapLookup, h, ih]
      · by_cases h2 : k1 = k0
        · subst h2
          simp [mapStore, mapLookup, h, h1]
        · simp [mapStore, mapLookup, h, h1, h2, ih]

theorem mapSlice_mapStore {β : Type} (m : List (String × List β)) (k k1 : String) (v : List β) :
    mapSlice (mapStore m k v) k1 = if k1 = k then v else mapSlice m k1 := by
  unfold mapSlice
  rw [mapLookup_mapStore]
  split <;> rfl

theorem mem_of_mapLookup {β : Type} (m : List (String × β)) (k : String) (v : β)
    (h : mapLookup m k = some v) : (k, v) ∈ m := by
  induction m with
  | nil => simp [mapLookup] at h
  | cons e m ih =>
    obtain ⟨k0, w0⟩ := e
    by_cases hk : k = k0
    · subst hk
      simp [mapLookup] at h
      simp [h]
    · simp [mapLookup, hk] at h
      exact List.mem_cons_of_mem _ (ih h)

theorem mapLookup_of_mem {β : Type} (m : List (String × β)) (k : String) (v : β)
    (hn : (m.map Prod.fst).Nodup) (h : (k, v) ∈ m) : mapLookup m k = some v := by
  induction m with
  | nil => simp at h
  | cons e m ih =>
    obtain ⟨k0, w0⟩ := e
    simp only [List.map_cons, List.nodup_cons] at hn
    rcases List.mem_cons.1 h with h1 | h1
    · simp only [Prod.mk.injEq] at h1
      simp [mapLookup, h1.1, h1.2]
    · have hk : k ≠ k0 := by
        intro hk
        subst hk
        exact hn.1 (List.mem_map.2 ⟨(k, v), h1, rfl⟩)
      simp [mapLookup, hk, ih hn.2 h1]

theorem keys_mapStore {β : Type} (m : List (String × β)) (k : String) (v : β) :
    (mapStore m k v).map Prod.fst =
      if k ∈ m.map Prod.fst then m.map Prod.fst else m.map Prod.fst ++ [k] := by
  induction m with
  | nil => simp [mapStore]
  | cons e m ih =>
    obtain ⟨k0, w0⟩ := e
    by_cases hk : k = k0
    · subst hk
      simp [mapStore]
    · by_cases hm : k ∈ m.map Prod.fst
      · simp only [mapStore, hk, if_false, List.map_cons, ih, hm, if_true, List.mem_cons, or_true]
      · simp only [mapStore, hk, if_false, List.map_cons, ih, hm, List.mem_cons, or_false,
          List.cons_append]

theorem keys_mapStore_nodup {β : Type} (m : List (String × β)) (k : String) (v : β)
    (hn : (m.map Prod.fst).Nodup) : ((mapStore m k v).map Prod.fst).Nodup := by
  rw [keys_mapStore]
  split
  · exact hn
  · rename_i hk
    exact List.Nodup.append hn (List.nodup_singleton k) (by simpa using hk)

namespace subpub

/-! ## Lemmas on the broker -/

theorem close_inner_spec (l : List subscription) : ∀ h : Heap,
    ∃ h1 cs, Close.inner h l = some (h1, cs) ∧
      ClosePost h (fun c => ∃ s ∈ l, s.done = c) h1 cs := by
  induction l with
  | nil =>
    intro h
    exact ⟨h, [], rfl, rfl, by simp, by simp, by simp⟩
  | cons sub rest ih =>
    intro h
    by_cases hc : sub.done ∈ h.closed
    · obtain ⟨h1, cs, he, hn, hcl, hnd, hiff⟩ := ih h
      refine ⟨h1, cs, ?_, hn, hcl, hnd, ?_⟩
      · simp [Close.inner, Heap.isClosed, hc, he]
      · intro c
        rw [hiff c]
        constructor
        · rintro ⟨h2, s, hs, rfl⟩
          exact ⟨h2, s, List.mem_cons_of_mem _ hs, rfl⟩
        · rintro ⟨h2, s, hs, rfl⟩
          rcases List.mem_cons.1 hs with rfl | hs
          · exact absurd hc h2
          · exact ⟨h2, s, hs, rfl⟩
    · obtain ⟨h1, cs, he, hn, hcl, hnd, hiff⟩ := ih { h with closed := sub.done :: h.closed }
      refine ⟨h1, sub.done :: cs, ?_, hn, ?_, ?_, ?_⟩
      · simp [Close.inner, Heap.isClosed, Heap.close, hc, he]
      · simp [hcl]
      · refine List.nodup_cons.2 ⟨?_, hnd⟩
        intro hm
        exact ((hiff _).1 hm).1 (List.mem_cons_self _ _)
      · intro c
        constructor
        · intro hm
          rcases List.mem_cons.1 hm with rfl | hm
          · exact ⟨hc, sub, List.mem_cons_self _ _, rfl⟩
          · obtain ⟨h2, s, hs, rfl⟩ := (hiff c).1 hm
            exact ⟨fun h3 => h2 (List.mem_cons_of_mem _ h3), s, List.mem_cons_of_mem _ hs, rfl⟩
        · rintro ⟨h2, s, hs, rfl⟩
          by_cases hsd : s.done = sub.done
          · rw [hsd]
            exact List.mem_cons_self _ _
          · refine List.mem_cons_of_mem _ ((hiff _).2 ⟨?_, ?_⟩)
            · intro h3
              rcases List.mem_cons.1 h3 with h4 | h4
              · exact hsd h4
              · exact h2 h4
            · rcases List.mem_cons.1 hs with rfl | hs
              · exact absurd rfl hsd
              · exact ⟨s, hs, rfl⟩

theorem close_outer_spec (m : List (String × List subscription)) : ∀ h : Heap,
    ∃ h1 cs, Close.outer h m = some (h1, cs) ∧
      ClosePost h (fun c => ∃ e ∈ m, ∃ s ∈ e.2, s.done = c) h1 cs := by
  induction m with
  | nil =>
    intro h
    exact ⟨h, [], rfl, rfl, by simp, by simp, by simp⟩
  | cons e m ih =>
    intro h
    obtain ⟨k, subs⟩ := e
    obtain ⟨h1, cs1, he1, hn1, hcl1, hnd1, hiff1⟩ := close_inner_spec subs h
    obtain ⟨h2, cs2, he2, hn2, hcl2, hnd2, hiff2⟩ := ih h1
    refine ⟨h2, cs1 ++ cs2, ?_, ?_, ?_, ?_, ?_⟩
    · simp [Close.outer, he1, he2]
    · rw [hn2, hn1]
    · rw [hcl2, hcl1]
      simp
    · refine List.Nodup.append hnd1 hnd2 ?_
      intro c hc1 hc2
      have := ((hiff2 c).1 hc2).1
      rw [hcl1] at this
      exact this (List.mem_append_left _ (List.mem_reverse.2 hc1))
    · intro c
      rw [List.mem_append, hiff1 c, hiff2 c, hcl1]
      constructor
      · rintro (⟨h3, s, hs, rfl⟩ | ⟨h3, e, he, s, hs, rfl⟩)
        · exact ⟨h3, (k, subs), List.mem_cons_self _ _, s, hs, rfl⟩
        · exact ⟨fun h4 => h3 (List.mem_append_right _ h4), e, List.mem_cons_of_mem _ he, s, hs, rfl⟩
      · rintro ⟨h3, e, he, s, hs, rfl⟩
        by_cases hin : s.done ∈ cs1
        · exact Or.inl ((hiff1 _).1 hin)
        · right
          refine ⟨?_, ?_⟩
          · intro h4
            rcases List.mem_append.1 h4 with h5 | h5
            · exact hin (List.mem_reverse.1 h5)
            · exact h3 h5
          · rcases List.mem_cons.1 he with rfl | he
            · exact absurd ((hiff1 _).2 ⟨h3, s, hs, rfl⟩) hin
            · exact ⟨e, he, s, hs, rfl⟩

theorem Unsubscribe_eq_some (w w1 : World) (s : subscription) (h : Unsubscribe w s = some w1) :
    s.done ∉ w.heap.closed ∧
      w1 = { w with heap := { w.heap with closed := s.done :: w.heap.closed } } := by
  unfold Unsubscribe Heap.close Heap.isClosed at h
  by_cases hc : s.done ∈ w.heap.closed
  · simp [hc] at h
  · simp [hc] at h
    exact ⟨hc, h.symm⟩

theorem Close_closed (w : World) (ctx : Context) (hc : w.sp.closed = true) :
    Close w ctx = some (w, [], CloseResult.returned none) := by
  simp [Close, hc]

theorem Close_open (w : World) (ctx : Context) (ho : w.sp.closed = false) :
    ∃ h1 cs, Close w ctx =
        some ({ sp := { subscribers := [], closed := true }, heap := h1 }, cs, ctx.wait) ∧
      ClosePost w.heap (fun c => ∃ e ∈ w.sp.subscribers, ∃ s ∈ e.2, s.done = c) h1 cs := by
  obtain ⟨h1, cs, he, hp⟩ := close_outer_spec w.sp.subscribers w.heap
  exact ⟨h1, cs, by simp [Close, ho, he], hp⟩

theorem mem_entry_of_mem_mapSlice (m : List (String × List subscription)) (k : String)
    (s : subscription) (h : s ∈ mapSlice m k) : ∃ e ∈ m, s ∈ e.2 := by
  unfold mapSlice at h
  cases hl : mapLookup m k with
  | none => simp [hl] at h
  | some l =>
    simp [hl] at h
    exact ⟨(k, l), mem_of_mapLookup m k l hl, h⟩

theorem mem_mapSlice_of_mem_entry (m : List (String × List subscription))
    (hn : (m.map Prod.fst).Nodup) (e : String × List subscription) (he : e ∈ m)
    (s : subscription) (h : s ∈ e.2) : s ∈ mapSlice m e.1 := by
  unfold mapSlice
  rw [mapLookup_of_mem m e.1 e.2 hn he]
  exact h

theorem inv_init : Inv World.init :=
  ⟨by simp [World.init, NewSubPub], by simp [World.init], by simp [World.init, NewSubPub, mapSlice, mapLookup],
    by simp [World.init, NewSubPub, mapSlice, mapLookup],
    by simp [World.init, NewSubPub, mapSlice, mapLookup], by simp [World.init, NewSubPub]⟩

theorem inv_subscribe (w : World) (hi : Inv w) (subject : String) (cb : MessageHandler) :
    Inv (Subscribe w subject cb).1 := by
  unfold Subscribe
  by_cases hc : w.sp.closed = true
  · simpa [hc] using hi
  · simp only [hc, if_false, Bool.false_eq_true]
    refine ⟨keys_mapStore_nodup _ _ _ hi.keys, ?_, ?_, ?_, ?_, ?_⟩
    · intro c hcl
      exact Nat.lt_succ_of_lt (hi.closedLt c hcl)
    · intro k s hs
      simp only [mapSlice_mapStore] at hs
      split at hs
      · rcases List.mem_append.1 hs with h1 | h1
        · exact Nat.lt_succ_of_lt (hi.doneLt _ s h1)
        · simp only [List.mem_singleton] at h1
          subst h1
          exact Nat.lt_succ_self _
      · exact Nat.lt_succ_of_lt (hi.doneLt _ s hs)
    · intro k s hs
      simp only [mapSlice_mapStore] at hs
      split at hs
      · rename_i hk
        rcases List.mem_append.1 hs with h1 | h1
        · rw [hk]
          exact hi.subj _ s h1
        · simp only [List.mem_singleton] at h1
          subst h1
          exact hk.symm
      · exact hi.subj _ s hs
    · intro k
      simp only [mapSlice_mapStore]
      split
      · refine List.Nodup.append (hi.nodup _) (List.nodup_singleton _) ?_
        intro s hs hs1
        simp only [List.mem_singleton] at hs1
        subst hs1
        exact Nat.lt_irrefl _ (hi.doneLt _ _ hs)
      · exact hi.nodup _
    · intro h
      simp at h

theorem inv_unsubscribe (w w1 : World) (hi : Inv w) (s : subscription)
    (hv : s.done < w.heap.next) (h : Unsubscribe w s = some w1) : Inv w1 := by
  obtain ⟨_, rfl⟩ := Unsubscribe_eq_some w w1 s h
  refine ⟨hi.keys, ?_, hi.doneLt, hi.subj, hi.nodup, hi.empty⟩
  intro c hc
  rcases List.mem_cons.1 hc with rfl | hc
  · exact hv
  · exact hi.closedLt c hc

theorem inv_close (w w1 : World) (hi : Inv w) (ctx : Context) (cs : List Chan)
    (r : CloseResult) (h : Close w ctx = some (w1, cs, r)) : Inv w1 := by
  by_cases hc : w.sp.closed = true
  · rw [Close_closed w ctx hc] at h
    simp only [Option.some.injEq, Prod.mk.injEq] at h
    rw [← h.1]
    exact hi
  · obtain ⟨h1, cs1, he, hn, hcl, _, hiff⟩ := Close_open w ctx (by simpa using hc)
    rw [he] at h
    simp only [Option.some.injEq, Prod.mk.injEq] at h
    obtain ⟨rfl, rfl, _⟩ := h
    refine ⟨by simp, ?_, by simp [mapSlice, mapLookup], by simp [mapSlice, mapLookup],
      by simp [mapSlice, mapLookup], by simp⟩
    intro c hcm
    simp only at hcm
    rw [hcl] at hcm
    simp only [hn]
    rcases List.mem_append.1 hcm with h2 | h2
    · obtain ⟨_, e, hem, s, hs, rfl⟩ := (hiff c).1 (List.mem_reverse.1 h2)
      exact hi.doneLt e.1 s (mem_mapSlice_of_mem_entry _ hi.keys e hem s hs)
    · exact hi.closedLt c h2

theorem inv_preserved (w w1 : World) (hi : Inv w) (op : Op) (o : Out) (hv : op.valid w)
    (h : step w op = some (w1, o)) : Inv w1 := by
  cases op with
  | subscribe subject cb =>
    simp only [step, Option.some.injEq, Prod.mk.injEq] at h
    rw [← h.1]
    exact inv_subscribe w hi subject cb
  | publish subject msg =>
    simp only [step, Option.some.injEq, Prod.mk.injEq] at h
    rw [← h.1]
    unfold Publish
    split <;> exact hi
  | unsubscribe s =>
    simp only [step] at h
    cases hu : Unsubscribe w s with
    | none => simp [hu] at h
    | some w2 =>
      simp only [hu, Option.some.injEq, Prod.mk.injEq] at h
      rw [← h.1]
      exact inv_unsubscribe w w2 hi s hv hu
  | close ctx =>
    simp only [step] at h
    cases hu : Close w ctx with
    | none => simp [hu] at h
    | some r =>
      obtain ⟨w2, cs, r⟩ := r
      simp only [hu, Option.some.injEq, Prod.mk.injEq] at h
      rw [← h.1]
      exact inv_close w w2 hi ctx cs r hu

theorem reachable_inv (w : World) (hr : Reachable w) : Inv w := by
  induction hr with
  | init => exact inv_init
  | next w w1 op o _ hv hs ih => exact inv_preserved w w1 ih op o hv hs

theorem step_closed (w : World) (hc : w.sp.closed = true) (op : Op)
    (h : op.isUnsubscribe = false) :
    ∃ o, step w op = some (w, o) ∧
      (∀ subject cb, op = Op.subscribe subject cb →
        o = Out.subscribed none (some Error.ErrClosed)) ∧
      (∀ subject msg, op = Op.publish subject msg →
        o = Out.published (some Error.ErrClosed) []) := by
  cases op with
  | subscribe subject cb =>
    refine ⟨Out.subscribed none (some Error.ErrClosed), by simp [step, Subscribe, hc], ?_, ?_⟩
    · intro _ _ _
      rfl
    · intro _ _ h1
      cases h1
  | publish subject msg =>
    refine ⟨Out.published (some Error.ErrClosed) [], by simp [step, Publish, hc], ?_, ?_⟩
    · intro _ _ h1
      cases h1
    · intro _ _ _
      rfl
  | unsubscribe s => simp [Op.isUnsubscribe] at h
  | close ctx =>
    refine ⟨Out.closed [] (CloseResult.returned none), by simp [step, Close_closed w ctx hc], ?_, ?_⟩
    · intro _ _ h1
      cases h1
    · intro _ _ h1
      cases h1

theorem run_closed (w : World) (hc : w.sp.closed = true) (ops : List Op)
    (hops : ∀ op ∈ ops, op.isUnsubscribe = false) :
    ∃ outs, run w ops = some (w, outs) ∧ outs.length = ops.length ∧
      (∀ (i : Nat) subject cb, ops[i]? = some (Op.subscribe subject cb) →
        outs[i]? = some (Out.subscribed none (some Error.ErrClosed))) ∧
      (∀ (i : Nat) subject msg, ops[i]? = some (Op.publish subject msg) →
        outs[i]? = some (Out.published (some Error.ErrClosed) [])) := by
  induction ops with
  | nil => exact ⟨[], rfl, rfl, by simp, by simp⟩
  | cons op ops ih =>
    obtain ⟨o, hs, ho1, ho2⟩ := step_closed w hc op (hops op (List.mem_cons_self _ _))
    obtain ⟨outs, hr, hl, h1, h2⟩ := ih (fun op1 h => hops op1 (List.mem_cons_of_mem _ h))
    refine ⟨o :: outs, by simp [run, hs, hr], by simp [hl], ?_, ?_⟩
    · intro i subject cb hi
      cases i with
      | zero =>
        simp only [List.getElem?_cons_zero, Option.some.injEq] at hi
        simp [ho1 subject cb hi]
      | succ i =>
        simp only [List.getElem?_cons_succ] at hi ⊢
        exact h1 i subject cb hi
    · intro i subject msg hi
      cases i with
      | zero =>
        simp only [List.getElem?_cons_zero, Option.some.injEq] at hi
        simp [ho2 subject msg hi]
      | succ i =>
        simp only [List.getElem?_cons_succ] at hi ⊢
        exact h2 i subject msg hi

theorem count_eq_one_of_nodup_mem {α : Type} [BEq α] [LawfulBEq α] (a : α) (l : List α)
    (d : l.Nodup) (h : a ∈ l) : l.count a = 1 := by
  induction l with
  | nil => simp at h
  | cons b l ih =>
    rw [List.nodup_cons] at d
    rw [List.count_cons]
    by_cases hab : b = a
    · subst hab
      simp [List.count_eq_zero_of_not_mem d.1]
    · rcases List.mem_cons.1 h with h1 | h1
      · exact absurd h1.symm hab
      · simp [ih d.2 h1, hab]

theorem publish_mem_loop (h : Heap) (msg : Msg) (l : List subscription) (g : subscription × Msg) :
    g ∈ Publish.loop h msg l ↔ g.2 = msg ∧ g.1 ∈ l ∧ h.isClosed g.1.done = false := by
  induction l with
  | nil => simp [Publish.loop]
  | cons sub rest ih =>
    unfold Publish.loop
    by_cases hc : h.isClosed sub.done = true
    · simp only [hc, if_true, ih, List.mem_cons]
      constructor
      · rintro ⟨h1, h2, h3⟩
        exact ⟨h1, Or.inr h2, h3⟩
      · rintro ⟨h1, h2 | h2, h3⟩
        · rw [h2, hc] at h3
          cases h3
        · exact ⟨h1, h2, h3⟩
    · simp only [hc, if_false, List.mem_cons, ih, Bool.false_eq_true]
      constructor
      · rintro (h1 | ⟨h1, h2, h3⟩)
        · subst h1
          exact ⟨rfl, Or.inl rfl, by simpa using hc⟩
        · exact ⟨h1, Or.inr h2, h3⟩
      · rintro ⟨h1, h2 | h2, h3⟩
        · left
          exact Prod.ext h2 h1
        · exact Or.inr ⟨h1, h2, h3⟩

theorem publish_loop_nodup (h : Heap) (msg : Msg) (l : List subscription) (hn : l.Nodup) :
    (Publish.loop h msg l).Nodup := by
  induction l with
  | nil => simp [Publish.loop]
  | cons sub rest ih =>
    rw [List.nodup_cons] at hn
    unfold Publish.loop
    split
    · exact ih hn.2
    · refine List.nodup_cons.2 ⟨?_, ih hn.2⟩
      intro hm
      exact hn.1 ((publish_mem_loop h msg rest (sub, msg)).1 hm).2.1

theorem reachable_subscribe (w : World) (hr : Reachable w) (subject : String)
    (cb : MessageHandler) : Reachable (Subscribe w subject cb).1 :=
  Reachable.next w _ (Op.subscribe subject cb) _ hr trivial rfl

theorem reachable_unsubscribe (w w1 : World) (hr : Reachable w) (s : subscription)
    (hv : s.done < w.heap.next) (h : Unsubscribe w s = some w1) : Reachable w1 :=
  Reachable.next w w1 (Op.unsubscribe s) Out.unsubscribed hr hv (by simp [step, h])

theorem reachable_close (w w1 : World) (hr : Reachable w) (ctx : Context) (cs : List Chan)
    (r : CloseResult) (h : Close w ctx = some (w1, cs, r)) : Reachable w1 :=
  Reachable.next w w1 (Op.close ctx) (Out.closed cs r) hr trivial (by simp [step, h])

theorem Publish_state (w : World) (subject : String) (msg : Msg) :
    (Publish w subject msg).1 = w := by
  unfold Publish
  split <;> rfl

theorem step_cases (w w1 : World) (op : Op) (o : Out) (h : step w op = some (w1, o)) :
    (∃ subject cb, op = Op.subscribe subject cb ∧ w1 = (Subscribe w subject cb).1) ∨
    (∃ subject msg, op = Op.publish subject msg ∧ w1 = w) ∨
    (∃ s, op = Op.unsubscribe s ∧ Unsubscribe w s = some w1) ∨
    (∃ ctx cs r, op = Op.close ctx ∧ Close w ctx = some (w1, cs, r)) := by
  cases op with
  | subscribe subject cb =>
    simp only [step, Option.some.injEq, Prod.mk.injEq] at h
    exact Or.inl ⟨subject, cb, rfl, h.1.symm⟩
  | publish subject msg =>
    simp only [step, Option.some.injEq, Prod.mk.injEq, Publish_state] at h
    exact Or.inr (Or.inl ⟨subject, msg, rfl, h.1.symm⟩)
  | unsubscribe s =>
    simp only [step] at h
    cases hu : Unsubscribe w s with
    | none => simp [hu] at h
    | some w2 =>
      simp only [hu, Option.some.injEq, Prod.mk.injEq] at h
      exact Or.inr (Or.inr (Or.inl ⟨s, rfl, by rw [← h.1]; exact hu⟩))
  | close ctx =>
    simp only [step] at h
    cases hu : Close w ctx with
    | none => simp [hu] at h
    | some r =>
      obtain ⟨w2, cs, r⟩ := r
      simp only [hu, Option.some.injEq, Prod.mk.injEq] at h
      exact Or.inr (Or.inr (Or.inr ⟨ctx, cs, r, rfl, by rw [← h.1]; exact hu⟩))

theorem run_induction (P : World → Prop) (Q : Op → Prop)
    (hstep : ∀ w w1 op o, Q op → P w → step w op = some (w1, o) → P w1) :
    ∀ (ops : List Op) (w w1 : World) (outs : List Out), (∀ op ∈ ops, Q op) → P w →
      run w ops = some (w1, outs) → P w1 := by
  intro ops
  induction ops with
  | nil =>
    intro w w1 outs _ hp h
    simp only [run, Option.some.injEq, Prod.mk.injEq] at h
    rw [← h.1]
    exact hp
  | cons op ops ih =>
    intro w w1 outs hq hp h
    simp only [run] at h
    cases hs : step w op with
    | none => simp [hs] at h
    | some r =>
      obtain ⟨w2, o⟩ := r
      simp only [hs] at h
      cases hr : run w2 ops with
      | none => simp [hr] at h
      | some r2 =>
        obtain ⟨w3, os⟩ := r2
        simp only [hr, Option.some.injEq, Prod.mk.injEq] at h
        rw [← h.1]
        exact ih w2 w3 os (fun op1 h1 => hq op1 (List.mem_cons_of_mem _ h1))
          (hstep w w2 op o (hq op (List.mem_cons_self _ _)) hp hs) hr

theorem Subscribe_heap_closed (w : World) (subject : String) (cb : MessageHandler) :
    (Subscribe w subject cb).1.heap.closed = w.heap.closed := by
  unfold Subscribe
  split <;> rfl

theorem step_closed_mono (c : Chan) (w w1 : World) (op : Op) (o : Out)
    (hc : c ∈ w.heap.closed) (h : step w op = some (w1, o)) : c ∈ w1.heap.closed := by
  rcases step_cases w w1 op o h with ⟨subject, cb, _, rfl⟩ | ⟨_, _, _, rfl⟩ | ⟨s, _, hu⟩ |
    ⟨ctx, cs, r, _, hcl⟩
  · rw [Subscribe_heap_closed]
    exact hc
  · exact hc
  · obtain ⟨_, rfl⟩ := Unsubscribe_eq_some w w1 s hu
    exact List.mem_cons_of_mem _ hc
  · by_cases hcd : w.sp.closed = true
    · rw [Close_closed w ctx hcd] at hcl
      simp only [Option.some.injEq, Prod.mk.injEq] at hcl
      rw [← hcl.1]
      exact hc
    · obtain ⟨h1, cs1, he, _, hcl1, _, _⟩ := Close_open w ctx (by simpa using hcd)
      rw [he] at hcl
      simp only [Option.some.injEq, Prod.mk.injEq] at hcl
      rw [← hcl.1]
      simp only [hcl1]
      exact List.mem_append_right _ hc

theorem run_closed_mono (c : Chan) (ops : List Op) (w w1 : World) (outs : List Out)
    (hc : c ∈ w.heap.closed) (h : run w ops = some (w1, outs)) : c ∈ w1.heap.closed :=
  run_induction (fun w => c ∈ w.heap.closed) (fun _ => True)
    (fun w w1 op o _ hp hs => step_closed_mono c w w1 op o hp hs) ops w w1 outs
    (fun _ _ => trivial) hc h

theorem step_keeps_open (w w1 : World) (op : Op) (o : Out) (hop : op.isClose = false)
    (ho : w.sp.closed = false) (h : step w op = some (w1, o)) : w1.sp.closed = false := by
  rcases step_cases w w1 op o h with ⟨subject, cb, _, rfl⟩ | ⟨_, _, _, rfl⟩ | ⟨s, _, hu⟩ |
    ⟨ctx, cs, r, rfl, hcl⟩
  · simp [Subscribe, ho]
  · exact ho
  · obtain ⟨_, rfl⟩ := Unsubscribe_eq_some w w1 s hu
    exact ho
  · simp [Op.isClose] at hop

theorem run_keeps_open (ops : List Op) (w w1 : World) (outs : List Out)
    (hops : ∀ op ∈ ops, op.isClose = false) (ho : w.sp.closed = false)
    (h : run w ops = some (w1, outs)) : w1.sp.closed = false :=
  run_induction (fun w => w.sp.closed = false) (fun op => op.isClose = false)
    (fun w w1 op o hq hp hs => step_keeps_open w w1 op o hq hp hs) ops w w1 outs hops ho h

theorem Subscribe_keeps_record (w : World) (subject : String) (cb : MessageHandler)
    (k : String) (s : subscription) (hs : s ∈ mapSlice w.sp.subscribers k) :
    s ∈ mapSlice (Subscribe w subject cb).1.sp.subscribers k := by
  unfold Subscribe
  split
  · exact hs
  · simp only [mapSlice_mapStore]
    split
    · rename_i hk
      subst hk
      exact List.mem_append_left _ hs
    · exact hs

theorem step_keeps_record (k : String) (s : subscription) (w w1 : World) (op : Op) (o : Out)
    (hop : op.isClose = false) (hs : s ∈ mapSlice w.sp.subscribers k)
    (h : step w op = some (w1, o)) : s ∈ mapSlice w1.sp.subscribers k := by
  rcases step_cases w w1 op o h with ⟨subject, cb, _, rfl⟩ | ⟨_, _, _, rfl⟩ | ⟨s1, _, hu⟩ |
    ⟨ctx, cs, r, rfl, hcl⟩
  · exact Subscribe_keeps_record w subject cb k s hs
  · exact hs
  · obtain ⟨_, rfl⟩ := Unsubscribe_eq_some w w1 s1 hu
    exact hs
  · simp [Op.isClose] at hop

theorem run_keeps_record (k : String) (s : subscription) (ops : List Op) (w w1 : World)
    (outs : List Out) (hops : ∀ op ∈ ops, op.isClose = false)
    (hs : s ∈ mapSlice w.sp.subscribers k) (h : run w ops = some (w1, outs)) :
    s ∈ mapSlice w1.sp.subscribers k :=
  run_induction (fun w => s ∈ mapSlice w.sp.subscribers k) (fun op => op.isClose = false)
    (fun w w1 op o hq hp hs => step_keeps_record k s w w1 op o hq hp hs) ops w w1 outs hops hs h

theorem step_record_or_cancelled (k : String) (s : subscription) (w w1 : World) (op : Op)
    (o : Out)
    (hp : s.done ∈ w.heap.closed ∨ (w.sp.closed = false ∧ s ∈ mapSlice w.sp.subscribers k))
    (h : step w op = some (w1, o)) :
    s.done ∈ w1.heap.closed ∨ (w1.sp.closed = false ∧ s ∈ mapSlice w1.sp.subscribers k) := by
  rcases hp with hp | ⟨ho, hs⟩
  · exact Or.inl (step_closed_mono s.done w w1 op o hp h)
  · by_cases hop : op.isClose = false
    · exact Or.inr ⟨step_keeps_open w w1 op o hop ho h, step_keeps_record k s w w1 op o hop hs h⟩
    · left
      rcases step_cases w w1 op o h with ⟨_, _, rfl, _⟩ | ⟨_, _, rfl, _⟩ | ⟨_, rfl, _⟩ |
        ⟨ctx, cs, r, rfl, hcl⟩
      · simp [Op.isClose] at hop
      · simp [Op.isClose] at hop
      · simp [Op.isClose] at hop
      · obtain ⟨h1, cs1, he, _, hcl1, _, hiff⟩ := Close_open w ctx ho
        rw [he] at hcl
        simp only [Option.some.injEq, Prod.mk.injEq] at hcl
        rw [← hcl.1]
        simp only [hcl1]
        by_cases hin : s.done ∈ w.heap.closed
        · exact List.mem_append_right _ hin
        · obtain ⟨e, he1, he2⟩ := mem_entry_of_mem_mapSlice _ k s hs
          exact List.mem_append_left _
            (List.mem_reverse.2 ((hiff s.done).2 ⟨hin, e, he1, s, he2, rfl⟩))

theorem run_record_or_cancelled (k : String) (s : subscription) (ops : List Op) (w w1 : World)
    (outs : List Out)
    (hp : s.done ∈ w.heap.closed ∨ (w.sp.closed = false ∧ s ∈ mapSlice w.sp.subscribers k))
    (h : run w ops = some (w1, outs)) :
    s.done ∈ w1.heap.closed ∨ (w1.sp.closed = false ∧ s ∈ mapSlice w1.sp.subscribers k) :=
  run_induction
    (fun w => s.done ∈ w.heap.closed ∨ (w.sp.closed = false ∧ s ∈ mapSlice w.sp.subscribers k))
    (fun _ => True) (fun w w1 op o _ hp hs => step_record_or_cancelled k s w w1 op o hp hs)
    ops w w1 outs (fun _ _ => trivial) hp h

end subpub

namespace subpub

/-! ## Properties of the broker -/

/-- C1: on a broker that `Close` has marked closed, every sequence of
`Subscribe`/`Publish`/`Close` calls runs without panic and leaves the whole
state as it was (the broker stays closed, nothing is registered); each
`Subscribe` in it returns `(nil, ErrClosed)` and each `Publish` returns
`ErrClosed` and starts no goroutine, for every subject. -/
theorem closed_broker_rejects (w : World) (hc : w.sp.closed = true) (ops : List Op)
    (hops : ∀ op ∈ ops, op.isUnsubscribe = false) :
    (∃ outs, run w ops = some (w, outs) ∧ outs.length = ops.length ∧
      (∀ (i : Nat) subject cb, ops[i]? = some (Op.subscribe subject cb) →
        outs[i]? = some (Out.subscribed none (some Error.ErrClosed))) ∧
      (∀ (i : Nat) subject msg, ops[i]? = some (Op.publish subject msg) →
        outs[i]? = some (Out.published (some Error.ErrClosed) []))) ∧
    (∀ n, ∃ outs1, run w (ops.take n) = some (w, outs1)) ∧
    (∀ subject cb, Subscribe w subject cb = (w, none, some Error.ErrClosed)) ∧
    (∀ subject msg, Publish w subject msg = (w, some Error.ErrClosed, [])) := by
  refine ⟨run_closed w hc ops hops, ?_, ?_, ?_⟩
  · intro n
    obtain ⟨outs1, h, _⟩ :=
      run_closed w hc (ops.take n) (fun op h => hops op (List.mem_of_mem_take h))
    exact ⟨outs1, h⟩
  · intro subject cb
    simp [Subscribe, hc]
  · intro subject msg
    simp [Publish, hc]

/-- C1, at the broker of `TestClose` after its `Close`. -/
theorem closed_broker_rejects_witness :
    ∃ outs, run ⟨⟨[], true⟩, ⟨1, [0]⟩⟩
        [Op.subscribe "test" 7, Op.publish "test" "test message", Op.close Context.background] =
      some (⟨⟨[], true⟩, ⟨1, [0]⟩⟩, outs) :=
  (closed_broker_rejects ⟨⟨[], true⟩, ⟨1, [0]⟩⟩ rfl
    [Op.subscribe "test" 7, Op.publish "test" "test message", Op.close Context.background]
    (by decide)).1.imp (fun _ h => h.1)

/-- C2: on an open broker `Publish(subject, msg)` returns nil and leaves the
state unchanged; for each subscription registered under `subject` whose `done`
is not closed it starts exactly one goroutine, carrying `msg`, and that
goroutine calls the handler with `msg`; it starts no other goroutine, in
particular none for a subscription registered under another subject. -/
theorem Publish_open_dispatches (w : World) (hr : Reachable w) (ho : w.sp.closed = false)
    (subject : String) (msg : Msg) :
    (Publish w subject msg).1 = w ∧ (Publish w subject msg).2.1 = none ∧
    (∀ s ∈ mapSlice w.sp.subscribers subject, w.heap.isClosed s.done = false →
      (Publish w subject msg).2.2.count (s, msg) = 1 ∧
        goroutine (Publish w subject msg).1.heap (s, msg) = [(s.handler, msg)]) ∧
    (∀ g ∈ (Publish w subject msg).2.2,
      g.2 = msg ∧ g.1 ∈ mapSlice w.sp.subscribers subject ∧ w.heap.isClosed g.1.done = false) ∧
    (∀ k, k ≠ subject → ∀ s ∈ mapSlice w.sp.subscribers k, ∀ m,
      (s, m) ∉ (Publish w subject msg).2.2) := by
  have hi := reachable_inv w hr
  have hp : Publish w subject msg = (w, none, Publish.loop w.heap msg (mapSlice w.sp.subscribers subject)) := by
    simp [Publish, ho]
  rw [hp]
  refine ⟨rfl, rfl, ?_, ?_, ?_⟩
  · intro s hs hc
    refine ⟨?_, by simp [goroutine, hc]⟩
    exact count_eq_one_of_nodup_mem _ _ (publish_loop_nodup _ _ _ (hi.nodup subject))
      ((publish_mem_loop w.heap msg _ (s, msg)).2 ⟨rfl, hs, hc⟩)
  · intro g hg
    exact (publish_mem_loop _ _ _ _).1 hg
  · intro k hk s hs m hm
    have h1 := ((publish_mem_loop _ _ _ _).1 hm).2.1
    exact hk ((hi.subj k s hs).symm.trans (hi.subj subject s h1))

/-- C2, at the broker of `TestSubscribeAndPublish`. -/
theorem Publish_open_dispatches_witness :
    (Publish (Subscribe World.init "test" 7).1 "test" "test message").2.1 = none ∧
    (Publish (Subscribe World.init "test" 7).1 "test" "test message").2.2 =
      [(⟨"test", 7, 0⟩, "test message")] :=
  ⟨(Publish_open_dispatches (Subscribe World.init "test" 7).1
      (reachable_subscribe World.init Reachable.init "test" 7) rfl "test" "test message").2.1,
    by decide⟩

/-- C3: let `sub` be the subscription `Subscribe` returned, and let
`Unsubscribe` be called on it after any calls.  After any further calls that
do not panic, `Publish` starts no goroutine for `sub` (with any message, on
any subject), a goroutine started for it earlier calls nothing, and `Publish`
still returns nil as long as `Close` is not among the further calls. -/
theorem unsubscribed_never_dispatched (w : World) (subject : String) (cb : MessageHandler)
    (sub : subscription) (hsub : (Subscribe w subject cb).2.1 = some sub)
    (ops1 : List Op) (w2 : World) (outs1 : List Out)
    (h1 : run (Subscribe w subject cb).1 ops1 = some (w2, outs1))
    (w3 : World) (hu : Unsubscribe w2 sub = some w3)
    (ops2 : List Op) (w4 : World) (outs2 : List Out) (h2 : run w3 ops2 = some (w4, outs2))
    (k : String) (msg : Msg) :
    (∀ g ∈ (Publish w4 k msg).2.2, g.1 ≠ sub) ∧
    (∀ m, goroutine w4.heap (sub, m) = []) ∧
    ((∀ op ∈ ops2, op.isClose = false) → (Publish w4 sub.subject msg).2.1 = none) := by
  obtain ⟨hnc, rfl⟩ := Unsubscribe_eq_some w2 w3 sub hu
  have hc4 : sub.done ∈ w4.heap.closed :=
    run_closed_mono sub.done ops2 _ w4 outs2 (List.mem_cons_self _ _) h2
  have ho : w.sp.closed = false := by
    by_contra hcl
    simp [Subscribe, hcl] at hsub
  have hsub1 : sub = ⟨subject, cb, w.heap.make.2⟩ := by
    simp [Subscribe, ho] at hsub
    exact hsub.symm
  have hw1 : (Subscribe w subject cb).1.sp.closed = false ∧
      sub ∈ mapSlice (Subscribe w subject cb).1.sp.subscribers subject := by
    simp [Subscribe, ho, mapSlice_mapStore, hsub1]
  have ho2 : w2.sp.closed = false := by
    rcases run_record_or_cancelled subject sub ops1 _ w2 outs1 (Or.inr hw1) h1 with h | h
    · exact absurd h hnc
    · exact h.1
  refine ⟨?_, ?_, ?_⟩
  · intro g hg hgs
    unfold Publish at hg
    split at hg
    · simp at hg
    · have h3 := ((publish_mem_loop _ _ _ _).1 hg).2.2
      rw [hgs] at h3
      simp [Heap.isClosed, hc4] at h3
  · intro m
    simp [goroutine, Heap.isClosed, hc4]
  · intro hops
    have ho4 := run_keeps_open ops2 _ w4 outs2 hops (by exact ho2) h2
    simp [Publish, ho4]

/-- C3, at `TestUnsubscribe` with a publish before the `Unsubscribe` and
publishes after it. -/
theorem unsubscribed_never_dispatched_witness :
    (∀ g ∈ (Publish ⟨⟨[("test", [⟨"test", 7, 0⟩])], false⟩, ⟨1, [0]⟩⟩ "test" "c").2.2,
      g.1 ≠ ⟨"test", 7, 0⟩) ∧
    (∀ m, goroutine ⟨1, [0]⟩ (⟨"test", 7, 0⟩, m) = []) ∧
    ((∀ op ∈ [Op.publish "test" "b"], op.isClose = false) →
      (Publish ⟨⟨[("test", [⟨"test", 7, 0⟩])], false⟩, ⟨1, [0]⟩⟩ "test" "c").2.1 = none) :=
  unsubscribed_never_dispatched World.init "test" 7 ⟨"test", 7, 0⟩ rfl
    [Op.publish "test" "a"] ⟨⟨[("test", [⟨"test", 7, 0⟩])], false⟩, ⟨1, []⟩⟩
    [Out.published none [(⟨"test", 7, 0⟩, "a")]] (by decide)
    ⟨⟨[("test", [⟨"test", 7, 0⟩])], false⟩, ⟨1, [0]⟩⟩ (by decide)
    [Op.publish "test" "b"] ⟨⟨[("test", [⟨"test", 7, 0⟩])], false⟩, ⟨1, [0]⟩⟩
    [Out.published none []] (by decide) "test" "c"

/-- C4, the code at the failing inputs: the first `Unsubscribe` on the
subscription returned by `Subscribe("test", cb)` closes its channel, a second
`Unsubscribe` on it panics (close of a closed channel), and so does an
`Unsubscribe` made after `Close` has cancelled the subscription. -/
theorem Unsubscribe_again_panics :
    (Subscribe World.init "test" 7).2.1 = some ⟨"test", 7, 0⟩ ∧
    Unsubscribe (Subscribe World.init "test" 7).1 ⟨"test", 7, 0⟩ =
      some ⟨⟨[("test", [⟨"test", 7, 0⟩])], false⟩, ⟨1, [0]⟩⟩ ∧
    Unsubscribe ⟨⟨[("test", [⟨"test", 7, 0⟩])], false⟩, ⟨1, [0]⟩⟩ ⟨"test", 7, 0⟩ = none ∧
    run World.init
      [Op.subscribe "test" 7, Op.unsubscribe ⟨"test", 7, 0⟩, Op.unsubscribe ⟨"test", 7, 0⟩] =
      none ∧
    run World.init
      [Op.subscribe "test" 7, Op.close Context.deadlineExceeded,
        Op.unsubscribe ⟨"test", 7, 0⟩] = none := by
  decide

/-- C5: the first `Close` on an open broker does not panic; it marks the
broker closed and empties the registry; afterwards the `done` channel of every
subscription that was registered (under any subject) is closed; the channels
it closes are pairwise distinct and are exactly the channels of registered
subscriptions that were still open, so none is closed twice and one closed by
`Unsubscribe` before is skipped. -/
theorem Close_open_cancels_each_once (w : World) (hr : Reachable w)
    (ho : w.sp.closed = false) (ctx : Context) :
    ∃ w1 cs, Close w ctx = some (w1, cs, ctx.wait) ∧
      w1.sp.closed = true ∧ w1.sp.subscribers = [] ∧
      (∀ k, ∀ s ∈ mapSlice w.sp.subscribers k, w1.heap.isClosed s.done = true) ∧
      cs.Nodup ∧
      (∀ c, c ∈ cs ↔
        (w.heap.isClosed c = false ∧ ∃ k, ∃ s ∈ mapSlice w.sp.subscribers k, s.done = c)) ∧
      w1.heap.closed = cs.reverse ++ w.heap.closed := by
  have hi := reachable_inv w hr
  obtain ⟨h1, cs, he, _, hcl, hnd, hiff⟩ := Close_open w ctx ho
  refine ⟨_, cs, he, rfl, rfl, ?_, hnd, ?_, hcl⟩
  · intro k s hs
    simp only [Heap.isClosed, hcl, decide_eq_true_eq, List.mem_append, List.mem_reverse]
    by_cases hin : s.done ∈ w.heap.closed
    · exact Or.inr hin
    · obtain ⟨e, he1, he2⟩ := mem_entry_of_mem_mapSlice _ k s hs
      exact Or.inl ((hiff s.done).2 ⟨hin, e, he1, s, he2, rfl⟩)
  · intro c
    rw [hiff c]
    simp only [Heap.isClosed, decide_eq_false_iff_not]
    constructor
    · rintro ⟨h2, e, he1, s, he2, rfl⟩
      exact ⟨h2, e.1, s, mem_mapSlice_of_mem_entry _ hi.keys e he1 s he2, rfl⟩
    · rintro ⟨h2, k, s, hs, rfl⟩
      obtain ⟨e, he1, he2⟩ := mem_entry_of_mem_mapSlice _ k s hs
      exact ⟨h2, e, he1, s, he2, rfl⟩

/-- C5, at a broker with two subscriptions of which the first was cancelled by
`Unsubscribe`: `Close` closes only the channel of the second. -/
theorem Close_open_cancels_each_once_witness :
    ∃ w1 cs,
      Close ⟨⟨[("test", [⟨"test", 7, 0⟩]), ("other", [⟨"other", 8, 1⟩])], false⟩, ⟨2, [0]⟩⟩
        Context.deadlineExceeded = some (w1, cs, Context.deadlineExceeded.wait) ∧
      w1.sp.closed = true ∧ w1.sp.subscribers = [] ∧ cs = [1] := by
  obtain ⟨w1, cs, h, h1, h2, _⟩ := Close_open_cancels_each_once
    ⟨⟨[("test", [⟨"test", 7, 0⟩]), ("other", [⟨"other", 8, 1⟩])], false⟩, ⟨2, [0]⟩⟩
    (reachable_unsubscribe _ _
      (reachable_subscribe _ (reachable_subscribe _ Reachable.init "test" 7) "other" 8)
      ⟨"test", 7, 0⟩ (by decide) (by decide))
    rfl Context.deadlineExceeded
  refine ⟨w1, cs, h, h1, h2, ?_⟩
  have h3 : Close ⟨⟨[("test", [⟨"test", 7, 0⟩]), ("other", [⟨"other", 8, 1⟩])], false⟩, ⟨2, [0]⟩⟩
      Context.deadlineExceeded =
      some (⟨⟨[], true⟩, ⟨2, [1, 0]⟩⟩, [1], Context.deadlineExceeded.wait) := by decide
  rw [h3] at h
  simp only [Option.some.injEq, Prod.mk.injEq] at h
  exact h.2.1.symm

/-- C6: on a broker that has been closed, `Close(ctx)` returns nil for every
`ctx` (an expired one, and one that is never done, included), closes no
channel, and leaves the state, which has the closed flag set and an empty
registry, unchanged. -/
theorem Close_again_returns_nil (w : World) (hr : Reachable w) (hc : w.sp.closed = true)
    (ctx : Context) :
    Close w ctx = some (w, [], CloseResult.returned none) ∧
      w.sp.closed = true ∧ w.sp.subscribers = [] :=
  ⟨Close_closed w ctx hc, hc, (reachable_inv w hr).empty hc⟩

/-- C6, at the broker of `TestClose` after its first `Close`, with the expired
context of the test. -/
theorem Close_again_returns_nil_witness :
    Close ⟨⟨[], true⟩, ⟨1, [0]⟩⟩ Context.deadlineExceeded =
      some (⟨⟨[], true⟩, ⟨1, [0]⟩⟩, [], CloseResult.returned none) :=
  (Close_again_returns_nil ⟨⟨[], true⟩, ⟨1, [0]⟩⟩
    (reachable_close _ _ (reachable_subscribe _ Reachable.init "test" 7)
      Context.deadlineExceeded [0] (CloseResult.returned (some Error.DeadlineExceeded))
      (by decide))
    rfl Context.deadlineExceeded).1

/-- C7 fails as stated: at the broker of `TestClose`, `Close` with a context
whose deadline expires closes the channel of the one live subscription (the
cancellation is complete before the wait on the context starts) and still
returns deadline-exceeded, not nil. -/
theorem Close_open_deadline_counterexample :
    Close (Subscribe World.init "test" 7).1 Context.deadlineExceeded =
      some (⟨⟨[], true⟩, ⟨1, [0]⟩⟩, [0], CloseResult.returned (some Error.DeadlineExceeded)) ∧
    (Close (Subscribe World.init "test" 7).1 Context.deadlineExceeded).map (fun r => r.2.2) ≠
      some (CloseResult.returned none) := by
  decide

/-- C7 as amended: on an open broker `Close(ctx)` first cancels every
registered subscription and then always waits for `ctx`: it returns
deadline-exceeded when the deadline of `ctx` expires, `context.Canceled` when
`ctx` is cancelled, does not return while `ctx` is never done, and never
returns nil. -/
theorem Close_open_returns_ctx_err (w : World) (ho : w.sp.closed = false) (ctx : Context) :
    ∃ w1 cs, Close w ctx = some (w1, cs, ctx.wait) ∧
      (∀ k, ∀ s ∈ mapSlice w.sp.subscribers k, w1.heap.isClosed s.done = true) ∧
      ctx.wait ≠ CloseResult.returned none ∧
      (ctx = Context.deadlineExceeded →
        ctx.wait = CloseResult.returned (some Error.DeadlineExceeded)) ∧
      (ctx = Context.canceled → ctx.wait = CloseResult.returned (some Error.Canceled)) ∧
      (ctx = Context.background → ctx.wait = CloseResult.blocked) := by
  obtain ⟨h1, cs, he, _, hcl, _, hiff⟩ := Close_open w ctx ho
  refine ⟨_, cs, he, ?_, ?_, ?_, ?_, ?_⟩
  · intro k s hs
    simp only [Heap.isClosed, hcl, decide_eq_true_eq, List.mem_append, List.mem_reverse]
    by_cases hin : s.done ∈ w.heap.closed
    · exact Or.inr hin
    · obtain ⟨e, he1, he2⟩ := mem_entry_of_mem_mapSlice _ k s hs
      exact Or.inl ((hiff s.done).2 ⟨hin, e, he1, s, he2, rfl⟩)
  · cases ctx <;> simp [Context.wait]
  · rintro rfl
    rfl
  · rintro rfl
    rfl
  · rintro rfl
    rfl

/-- C7 as amended, at the broker of `TestClose`. -/
theorem Close_open_returns_ctx_err_witness :
    ∃ w1 cs, Close (Subscribe World.init "test" 7).1 Context.deadlineExceeded =
      some (w1, cs, CloseResult.returned (some Error.DeadlineExceeded)) :=
  (Close_open_returns_ctx_err (Subscribe World.init "test" 7).1 rfl
    Context.deadlineExceeded).imp (fun _ h => h.imp (fun _ h1 => h1.1))

/-- C8 fails as stated: after `Subscribe("test", cb)`, `Unsubscribe` and a
`Publish("test", m)`, the cancelled record is still in the registry list of
its subject. -/
theorem cancelled_record_removed_counterexample :
    run World.init
      [Op.subscribe "test" 7, Op.unsubscribe ⟨"test", 7, 0⟩, Op.publish "test" "m"] =
      some (⟨⟨[("test", [⟨"test", 7, 0⟩])], false⟩, ⟨1, [0]⟩⟩,
        [Out.subscribed (some ⟨"test", 7, 0⟩) none, Out.unsubscribed, Out.published none []]) ∧
    (⟨"test", 7, 0⟩ : subscription) ∈
      mapSlice ([("test", [⟨"test", 7, 0⟩])] : List (String × List subscription)) "test" := by
  decide

/-- C8 as amended: neither `Unsubscribe` nor `Publish` removes a record; a
cancelled record stays in the registry list of its subject through every
sequence of `Subscribe`/`Publish`/`Unsubscribe` calls (every `Publish` skips
it), and is removed only by `Close`, which empties the registry. -/
theorem cancelled_record_stays (w : World) (k : String) (s : subscription)
    (hs : s ∈ mapSlice w.sp.subscribers k) (w1 : World) (hu : Unsubscribe w s = some w1)
    (ops : List Op) (hops : ∀ op ∈ ops, op.isClose = false) (w2 : World) (outs : List Out)
    (hrun : run w1 ops = some (w2, outs)) :
    s ∈ mapSlice w2.sp.subscribers k ∧
    (∀ subject msg, ∀ g ∈ (Publish w2 subject msg).2.2, g.1 ≠ s) ∧
    (∀ ctx w3 cs r, w2.sp.closed = false → Close w2 ctx = some (w3, cs, r) →
      w3.sp.subscribers = []) := by
  obtain ⟨_, rfl⟩ := Unsubscribe_eq_some w w1 s hu
  have hc2 : s.done ∈ w2.heap.closed :=
    run_closed_mono s.done ops _ w2 outs (List.mem_cons_self _ _) hrun
  refine ⟨run_keeps_record k s ops _ w2 outs hops (by exact hs) hrun, ?_, ?_⟩
  · intro subject msg g hg hgs
    unfold Publish at hg
    split at hg
    · simp at hg
    · have h3 := ((publish_mem_loop _ _ _ _).1 hg).2.2
      rw [hgs] at h3
      simp [Heap.isClosed, hc2] at h3
  · intro ctx w3 cs r ho hcl
    obtain ⟨h1, cs1, he, _⟩ := Close_open w2 ctx ho
    rw [he] at hcl
    simp only [Option.some.injEq, Prod.mk.injEq] at hcl
    rw [← hcl.1]

/-- C8 as amended, at `TestUnsubscribe` followed by two publishes. -/
theorem cancelled_record_stays_witness :
    (⟨"test", 7, 0⟩ : subscription) ∈
      mapSlice (World.mk ⟨[("test", [⟨"test", 7, 0⟩])], false⟩ ⟨1, [0]⟩).sp.subscribers "test" :=
  (cancelled_record_stays (Subscribe World.init "test" 7).1 "test" ⟨"test", 7, 0⟩ (by decide)
    ⟨⟨[("test", [⟨"test", 7, 0⟩])], false⟩, ⟨1, [0]⟩⟩ (by decide)
    [Op.publish "test" "a", Op.publish "test" "b"] (by decide)
    ⟨⟨[("test", [⟨"test", 7, 0⟩])], false⟩, ⟨1, [0]⟩⟩
    [Out.published none [], Out.published none []] (by decide)).1

end subpub

/-! ## Lemmas on the channels and the server -/

theorem mapLookup_mapDelete {β : Type} (m : List (String × β)) (k k1 : String) :
    mapLookup (mapDelete m k) k1 = if k1 = k then none else mapLookup m k1 := by
  induction m with
  | nil => simp [mapDelete, mapLookup]
  | cons e m ih =>
    obtain ⟨k0, w0⟩ := e
    by_cases h : k = k0
    · subst h
      by_cases h1 : k1 = k
      · subst h1
        simpa [mapDelete, mapLookup] using ih
      · simpa [mapDelete, mapLookup, h1] using ih
    · by_cases h1 : k1 = k
      · subst h1
        simp [mapDelete, mapLookup, h, ih]
      · by_cases h2 : k1 = k0
        · subst h2
          simp [mapDelete, mapLookup, h, h1]
        · simp [mapDelete, mapLookup, h, h1, h2, ih]

theorem mapSlice_mapDelete {β : Type} (m : List (String × List β)) (k k1 : String) :
    mapSlice (mapDelete m k) k1 = if k1 = k then [] else mapSlice m k1 := by
  unfold mapSlice
  rw [mapLookup_mapDelete]
  split <;> rfl

theorem set_same {α : Type} (l : List α) : ∀ (i : Nat) (a : α), l[i]? = some a → l.set i a = l := by
  induction l with
  | nil =>
    intro i a h
    simp at h
  | cons b l ih =>
    intro i a h
    cases i with
    | zero =>
      simp only [List.getElem?_cons_zero, Option.some.injEq] at h
      simp [h]
    | succ i =>
      simp only [List.getElem?_cons_succ] at h
      simp [ih i a h]

theorem trySend_some (ch ch1 : EventChan) (v : proto.Event) (ok : Bool)
    (h : ch.trySend v = some (ch1, ok)) :
    ch.closed = false ∧ ch1.cap = ch.cap ∧ ch1.closed = ch.closed ∧
      (ch.buf.length ≤ ch.cap → ch1.buf.length ≤ ch.cap) ∧
      ch1.buf = (if ok then ch.buf ++ [v] else ch.buf) := by
  unfold EventChan.trySend at h
  by_cases hc : ch.closed = true
  · simp [hc] at h
  · by_cases hl : ch.buf.length < ch.cap
    · simp [hc, hl] at h
      obtain ⟨rfl, rfl⟩ := h
      simp [hc]
      omega
    · simp [hc, hl] at h
      obtain ⟨rfl, rfl⟩ := h
      simp [hc]

namespace grpc

theorem call_preserves (cb : repository.Callback) (chans chans1 : List EventChan)
    (e : entity.Event) (d : Bool) (h : cb.call chans e = some (chans1, d)) :
    ((∀ ch ∈ chans, ch.cap = 100 ∧ ch.buf.length ≤ 100) →
      ∀ ch ∈ chans1, ch.cap = 100 ∧ ch.buf.length ≤ 100) ∧
    (∀ i : Nat, (chans1[i]?).map EventChan.closed = (chans[i]?).map EventChan.closed) := by
  unfold repository.Callback.call at h
  cases hg : chans[cb.events]? with
  | none => simp [hg] at h
  | some ch =>
    simp only [hg] at h
    cases hs : ch.trySend ⟨e.Data⟩ with
    | none => simp [hs] at h
    | some r =>
      obtain ⟨ch1, ok⟩ := r
      simp only [hs, Option.some.injEq, Prod.mk.injEq] at h
      obtain ⟨rfl, _⟩ := h
      obtain ⟨_, hcap, hcl, hlen, _⟩ := trySend_some ch ch1 _ ok hs
      constructor
      · intro hok c hc
        rcases List.mem_or_eq_of_mem_set hc with h1 | rfl
        · exact hok c h1
        · have h2 := hok ch (List.getElem?_mem hg)
          rw [hcap]
          refine ⟨h2.1, ?_⟩
          have h3 := hlen (by omega)
          omega
      · intro i
        rw [List.getElem?_set]
        by_cases hi : cb.events = i
        · subst hi
          have hlt : cb.events < chans.length := (List.getElem?_eq_some.1 hg).1
          simp [hlt, hg, hcl]
        · simp [hi]

theorem notify_preserves (e : entity.Event) (subscribers : List repository.Callback) :
    ∀ (chans chans1 : List EventChan) (drops : List String),
      repository.Save.notify e subscribers chans = some (chans1, drops) →
      ((∀ ch ∈ chans, ch.cap = 100 ∧ ch.buf.length ≤ 100) →
        ∀ ch ∈ chans1, ch.cap = 100 ∧ ch.buf.length ≤ 100) ∧
      (∀ i : Nat, (chans1[i]?).map EventChan.closed = (chans[i]?).map EventChan.closed) := by
  induction subscribers with
  | nil =>
    intro chans chans1 drops h
    simp only [repository.Save.notify, Option.some.injEq, Prod.mk.injEq] at h
    rw [← h.1]
    exact ⟨fun h => h, fun _ => rfl⟩
  | cons cb rest ih =>
    intro chans chans1 drops h
    simp only [repository.Save.notify] at h
    cases hc : cb.call chans e with
    | none => simp [hc] at h
    | some r =>
      obtain ⟨chans2, d⟩ := r
      simp only [hc] at h
      cases hn : repository.Save.notify e rest chans2 with
      | none => simp [hn] at h
      | some r2 =>
        obtain ⟨chans3, drops3⟩ := r2
        simp only [hn, Option.some.injEq, Prod.mk.injEq] at h
        rw [← h.1]
        obtain ⟨a1, a2⟩ := call_preserves cb chans chans2 e d hc
        obtain ⟨b1, b2⟩ := ih chans2 chans3 drops3 hn
        exact ⟨fun h => b1 (a1 h), fun i => (b2 i).trans (a2 i)⟩

theorem Save_preserves (r r1 : repository.InMemoryRepository) (chans chans1 : List EventChan)
    (e : entity.Event) (err : Option errors.Error) (drops : List String)
    (h : r.Save chans e = some (r1, chans1, err, drops)) :
    ((∀ ch ∈ chans, ch.cap = 100 ∧ ch.buf.length ≤ 100) →
      ∀ ch ∈ chans1, ch.cap = 100 ∧ ch.buf.length ≤ 100) ∧
    (∀ i : Nat, (chans1[i]?).map EventChan.closed = (chans[i]?).map EventChan.closed) := by
  unfold repository.InMemoryRepository.Save at h
  by_cases hc : r.closed = true
  · simp only [hc, if_true, Option.some.injEq, Prod.mk.injEq] at h
    rw [← h.2.1]
    exact ⟨fun h => h, fun _ => rfl⟩
  · simp only [hc, if_false, Bool.false_eq_true] at h
    split at h
    · rename_i subscribers _
      cases hn : repository.Save.notify e subscribers chans with
      | none => simp [hn] at h
      | some r2 =>
        obtain ⟨chans3, drops3⟩ := r2
        simp only [hn, Option.some.injEq, Prod.mk.injEq] at h
        rw [← h.2.1]
        exact notify_preserves e subscribers chans chans3 drops3 hn
    · simp only [Option.some.injEq, Prod.mk.injEq] at h
      rw [← h.2.1]
      exact ⟨fun h => h, fun _ => rfl⟩

theorem Execute_preserves (r r1 : repository.InMemoryRepository) (chans chans1 : List EventChan)
    (idNow : time.Time) (now : Nat) (req : publish.Request) (err : Option errors.Error) (drops : List String)
    (h : publish.Execute r chans idNow now req = some (r1, chans1, err, drops)) :
    ((∀ ch ∈ chans, ch.cap = 100 ∧ ch.buf.length ≤ 100) →
      ∀ ch ∈ chans1, ch.cap = 100 ∧ ch.buf.length ≤ 100) ∧
    (∀ i : Nat, (chans1[i]?).map EventChan.closed = (chans[i]?).map EventChan.closed) := by
  simp only [publish.Execute] at h
  cases hv : (entity.NewEvent idNow now req.Key req.Data).Validate with
  | some e =>
    simp only [hv, Option.some.injEq, Prod.mk.injEq] at h
    rw [← h.2.1]
    exact ⟨fun h => h, fun _ => rfl⟩
  | none =>
    simp only [hv] at h
    exact Save_preserves _ _ _ _ _ _ _ h

theorem Publish_preserves (w w1 : World) (idNow : time.Time) (now : Nat) (key data : String) (code : Option Code)
    (drops : List String) (h : Handler.Publish w idNow now key data = some (w1, code, drops)) :
    w1.h.subs = w.h.subs ∧
    ((∀ ch ∈ w.chans, ch.cap = 100 ∧ ch.buf.length ≤ 100) →
      ∀ ch ∈ w1.chans, ch.cap = 100 ∧ ch.buf.length ≤ 100) ∧
    (∀ i : Nat, (w1.chans[i]?).map EventChan.closed = (w.chans[i]?).map EventChan.closed) := by
  unfold Handler.Publish at h
  split at h
  · simp only [Option.some.injEq, Prod.mk.injEq] at h
    rw [← h.1]
    exact ⟨rfl, fun h => h, fun _ => rfl⟩
  · split at h
    · simp at h
    · rename_i repo chans err drops1 hx
      simp only [Option.some.injEq, Prod.mk.injEq] at h
      rw [← h.1]
      exact ⟨rfl, Execute_preserves _ _ _ _ _ _ _ _ _ hx⟩

theorem mem_setDelete (m : List Nat) (c x : Nat) : x ∈ setDelete m c ↔ x ∈ m ∧ x ≠ c := by
  simp [setDelete]

theorem mem_setInsert (m : List Nat) (c x : Nat) : x ∈ setInsert m c ↔ x ∈ m ∨ x = c := by
  unfold setInsert
  split
  · rename_i hc
    constructor
    · exact Or.inl
    · rintro (h | rfl)
      · exact h
      · exact hc
  · simp

theorem mapSlice_exit_subs (subs : List (String × List Nat)) (key : String) (a : Nat)
    (k : String) :
    mapSlice (if (setDelete (mapSlice subs key) a).length = 0 then mapDelete subs key
      else mapStore subs key (setDelete (mapSlice subs key) a)) k =
      if k = key then setDelete (mapSlice subs key) a else mapSlice subs k := by
  split
  · rename_i h0
    rw [mapSlice_mapDelete]
    split
    · exact (List.length_eq_zero.1 h0).symm
    · rfl
  · rw [mapSlice_mapStore]

theorem lt_of_open (chans : List EventChan) (a : Nat)
    (h : (chans[a]?).map EventChan.closed = some false) : a < chans.length := by
  by_contra hn
  rw [List.getElem?_eq_none (by omega)] at h
  simp at h

theorem close_some (ch ch1 : EventChan) (h : ch.close = some ch1) :
    ch.closed = false ∧ ch1 = { ch with closed := true } := by
  unfold EventChan.close at h
  by_cases hc : ch.closed = true
  · simp [hc] at h
  · simp [hc] at h
    exact ⟨by simpa using hc, h.symm⟩

theorem exit_some (w w1 : World) (st : Stream) (h : Handler.Subscribe.exit w st = some w1) :
    ∃ ch, w.chans[st.events]? = some ch ∧ ch.closed = false ∧
      w1.chans = w.chans.set st.events { ch with closed := true } ∧
      w1.h.eventRepo = w.h.eventRepo ∧
      ∀ k, mapSlice w1.h.subs k =
        if k = st.key then setDelete (mapSlice w.h.subs st.key) st.events
        else mapSlice w.h.subs k := by
  unfold Handler.Subscribe.exit at h
  cases hg : w.chans[st.events]? with
  | none => simp [hg] at h
  | some ch =>
    simp only [hg] at h
    cases hc : ch.close with
    | none => simp [hc] at h
    | some ch1 =>
      simp only [hc, Option.some.injEq] at h
      obtain ⟨ho, rfl⟩ := close_some ch ch1 hc
      rw [← h]
      exact ⟨ch, rfl, ho, rfl, rfl, fun k => mapSlice_exit_subs _ _ _ k⟩

theorem exit_inv (w w1 : World) (st : Stream) (hi : Inv w) (hl : w.live st)
    (h : Handler.Subscribe.exit w st = some w1) : Inv w1 := by
  obtain ⟨ch, hg, _, hch, _, hsubs⟩ := exit_some w w1 st h
  refine ⟨?_, ?_, ?_⟩
  · intro c hc
    rw [hch] at hc
    rcases List.mem_or_eq_of_mem_set hc with h1 | rfl
    · exact hi.chanOk c h1
    · exact hi.chanOk ch (List.getElem?_mem hg)
  · intro k a ha
    rw [hsubs k] at ha
    have hne : st.events ≠ a ∧ a ∈ mapSlice w.h.subs k := by
      split at ha
      · rename_i hk
        rw [hk]
        exact ⟨fun e => ((mem_setDelete _ _ _).1 ha).2 e.symm, ((mem_setDelete _ _ _).1 ha).1⟩
      · rename_i hk
        refine ⟨?_, ha⟩
        intro e
        rw [← e] at ha
        exact hk (hi.liveKey _ _ _ ha hl)
    rw [hch, List.getElem?_set_ne hne.1]
    exact hi.liveOpen k a hne.2
  · intro k1 k2 a h1 h2
    rw [hsubs k1] at h1
    rw [hsubs k2] at h2
    have g1 : a ∈ mapSlice w.h.subs k1 := by
      split at h1
      · rename_i hk
        rw [hk]
        exact ((mem_setDelete _ _ _).1 h1).1
      · exact h1
    have g2 : a ∈ mapSlice w.h.subs k2 := by
      split at h2
      · rename_i hk
        rw [hk]
        exact ((mem_setDelete _ _ _).1 h2).1
      · exact h2
    exact hi.liveKey k1 k2 a g1 g2

theorem register_inv (w : World) (key : String) (repo : repository.InMemoryRepository)
    (hi : Inv w) :
    Inv { h := { eventRepo := repo,
                 subs := mapStore w.h.subs key (setInsert (mapSlice w.h.subs key) w.chans.length) },
          chans := w.chans ++ [EventChan.make 100] } := by
  have hlt : ∀ k, ∀ a ∈ mapSlice w.h.subs k, a < w.chans.length :=
    fun k a ha => lt_of_open _ _ (hi.liveOpen k a ha)
  have hold : ∀ k a, a ∈ mapSlice (mapStore w.h.subs key
      (setInsert (mapSlice w.h.subs key) w.chans.length)) k →
      (a ∈ mapSlice w.h.subs k) ∨ (a = w.chans.length ∧ k = key) := by
    intro k a ha
    rw [mapSlice_mapStore] at ha
    split at ha
    · rename_i hk
      rcases (mem_setInsert _ _ _).1 ha with h1 | h1
      · left
        rw [hk]
        exact h1
      · exact Or.inr ⟨h1, hk⟩
    · exact Or.inl ha
  refine ⟨?_, ?_, ?_⟩
  · intro c hc
    rcases List.mem_append.1 hc with h1 | h1
    · exact hi.chanOk c h1
    · simp only [List.mem_singleton] at h1
      subst h1
      simp [EventChan.make]
  · intro k a ha
    rcases hold k a ha with h1 | ⟨rfl, _⟩
    · simp only []
      rw [List.getElem?_append_left (hlt k a h1)]
      exact hi.liveOpen k a h1
    · simp [EventChan.make]
  · intro k1 k2 a h1 h2
    rcases hold k1 a h1 with g1 | ⟨rfl, rfl⟩
    · rcases hold k2 a h2 with g2 | ⟨rfl, rfl⟩
      · exact hi.liveKey k1 k2 a g1 g2
      · exact absurd (hlt k1 _ g1) (Nat.lt_irrefl _)
    · rcases hold k2 _ h2 with g2 | ⟨_, rfl⟩
      · exact absurd (hlt k2 _ g2) (Nat.lt_irrefl _)
      · rfl

theorem register_live (w : World) (key : String) (repo : repository.InMemoryRepository) :
    World.live
      (World.mk
        ⟨repo, mapStore w.h.subs key (setInsert (mapSlice w.h.subs key) w.chans.length)⟩
        (w.chans ++ [EventChan.make 100]))
      ⟨key, w.chans.length⟩ := by
  simp [World.live, mapSlice_mapStore, mem_setInsert]

theorem Subscribe_inv (w w1 : World) (key : String) (e : Entered) (hi : Inv w)
    (h : Handler.Subscribe w key = some (w1, e)) : Inv w1 := by
  unfold Handler.Subscribe at h
  split at h
  · simp only [Option.some.injEq, Prod.mk.injEq] at h
    rw [← h.1]
    exact hi
  · simp only [] at h
    split at h
    · split at h
      · simp at h
      · rename_i w2 hx
        simp only [Option.some.injEq, Prod.mk.injEq] at h
        rw [← h.1]
        exact exit_inv _ w2 _ (register_inv w key _ hi) (register_live w key _) hx
    · simp only [Option.some.injEq, Prod.mk.injEq] at h
      rw [← h.1]
      exact register_inv w key _ hi

theorem recv_some (ch ch1 : EventChan) (r : Received) (h : ch.recv = (ch1, r)) :
    ch1.cap = ch.cap ∧ ch1.closed = ch.closed ∧ ch1.buf.length ≤ ch.buf.length ∧
      (∀ v, r = Received.value v → ch.buf = v :: ch1.buf) ∧
      ((∀ v, r ≠ Received.value v) → ch1 = ch ∧ ch.buf = []) := by
  unfold EventChan.recv at h
  cases hb : ch.buf with
  | nil =>
    simp only [hb, Prod.mk.injEq] at h
    obtain ⟨rfl, rfl⟩ := h
    refine ⟨rfl, rfl, by simp [hb], ?_, fun _ => ⟨rfl, rfl⟩⟩
    intro v hv
    split at hv <;> cases hv
  | cons v rest =>
    simp only [hb, Prod.mk.injEq] at h
    obtain ⟨rfl, rfl⟩ := h
    refine ⟨rfl, rfl, by simp, ?_, ?_⟩
    · intro v1 hv
      cases hv
      rfl
    · intro hv
      exact absurd rfl (hv v)

theorem set_inv (w : World) (a : Nat) (ch ch1 : EventChan) (hi : Inv w)
    (hg : w.chans[a]? = some ch) (hcap : ch1.cap = ch.cap) (hcl : ch1.closed = ch.closed)
    (hlen : ch1.buf.length ≤ ch.buf.length) : Inv { w with chans := w.chans.set a ch1 } := by
  refine ⟨?_, ?_, hi.liveKey⟩
  · intro c hc
    rcases List.mem_or_eq_of_mem_set hc with h1 | rfl
    · exact hi.chanOk c h1
    · have h2 := hi.chanOk ch (List.getElem?_mem hg)
      rw [hcap]
      exact ⟨h2.1, Nat.le_trans hlen h2.2⟩
  · intro k b hb
    have h2 := hi.liveOpen k b hb
    simp only [List.getElem?_set]
    by_cases hab : a = b
    · subst hab
      have hlt : a < w.chans.length := (List.getElem?_eq_some.1 hg).1
      simp only [hg, Option.map_some'] at h2
      simp [hlt, hcl, h2]
    · simpa [hab] using h2

theorem loop_inv (w w1 : World) (st : Stream) (wk : Wake) (l : Looped) (hi : Inv w)
    (hl : w.live st) (h : Handler.Subscribe.loop w st wk = some (w1, l)) : Inv w1 := by
  cases wk with
  | ctxDone =>
    simp only [Handler.Subscribe.loop] at h
    cases hx : Handler.Subscribe.exit w st with
    | none => simp [hx] at h
    | some w2 =>
      simp only [hx, Option.some.injEq, Prod.mk.injEq] at h
      rw [← h.1]
      exact exit_inv w w2 st hi hl hx
  | event sendFails =>
    simp only [Handler.Subscribe.loop] at h
    cases hg : w.chans[st.events]? with
    | none => simp [hg] at h
    | some ch =>
      simp only [hg] at h
      cases hr : ch.recv with
      | mk ch1 r =>
        obtain ⟨hcap, hcl, hlen, _, _⟩ := recv_some ch ch1 r hr
        have hi1 := set_inv w st.events ch ch1 hi hg hcap hcl hlen
        cases r with
        | value v =>
          simp only [hr] at h
          cases sendFails with
          | false =>
            simp only [Bool.false_eq_true, if_false, Option.some.injEq, Prod.mk.injEq] at h
            rw [← h.1]
            exact hi1
          | true =>
            simp only [if_true] at h
            cases hx : Handler.Subscribe.exit { w with chans := w.chans.set st.events ch1 } st with
            | none => simp [hx] at h
            | some w2 =>
              simp only [hx, Option.some.injEq, Prod.mk.injEq] at h
              rw [← h.1]
              exact exit_inv _ w2 st hi1 hl hx
        | closedEmpty =>
          simp only [hr] at h
          cases hx : Handler.Subscribe.exit w st with
          | none => simp [hx] at h
          | some w2 =>
            simp only [hx, Option.some.injEq, Prod.mk.injEq] at h
            rw [← h.1]
            exact exit_inv w w2 st hi hl hx
        | notReady =>
          simp only [hr, Option.some.injEq, Prod.mk.injEq] at h
          rw [← h.1]
          exact hi

theorem inv_start : Inv World.init :=
  ⟨by simp [World.init], by simp [World.init, mapSlice, mapLookup],
    by simp [World.init, mapSlice, mapLookup]⟩

theorem inv_next (w w1 : World) (op : Op) (o : Out) (hi : Inv w) (hv : op.valid w)
    (h : step w op = some (w1, o)) : Inv w1 := by
  cases op with
  | subscribe key =>
    simp only [step] at h
    cases hx : Handler.Subscribe w key with
    | none => simp [hx] at h
    | some r =>
      obtain ⟨w2, e⟩ := r
      simp only [hx, Option.some.injEq, Prod.mk.injEq] at h
      rw [← h.1]
      exact Subscribe_inv w w2 key e hi hx
  | wake st wk =>
    simp only [step] at h
    cases hx : Handler.Subscribe.loop w st wk with
    | none => simp [hx] at h
    | some r =>
      obtain ⟨w2, l⟩ := r
      simp only [hx, Option.some.injEq, Prod.mk.injEq] at h
      rw [← h.1]
      exact loop_inv w w2 st wk l hi hv hx
  | publish idNow now key data =>
    simp only [step] at h
    cases hx : Handler.Publish w idNow now key data with
    | none => simp [hx] at h
    | some r =>
      obtain ⟨w2, code, drops⟩ := r
      simp only [hx, Option.some.injEq, Prod.mk.injEq] at h
      rw [← h.1]
      obtain ⟨hs, hok, hcl⟩ := Publish_preserves w w2 idNow now key data code drops hx
      refine ⟨hok hi.chanOk, ?_, ?_⟩
      · intro k a ha
        rw [hs] at ha
        rw [hcl a]
        exact hi.liveOpen k a ha
      · intro k1 k2 a h1 h2
        rw [hs] at h1 h2
        exact hi.liveKey k1 k2 a h1 h2
  | closeRepo =>
    simp only [step, Option.some.injEq, Prod.mk.injEq] at h
    rw [← h.1]
    exact ⟨hi.chanOk, hi.liveOpen, hi.liveKey⟩

theorem reachable_server_inv (w : World) (hr : Reachable w) : Inv w := by
  induction hr with
  | init => exact inv_start
  | next w w1 op o _ hv hs ih => exact inv_next w w1 op o ih hv hs

theorem Execute_cases (repo : repository.InMemoryRepository) (key : String)
    (cb : repository.Callback) :
    ((subscribe.Execute repo ⟨key⟩ cb).2 = none ∧
      (subscribe.Execute repo ⟨key⟩ cb).1.subscribers =
        mapStore repo.subscribers key (mapSlice repo.subscribers key ++ [cb])) ∨
    ((subscribe.Execute repo ⟨key⟩ cb).2 ≠ none ∧ (subscribe.Execute repo ⟨key⟩ cb).1 = repo) := by
  unfold subscribe.Execute repository.InMemoryRepository.Subscribe
  by_cases hk : key = ""
  · simp [hk]
  · by_cases hc : repo.closed = true
    · simp [hk, hc]
    · simp [hk, hc]

theorem Save_subscribers (r r1 : repository.InMemoryRepository) (chans chans1 : List EventChan)
    (e : entity.Event) (err : Option errors.Error) (drops : List String)
    (h : r.Save chans e = some (r1, chans1, err, drops)) : r1.subscribers = r.subscribers := by
  unfold repository.InMemoryRepository.Save at h
  by_cases hc : r.closed = true
  · simp only [hc, if_true, Option.some.injEq, Prod.mk.injEq] at h
    rw [← h.1]
  · simp only [hc, if_false, Bool.false_eq_true] at h
    split at h
    · split at h
      · simp at h
      · simp only [Option.some.injEq, Prod.mk.injEq] at h
        rw [← h.1]
    · simp only [Option.some.injEq, Prod.mk.injEq] at h
      rw [← h.1]

theorem Publish_subscribers (w w1 : World) (idNow : time.Time) (now : Nat) (key data : String) (code : Option Code)
    (drops : List String) (h : Handler.Publish w idNow now key data = some (w1, code, drops)) :
    w1.h.eventRepo.subscribers = w.h.eventRepo.subscribers := by
  unfold Handler.Publish at h
  split at h
  · simp only [Option.some.injEq, Prod.mk.injEq] at h
    rw [← h.1]
  · split at h
    · simp at h
    · rename_i repo chans err drops1 hx
      simp only [Option.some.injEq, Prod.mk.injEq] at h
      rw [← h.1]
      simp only [publish.Execute] at hx
      cases hv : (entity.NewEvent idNow now key data).Validate with
      | some e =>
        simp only [hv, Option.some.injEq, Prod.mk.injEq] at hx
        rw [← hx.1]
      | none =>
        simp only [hv] at hx
        exact Save_subscribers _ _ _ _ _ _ _ hx

theorem exit_registered (w w1 : World) (st : Stream)
    (hreg : ∀ k, ∀ a ∈ mapSlice w.h.subs k, a ≠ st.events ∨ k ≠ st.key →
      (⟨a, k⟩ : repository.Callback) ∈ mapSlice w.h.eventRepo.subscribers k)
    (h : Handler.Subscribe.exit w st = some w1) : Registered w1 := by
  obtain ⟨ch, _, _, _, hrepo, hsubs⟩ := exit_some w w1 st h
  intro k a ha
  rw [hrepo]
  rw [hsubs k] at ha
  split at ha
  · rename_i hk
    obtain ⟨h1, h2⟩ := (mem_setDelete _ _ _).1 ha
    rw [← hk] at h1
    exact hreg k a h1 (Or.inl h2)
  · rename_i hk
    exact hreg k a ha (Or.inr hk)

theorem Subscribe_registered (w w1 : World) (key : String) (e : Entered) (hi : Inv w)
    (hreg : Registered w) (h : Handler.Subscribe w key = some (w1, e)) : Registered w1 := by
  have hlt : ∀ k, ∀ a ∈ mapSlice w.h.subs k, a < w.chans.length :=
    fun k a ha => lt_of_open _ _ (hi.liveOpen k a ha)
  unfold Handler.Subscribe at h
  split at h
  · simp only [Option.some.injEq, Prod.mk.injEq] at h
    rw [← h.1]
    exact hreg
  · simp only [] at h
    rcases Execute_cases w.h.eventRepo key ⟨w.chans.length, key⟩ with ⟨hn, hs⟩ | ⟨hn, hs⟩
    · simp only [hn, Option.some.injEq, Prod.mk.injEq] at h
      rw [← h.1]
      intro k a ha
      simp only [mapSlice_mapStore] at ha
      simp only [hs, mapSlice_mapStore]
      split at ha
      · rename_i hk
        subst hk
        simp only [if_true]
        rcases (mem_setInsert _ _ _).1 ha with h1 | h1
        · exact List.mem_append_left _ (hreg k a h1)
        · subst h1
          exact List.mem_append_right _ (List.mem_singleton.2 rfl)
      · rename_i hk
        simp only [hk, if_false]
        exact hreg k a ha
    · split at h
      · split at h
        · simp at h
        · rename_i w2 hx
          simp only [Option.some.injEq, Prod.mk.injEq] at h
          rw [← h.1]
          refine exit_registered _ w2 _ ?_ hx
          intro k a ha hne
          simp only [mapSlice_mapStore] at ha
          simp only [hs]
          split at ha
          · rename_i hk
            rcases (mem_setInsert _ _ _).1 ha with h1 | h1
            · subst hk
              exact hreg _ a h1
            · rcases hne with h2 | h2
              · exact absurd h1 h2
              · exact absurd hk h2
          · exact hreg k a ha
      · rename_i hx
        exact absurd hx hn

theorem loop_registered (w w1 : World) (st : Stream) (wk : Wake) (l : Looped)
    (hreg : Registered w) (h : Handler.Subscribe.loop w st wk = some (w1, l)) :
    Registered w1 := by
  cases wk with
  | ctxDone =>
    simp only [Handler.Subscribe.loop] at h
    cases hx : Handler.Subscribe.exit w st with
    | none => simp [hx] at h
    | some w2 =>
      simp only [hx, Option.some.injEq, Prod.mk.injEq] at h
      rw [← h.1]
      exact exit_registered w w2 st (fun k a ha _ => hreg k a ha) hx
  | event sendFails =>
    simp only [Handler.Subscribe.loop] at h
    cases hg : w.chans[st.events]? with
    | none => simp [hg] at h
    | some ch =>
      simp only [hg] at h
      cases hr : ch.recv with
      | mk ch1 r =>
        cases r with
        | value v =>
          simp only [hr] at h
          cases sendFails with
          | false =>
            simp only [Bool.false_eq_true, if_false, Option.some.injEq, Prod.mk.injEq] at h
            rw [← h.1]
            exact hreg
          | true =>
            simp only [if_true] at h
            cases hx : Handler.Subscribe.exit { w with chans := w.chans.set st.events ch1 } st with
            | none => simp [hx] at h
            | some w2 =>
              simp only [hx, Option.some.injEq, Prod.mk.injEq] at h
              rw [← h.1]
              exact exit_registered { w with chans := w.chans.set st.events ch1 } w2 st
                (fun k a ha _ => hreg k a ha) hx
        | closedEmpty =>
          simp only [hr] at h
          cases hx : Handler.Subscribe.exit w st with
          | none => simp [hx] at h
          | some w2 =>
            simp only [hx, Option.some.injEq, Prod.mk.injEq] at h
            rw [← h.1]
            exact exit_registered w w2 st (fun k a ha _ => hreg k a ha) hx
        | notReady =>
          simp only [hr, Option.some.injEq, Prod.mk.injEq] at h
          rw [← h.1]
          exact hreg

theorem reachable_server_registered (w : World) (hr : Reachable w) : Registered w := by
  induction hr with
  | init =>
    intro k a ha
    simp [World.init, mapSlice, mapLookup] at ha
  | next w w1 op o hr1 hv hs ih =>
    have hi := reachable_server_inv w hr1
    cases op with
    | subscribe key =>
      simp only [step] at hs
      cases hx : Handler.Subscribe w key with
      | none => simp [hx] at hs
      | some r =>
        obtain ⟨w2, e⟩ := r
        simp only [hx, Option.some.injEq, Prod.mk.injEq] at hs
        rw [← hs.1]
        exact Subscribe_registered w w2 key e hi ih hx
    | wake st wk =>
      simp only [step] at hs
      cases hx : Handler.Subscribe.loop w st wk with
      | none => simp [hx] at hs
      | some r =>
        obtain ⟨w2, l⟩ := r
        simp only [hx, Option.some.injEq, Prod.mk.injEq] at hs
        rw [← hs.1]
        exact loop_registered w w2 st wk l ih hx
    | publish idNow now key data =>
      simp only [step] at hs
      cases hx : Handler.Publish w idNow now key data with
      | none => simp [hx] at hs
      | some r =>
        obtain ⟨w2, code, drops⟩ := r
        simp only [hx, Option.some.injEq, Prod.mk.injEq] at hs
        rw [← hs.1]
        intro k a ha
        rw [(Publish_preserves w w2 idNow now key data code drops hx).1] at ha
        rw [Publish_subscribers w w2 idNow now key data code drops hx]
        exact ih k a ha
    | closeRepo =>
      simp only [step, Option.some.injEq, Prod.mk.injEq] at hs
      rw [← hs.1]
      intro k a ha
      have h1 := ih k a ha
      unfold repository.InMemoryRepository.Close
      split <;> exact h1

end grpc

namespace grpc

/-! ## Properties of the delivery queue and the `Subscribe` stream -/

/-- C10, the code at the failing inputs: when a `Subscribe` stream on
`"orders"` ends (the client disconnects, or `stream.Send` fails), the deferred
calls empty `h.subs` and close the channel, but the callback stays in the
subscriber list of the repository; the next `Publish` on `"orders"` calls it
and panics on the send on the closed channel. -/
theorem ended_stream_callback_stays :
    run World.init [Op.subscribe "orders", Op.wake ⟨"orders", 0⟩ Wake.ctxDone] =
      some (⟨⟨⟨[], [("orders", [⟨0, "orders"⟩])], false⟩, []⟩, [⟨[], 100, true⟩]⟩,
        [Out.entered (Entered.streaming ⟨"orders", 0⟩), Out.looped (Looped.returned none)]) ∧
    run World.init
      [Op.subscribe "orders", Op.wake ⟨"orders", 0⟩ Wake.ctxDone,
        Op.publish ⟨2025, 5, 1, 12, 0, 0, 1⟩ 1 "orders" "A"] = none ∧
    run World.init
      [Op.subscribe "orders", Op.publish ⟨2025, 5, 1, 12, 0, 0, 1⟩ 1 "orders" "A",
        Op.wake ⟨"orders", 0⟩ (Wake.event true)] =
      some (⟨⟨⟨[("orders", [⟨"20250501120000.000000001", "orders", "A", 1⟩])], [("orders", [⟨0, "orders"⟩])], false⟩,
              []⟩, [⟨[], 100, true⟩]⟩,
        [Out.entered (Entered.streaming ⟨"orders", 0⟩), Out.published none [],
          Out.looped (Looped.returned (some Code.Internal))]) ∧
    run World.init
      [Op.subscribe "orders", Op.publish ⟨2025, 5, 1, 12, 0, 0, 1⟩ 1 "orders" "A",
        Op.wake ⟨"orders", 0⟩ (Wake.event true), Op.publish ⟨2025, 5, 1, 12, 0, 0, 2⟩ 2 "orders" "B"] = none ∧
    run World.init
      [Op.subscribe "orders", Op.subscribe "orders", Op.wake ⟨"orders", 0⟩ Wake.ctxDone,
        Op.publish ⟨2025, 5, 1, 12, 0, 0, 1⟩ 1 "orders" "A"] = none := by
  decide

end grpc

/-! ## Properties of the validation of events and of `Publish` -/

theorem utf8ByteSize_eq_zero (s : String) : s.utf8ByteSize = 0 ↔ s = "" := by
  cases s with
  | mk cs =>
    rw [String.utf8ByteSize_mk, String.utf8Len_eq_zero]
    constructor
    · rintro rfl
      rfl
    · intro h
      exact congrArg String.data h

theorem utf8Size_ascii (c : Char) (h : c.toNat < 128) : c.utf8Size = 1 := by
  have h1 : c.val ≤ 127 := by
    rw [UInt32.le_def]
    show c.val.val ≤ (127 : UInt32).val
    rw [Fin.le_def]
    show c.val.toNat ≤ 127
    have : c.toNat = c.val.toNat := rfl
    omega
  simp [Char.utf8Size, h1]

theorem utf8ByteSize_ascii (s : String) (h : ∀ c ∈ s.data, c.toNat < 128) :
    s.utf8ByteSize = s.length := by
  cases s with
  | mk l =>
    rw [String.utf8ByteSize_mk]
    show String.utf8Len l = l.length
    simp only [] at h
    induction l with
    | nil => rfl
    | cons c l ih =>
      rw [String.utf8Len_cons, ih (fun c1 h1 => h c1 (List.mem_cons_of_mem _ h1)),
        utf8Size_ascii c (h c (List.mem_cons_self _ _)), List.length_cons]

namespace entity

theorem Validate_eq (e : Event) :
    e.Validate =
      if validator.TrimSpace e.Key = "" then some errors.Error.ErrInvalidEventKey
      else if validator.TrimSpace e.Data = "" then some errors.Error.ErrInvalidEventData
      else if (validator.TrimSpace e.Key).utf8ByteSize < 1 ∨
          (validator.TrimSpace e.Key).utf8ByteSize > 100
        then some errors.Error.ErrInvalidEventKey
      else none := by
  unfold Event.Validate
  simp only [validator.ValidateAll, validator.ValidateNotEmpty, validator.ValidateLength]
  by_cases hk : validator.TrimSpace e.Key = ""
  · simp [hk]
  · by_cases hd : validator.TrimSpace e.Data = ""
    · simp [hk, hd]
    · by_cases hl : (validator.TrimSpace e.Key).utf8ByteSize < 1 ∨
          (validator.TrimSpace e.Key).utf8ByteSize > 100
      · simp only [hk, hd, hl, if_true, if_false, Option.isSome_none, Option.isSome_some,
          Bool.false_eq_true]
      · simp only [hk, hd, hl, if_true, if_false, Option.isSome_none, Option.isSome_some,
          Bool.false_eq_true]

/-- C11 fails as stated: a key of 51 Cyrillic letters has 51 characters after
trimming (and 102 bytes) and is rejected with `ErrInvalidEventKey`; a payload
of one blank is not empty and is rejected with `ErrInvalidEventData`. -/
theorem Validate_characters_counterexample :
    (validator.TrimSpace (String.mk (List.replicate 51 'я'))).length = 51 ∧
    Event.Validate ⟨"1", String.mk (List.replicate 51 'я'), "A", 1⟩ =
      some errors.Error.ErrInvalidEventKey ∧
    (validator.TrimSpace "k").length = 1 ∧ " " ≠ "" ∧
    Event.Validate ⟨"1", "k", " ", 1⟩ = some errors.Error.ErrInvalidEventData := by
  decide

theorem Validate_cases (e : Event) :
    (e.Validate = none ↔
      (1 ≤ (validator.TrimSpace e.Key).utf8ByteSize ∧
        (validator.TrimSpace e.Key).utf8ByteSize ≤ 100 ∧ validator.TrimSpace e.Data ≠ "")) ∧
    (e.Validate = some errors.Error.ErrInvalidEventKey ↔
      (validator.TrimSpace e.Key = "" ∨
        (validator.TrimSpace e.Data ≠ "" ∧ 100 < (validator.TrimSpace e.Key).utf8ByteSize))) ∧
    (e.Validate = some errors.Error.ErrInvalidEventData ↔
      (validator.TrimSpace e.Key ≠ "" ∧ validator.TrimSpace e.Data = "")) ∧
    (e.Validate = none ∨ e.Validate = some errors.Error.ErrInvalidEventKey ∨
      e.Validate = some errors.Error.ErrInvalidEventData) := by
  have hz := utf8ByteSize_eq_zero (validator.TrimSpace e.Key)
  rw [Validate_eq]
  by_cases hk : validator.TrimSpace e.Key = ""
  · have h0 := hz.2 hk
    rw [if_pos hk]
    exact ⟨⟨(fun h => by cases h), (fun h => by omega)⟩, ⟨fun _ => Or.inl hk, fun _ => rfl⟩,
      ⟨(fun h => by cases h), fun h => absurd hk h.1⟩, Or.inr (Or.inl rfl)⟩
  · have h1 : 1 ≤ (validator.TrimSpace e.Key).utf8ByteSize := by
      have := mt hz.1 hk
      omega
    rw [if_neg hk]
    by_cases hd : validator.TrimSpace e.Data = ""
    · rw [if_pos hd]
      exact ⟨⟨(fun h => by cases h), fun h => absurd hd h.2.2⟩,
        ⟨(fun h => by cases h), fun h => h.elim (fun h => absurd h hk) (fun h => absurd hd h.1)⟩,
        ⟨fun _ => ⟨hk, hd⟩, fun _ => rfl⟩, Or.inr (Or.inr rfl)⟩
    · rw [if_neg hd]
      by_cases hl : (validator.TrimSpace e.Key).utf8ByteSize < 1 ∨
          (validator.TrimSpace e.Key).utf8ByteSize > 100
      · have h3 : 100 < (validator.TrimSpace e.Key).utf8ByteSize := by omega
        rw [if_pos hl]
        exact ⟨⟨(fun h => by cases h), (fun h => by omega)⟩,
          ⟨fun _ => Or.inr ⟨hd, h3⟩, fun _ => rfl⟩,
          ⟨(fun h => by cases h), fun h => absurd h.2 hd⟩, Or.inr (Or.inl rfl)⟩
      · rw [if_neg hl]
        exact ⟨⟨fun _ => ⟨h1, by omega, hd⟩, fun _ => rfl⟩,
          ⟨(fun h => by cases h), fun h => h.elim (fun h => absurd h hk) (fun h => by omega)⟩,
          ⟨(fun h => by cases h), fun h => absurd h.2 hd⟩, Or.inl rfl⟩

/-- C11 as amended: `Validate` returns nil exactly when the key, trimmed of
surrounding white space, has between 1 and 100 bytes and the payload, trimmed,
is not empty; it returns `ErrInvalidEventKey` exactly when the trimmed key is
empty, or the trimmed payload is not empty and the trimmed key has more than
100 bytes; it returns `ErrInvalidEventData` exactly when the trimmed key is
not empty and the trimmed payload is; it returns nothing else; and the number
of bytes of a trimmed key is its number of characters when all of them are
ASCII. -/
theorem Validate_trimmed_bytes (e : Event) :
    (e.Validate = none ↔
      (1 ≤ (validator.TrimSpace e.Key).utf8ByteSize ∧
        (validator.TrimSpace e.Key).utf8ByteSize ≤ 100 ∧ validator.TrimSpace e.Data ≠ "")) ∧
    (e.Validate = some errors.Error.ErrInvalidEventKey ↔
      (validator.TrimSpace e.Key = "" ∨
        (validator.TrimSpace e.Data ≠ "" ∧ 100 < (validator.TrimSpace e.Key).utf8ByteSize))) ∧
    (e.Validate = some errors.Error.ErrInvalidEventData ↔
      (validator.TrimSpace e.Key ≠ "" ∧ validator.TrimSpace e.Data = "")) ∧
    (e.Validate = none ∨ e.Validate = some errors.Error.ErrInvalidEventKey ∨
      e.Validate = some errors.Error.ErrInvalidEventData) ∧
    ((∀ c ∈ (validator.TrimSpace e.Key).data, c.toNat < 128) →
      (validator.TrimSpace e.Key).utf8ByteSize = (validator.TrimSpace e.Key).length) :=
  ⟨(Validate_cases e).1, (Validate_cases e).2.1, (Validate_cases e).2.2.1,
    (Validate_cases e).2.2.2, utf8ByteSize_ascii _⟩

/-- C11 as amended, at the event with key `"orders"` and payload `"A"`, which
passes, and at the key of 101 letters `a`, which has 101 bytes. -/
theorem Validate_trimmed_bytes_witness :
    Event.Validate ⟨"1", "orders", "A", 1⟩ = none ∧
    Event.Validate ⟨"1", String.mk (List.replicate 101 'a'), "A", 1⟩ =
      some errors.Error.ErrInvalidEventKey :=
  ⟨(Validate_trimmed_bytes ⟨"1", "orders", "A", 1⟩).1.2 (by decide),
    (Validate_trimmed_bytes ⟨"1", String.mk (List.replicate 101 'a'), "A", 1⟩).2.1.2
      (Or.inr (by decide))⟩

end entity

namespace grpc

theorem call_leaves_trace (cb : repository.Callback) (chans chans1 : List EventChan)
    (e : entity.Event) (d : Bool) (h : cb.call chans e = some (chans1, d)) :
    chans1 ≠ chans ∨ d = true := by
  unfold repository.Callback.call at h
  cases hg : chans[cb.events]? with
  | none => simp [hg] at h
  | some ch =>
    simp only [hg] at h
    cases hs : ch.trySend ⟨e.Data⟩ with
    | none => simp [hs] at h
    | some r =>
      obtain ⟨ch1, ok⟩ := r
      simp only [hs, Option.some.injEq, Prod.mk.injEq] at h
      obtain ⟨rfl, rfl⟩ := h
      obtain ⟨_, _, _, _, hbuf⟩ := trySend_some ch ch1 _ ok hs
      cases ok with
      | false => exact Or.inr rfl
      | true =>
        left
        intro heq
        have hlt : cb.events < chans.length := (List.getElem?_eq_some.1 hg).1
        have h1 : (chans.set cb.events ch1)[cb.events]? = some ch1 := by
          rw [List.getElem?_set]
          simp [hlt]
        rw [heq, hg] at h1
        simp only [Option.some.injEq] at h1
        rw [← h1] at hbuf
        have h2 := congrArg List.length hbuf
        simp at h2

/-- C12: for every state of the store and the channels and every publish
request whose key is empty or blank, the use case `Execute` returns
`ErrInvalidEventKey` and `Handler.Publish` returns `InvalidArgument`; both
leave the store (its event log included) and every channel as they were and
log no drop, while a call of a subscriber callback always changes a channel
or logs a drop: no callback is called. -/
theorem publish_blank_key_rejected (w : World) (idNow : time.Time) (now : Nat) (key data : String)
    (hk : validator.TrimSpace key = "") :
    publish.Execute w.h.eventRepo w.chans idNow now ⟨key, data⟩ =
      some (w.h.eventRepo, w.chans, some errors.Error.ErrInvalidEventKey, []) ∧
    Handler.Publish w idNow now key data = some (w, some Code.InvalidArgument, []) ∧
    (∀ (cb : repository.Callback) (event : entity.Event),
      cb.call w.chans event ≠ some (w.chans, false)) := by
  refine ⟨?_, ?_, ?_⟩
  · have hv : (entity.NewEvent idNow now key data).Validate = some errors.Error.ErrInvalidEventKey := by
      rw [entity.Validate_eq]
      exact if_pos hk
    simp only [publish.Execute, hv]
  · simp [Handler.Publish, validator.ValidateAll, validator.ValidateNotEmpty, hk]
  · intro cb event h
    rcases call_leaves_trace cb w.chans w.chans event false h with h1 | h1
    · exact h1 rfl
    · cases h1

/-- C12, at a server with one stream subscribed to `"orders"`, for the empty
key and for a blank one. -/
theorem publish_blank_key_rejected_witness :
    Handler.Publish
      (World.mk ⟨⟨[], [("orders", [⟨0, "orders"⟩])], false⟩, [("orders", [0])]⟩
        [⟨[], 100, false⟩]) ⟨2025, 5, 1, 12, 0, 0, 1⟩ 1 "" "A" =
      some (World.mk ⟨⟨[], [("orders", [⟨0, "orders"⟩])], false⟩, [("orders", [0])]⟩
        [⟨[], 100, false⟩], some Code.InvalidArgument, []) ∧
    Handler.Publish
      (World.mk ⟨⟨[], [("orders", [⟨0, "orders"⟩])], false⟩, [("orders", [0])]⟩
        [⟨[], 100, false⟩]) ⟨2025, 5, 1, 12, 0, 0, 1⟩ 1 " \t" "A" =
      some (World.mk ⟨⟨[], [("orders", [⟨0, "orders"⟩])], false⟩, [("orders", [0])]⟩
        [⟨[], 100, false⟩], some Code.InvalidArgument, []) :=
  ⟨(publish_blank_key_rejected _ ⟨2025, 5, 1, 12, 0, 0, 1⟩ 1 "" "A" (by decide)).2.1,
    (publish_blank_key_rejected _ ⟨2025, 5, 1, 12, 0, 0, 1⟩ 1 " \t" "A" (by decide)).2.1⟩

/-- C13, the code at the failing input: a key of 101 letters `a` fails the
validation of the event (`ErrInvalidEventKey`, the key being longer than 100),
the store is open, and `Handler.Publish` returns `Internal`, while for an
empty key and for an empty payload it returns `InvalidArgument`. -/
theorem Publish_long_key_internal :
    (entity.NewEvent ⟨2025, 5, 1, 12, 0, 0, 1⟩ 1 (String.mk (List.replicate 101 'a')) "A").Validate =
      some errors.Error.ErrInvalidEventKey ∧
    World.init.h.eventRepo.closed = false ∧
    Handler.Publish World.init ⟨2025, 5, 1, 12, 0, 0, 1⟩ 1 (String.mk (List.replicate 101 'a')) "A" =
      some (World.init, some Code.Internal, []) ∧
    Handler.Publish World.init ⟨2025, 5, 1, 12, 0, 0, 1⟩ 1 "" "A" = some (World.init, some Code.InvalidArgument, []) ∧
    Handler.Publish World.init ⟨2025, 5, 1, 12, 0, 0, 1⟩ 1 "orders" "" =
      some (World.init, some Code.InvalidArgument, []) := by
  decide

end grpc

/-! ## Properties of the event log of the store -/

namespace repository

theorem FindByKey_open (r : InMemoryRepository) (ho : r.closed = false) (key : String) :
    r.FindByKey key =
      match mapLookup r.events key with
      | none => (none, some errors.Error.ErrEventNotFound)
      | some events => (some events, none) := by
  simp [InMemoryRepository.FindByKey, ho]

theorem FindByKey_log (r : InMemoryRepository) (ho : r.closed = false) (key : String) :
    (r.FindByKey key).1.getD [] = mapSlice r.events key := by
  rw [FindByKey_open r ho key]
  unfold mapSlice
  cases mapLookup r.events key <;> rfl

theorem Save_open (r r1 : InMemoryRepository) (chans chans1 : List EventChan)
    (e : entity.Event) (err : Option errors.Error) (drops : List String)
    (ho : r.closed = false) (h : r.Save chans e = some (r1, chans1, err, drops)) :
    err = none ∧
      r1 = { r with events := mapStore r.events e.Key (mapSlice r.events e.Key ++ [e]) } := by
  unfold InMemoryRepository.Save at h
  rw [if_neg (by simp [ho])] at h
  simp only [] at h
  split at h
  · split at h
    · simp at h
    · simp only [Option.some.injEq, Prod.mk.injEq] at h
      exact ⟨h.2.2.1.symm, h.1.symm⟩
  · simp only [Option.some.injEq, Prod.mk.injEq] at h
    exact ⟨h.2.2.1.symm, h.1.symm⟩

theorem call_total (cb : Callback) (chans : List EventChan) (e : entity.Event)
    (h : (chans[cb.events]?).map EventChan.closed = some false) :
    ∃ chans1 d, cb.call chans e = some (chans1, d) := by
  unfold Callback.call
  cases hg : chans[cb.events]? with
  | none => simp [hg] at h
  | some ch =>
    simp only [hg, Option.map_some', Option.some.injEq] at h
    by_cases hl : ch.buf.length < ch.cap
    · refine ⟨chans.set cb.events { ch with buf := ch.buf ++ [⟨e.Data⟩] }, false, ?_⟩
      simp [EventChan.trySend, h, hl]
    · refine ⟨chans.set cb.events ch, true, ?_⟩
      simp [EventChan.trySend, h, hl]

theorem notify_total (e : entity.Event) (subscribers : List Callback) :
    ∀ chans : List EventChan,
      (∀ cb ∈ subscribers, (chans[cb.events]?).map EventChan.closed = some false) →
      ∃ chans1 drops, Save.notify e subscribers chans = some (chans1, drops) := by
  induction subscribers with
  | nil =>
    intro chans _
    exact ⟨chans, [], rfl⟩
  | cons cb rest ih =>
    intro chans h
    obtain ⟨chans1, d, hc⟩ := call_total cb chans e (h cb (List.mem_cons_self _ _))
    have hp := (grpc.call_preserves cb chans chans1 e d hc).2
    obtain ⟨chans2, drops, hn⟩ := ih chans1 (fun cb1 h1 => by
      rw [hp cb1.events]
      exact h cb1 (List.mem_cons_of_mem _ h1))
    exact ⟨chans2, if d then cb.key :: drops else drops, by simp only [Save.notify, hc, hn]⟩

theorem Save_total (r : InMemoryRepository) (chans : List EventChan) (e : entity.Event)
    (ho : r.closed = false)
    (h : ∀ cb ∈ mapSlice r.subscribers e.Key,
      (chans[cb.events]?).map EventChan.closed = some false) :
    ∃ r1 chans1 drops, r.Save chans e = some (r1, chans1, none, drops) := by
  unfold InMemoryRepository.Save
  simp only [ho, if_false, Bool.false_eq_true]
  cases hl : mapLookup r.subscribers e.Key with
  | none => exact ⟨_, _, _, rfl⟩
  | some subscribers =>
    have hm : mapSlice r.subscribers e.Key = subscribers := by simp [mapSlice, hl]
    rw [hm] at h
    obtain ⟨chans1, drops, hn⟩ := notify_total e subscribers chans h
    simp only [hn]
    exact ⟨_, _, _, rfl⟩

theorem saveAll_log (es : List entity.Event) :
    ∀ (r r2 : InMemoryRepository) (chans chans2 : List EventChan)
      (errs : List (Option errors.Error)),
      r.closed = false → r.saveAll chans es = some (r2, chans2, errs) →
      r2.closed = false ∧ r2.subscribers = r.subscribers ∧ errs = es.map (fun _ => none) ∧
      ∀ key, mapLookup r2.events key =
        if es.filter (fun x => decide (x.Key = key)) = [] then mapLookup r.events key
        else some (mapSlice r.events key ++ es.filter (fun x => decide (x.Key = key))) := by
  induction es with
  | nil =>
    intro r r2 chans chans2 errs ho h
    simp only [InMemoryRepository.saveAll, Option.some.injEq, Prod.mk.injEq] at h
    obtain ⟨rfl, _, rfl⟩ := h
    exact ⟨ho, rfl, rfl, fun _ => by simp⟩
  | cons e es ih =>
    intro r r2 chans chans2 errs ho h
    simp only [InMemoryRepository.saveAll] at h
    cases hs : r.Save chans e with
    | none => simp [hs] at h
    | some x =>
      obtain ⟨r1, chans1, err, drops⟩ := x
      simp only [hs] at h
      cases hr : r1.saveAll chans1 es with
      | none => simp [hr] at h
      | some y =>
        obtain ⟨r3, chans3, errs3⟩ := y
        simp only [hr, Option.some.injEq, Prod.mk.injEq] at h
        obtain ⟨rfl, _, rfl⟩ := h
        obtain ⟨rfl, hr1⟩ := Save_open r r1 chans chans1 e err drops ho hs
        have ho1 : r1.closed = false := by rw [hr1]; exact ho
        obtain ⟨hc, hsub, herr, hlog⟩ := ih r1 r3 chans1 chans3 errs3 ho1 hr
        refine ⟨hc, by rw [hsub, hr1], by simp [herr], ?_⟩
        intro key
        rw [hlog key]
        have hl1 : mapLookup r1.events key =
            if key = e.Key then some (mapSlice r.events e.Key ++ [e])
            else mapLookup r.events key := by
          rw [hr1]
          exact mapLookup_mapStore _ _ _ _
        by_cases hk : key = e.Key
        · subst hk
          have hs1 : mapSlice r1.events e.Key = mapSlice r.events e.Key ++ [e] := by
            simp [mapSlice, hl1]
          simp only [List.filter_cons, decide_True, if_true, hl1, hs1]
          split
          · rename_i hf
            simp [hf]
          · simp
        · have hk1 : ¬ (e.Key = key) := fun h => hk h.symm
          have hs1 : mapSlice r1.events key = mapSlice r.events key := by
            simp [mapSlice, hl1, hk]
          simp only [List.filter_cons, hk1, decide_False, Bool.false_eq_true, if_false, hl1, hk,
            hs1]

theorem saveAll_total (es : List entity.Event) :
    ∀ (r : InMemoryRepository) (chans : List EventChan), r.closed = false →
      r.subscribers = [] → ∃ r2 errs, r.saveAll chans es = some (r2, chans, errs) := by
  induction es with
  | nil =>
    intro r chans _ _
    exact ⟨r, [], rfl⟩
  | cons e es ih =>
    intro r chans ho hs
    have h1 : r.Save chans e = some
        ({ r with events := mapStore r.events e.Key (mapSlice r.events e.Key ++ [e]) },
          chans, none, []) := by
      simp [InMemoryRepository.Save, ho, hs, mapLookup]
    obtain ⟨r2, errs, h2⟩ := ih
      { r with events := mapStore r.events e.Key (mapSlice r.events e.Key ++ [e]) } chans ho hs
    exact ⟨r2, none :: errs, by simp only [InMemoryRepository.saveAll, h1, h2]⟩

theorem FindByKey_of_log (r r2 : InMemoryRepository) (ho : r.closed = false)
    (ho2 : r2.closed = false) (key : String) (l : List entity.Event)
    (h : mapLookup r2.events key =
      if l = [] then mapLookup r.events key else some (mapSlice r.events key ++ l)) :
    r2.FindByKey key =
      if l = [] then r.FindByKey key else (some ((r.FindByKey key).1.getD [] ++ l), none) := by
  rw [FindByKey_log r ho key, FindByKey_open r2 ho2 key, FindByKey_open r ho key, h]
  by_cases hl : l = []
  · rw [if_pos hl, if_pos hl]
  · rw [if_neg hl, if_neg hl]

/-- C14: on an open store a `Save` of `e` that returns (it does whenever the
channels of the callbacks under `e.Key` are open, and can only panic in a
callback) returns nil, and afterwards `FindByKey(e.Key)` gives the former log
of the key followed by `e`, while `FindByKey` of every other key is as before;
after a sequence of `Save` calls `FindByKey(key)` gives the former log
followed by the saved events of that key in the order of the calls; on a store
made by `NewInMemoryRepository` every sequence of `Save` calls returns, and
`FindByKey(key)` then gives exactly the saved events of the key, in order, and
`ErrEventNotFound` exactly when there is none. -/
theorem event_log_append_only (r : InMemoryRepository) (ho : r.closed = false)
    (chans : List EventChan) (e : entity.Event) (es : List entity.Event) :
    (∀ r1 chans1 err drops, r.Save chans e = some (r1, chans1, err, drops) →
      err = none ∧ r1.closed = false ∧
      r1.FindByKey e.Key = (some ((r.FindByKey e.Key).1.getD [] ++ [e]), none) ∧
      ∀ k, k ≠ e.Key → r1.FindByKey k = r.FindByKey k) ∧
    ((∀ cb ∈ mapSlice r.subscribers e.Key,
        (chans[cb.events]?).map EventChan.closed = some false) →
      ∃ r1 chans1 drops, r.Save chans e = some (r1, chans1, none, drops)) ∧
    (∀ r2 chans2 errs, r.saveAll chans es = some (r2, chans2, errs) →
      r2.closed = false ∧ errs = es.map (fun _ => none) ∧
      ∀ key, r2.FindByKey key =
        if es.filter (fun x => decide (x.Key = key)) = [] then r.FindByKey key
        else (some ((r.FindByKey key).1.getD [] ++ es.filter (fun x => decide (x.Key = key))),
          none)) ∧
    (∃ r2, NewInMemoryRepository.saveAll chans es = some (r2, chans, es.map (fun _ => none)) ∧
      ∀ key, r2.FindByKey key =
        if es.filter (fun x => decide (x.Key = key)) = [] then
          (none, some errors.Error.ErrEventNotFound)
        else (some (es.filter (fun x => decide (x.Key = key))), none)) := by
  refine ⟨?_, Save_total r chans e ho, ?_, ?_⟩
  · intro r1 chans1 err drops h
    obtain ⟨herr, hr1⟩ := Save_open r r1 chans chans1 e err drops ho h
    have ho1 : r1.closed = false := by rw [hr1]; exact ho
    have hl : ∀ k, mapLookup r1.events k =
        if k = e.Key then some (mapSlice r.events e.Key ++ [e]) else mapLookup r.events k := by
      intro k
      rw [hr1]
      exact mapLookup_mapStore _ _ _ _
    refine ⟨herr, ho1, ?_, ?_⟩
    · rw [FindByKey_log r ho, FindByKey_open r1 ho1, hl]
      simp
    · intro k hk
      rw [FindByKey_open r1 ho1, FindByKey_open r ho, hl, if_neg hk]
  · intro r2 chans2 errs h
    obtain ⟨ho2, _, herr, hlog⟩ := saveAll_log es r r2 chans chans2 errs ho h
    exact ⟨ho2, herr, fun key => FindByKey_of_log r r2 ho ho2 key _ (hlog key)⟩
  · obtain ⟨r2, errs, h⟩ := saveAll_total es NewInMemoryRepository chans rfl rfl
    obtain ⟨ho2, _, herr, hlog⟩ := saveAll_log es NewInMemoryRepository r2 chans chans errs rfl h
    refine ⟨r2, by rw [h, herr], ?_⟩
    intro key
    rw [FindByKey_of_log NewInMemoryRepository r2 rfl ho2 key _ (hlog key)]
    split
    · rfl
    · rfl

/-- C14, at a store holding one event under `"a"`, with one more `Save` under
`"a"`, and at the fresh store with three `Save` calls under two keys. -/
theorem event_log_append_only_witness :
    (∃ r1 chans1 drops,
      InMemoryRepository.Save ⟨[("a", [⟨"1", "a", "x", 1⟩])], [], false⟩ [] ⟨"3", "a", "z", 3⟩ =
        some (r1, chans1, none, drops) ∧
      r1.FindByKey "a" = (some [⟨"1", "a", "x", 1⟩, ⟨"3", "a", "z", 3⟩], none)) ∧
    (∃ r2, NewInMemoryRepository.saveAll []
        [⟨"1", "a", "x", 1⟩, ⟨"2", "b", "y", 2⟩, ⟨"3", "a", "z", 3⟩] =
        some (r2, [], [none, none, none]) ∧
      r2.FindByKey "a" = (some [⟨"1", "a", "x", 1⟩, ⟨"3", "a", "z", 3⟩], none) ∧
      r2.FindByKey "c" = (none, some errors.Error.ErrEventNotFound)) := by
  have h := event_log_append_only
    ⟨[("a", [⟨"1", "a", "x", 1⟩])], [], false⟩ rfl [] ⟨"3", "a", "z", 3⟩
    [⟨"1", "a", "x", 1⟩, ⟨"2", "b", "y", 2⟩, ⟨"3", "a", "z", 3⟩]
  constructor
  · obtain ⟨r1, chans1, drops, hs⟩ := h.2.1 (by decide)
    exact ⟨r1, chans1, drops, hs, (h.1 r1 chans1 none drops hs).2.2.1⟩
  · obtain ⟨r2, h1, h2⟩ := h.2.2.2
    refine ⟨r2, h1, ?_, ?_⟩
    · rw [h2 "a"]
      decide
    · rw [h2 "c"]
      decide

end repository

/-! ## The configured maximum of subscribers per key -/

namespace subpub

theorem run_subscribes (subject : String) (cbs : List MessageHandler) :
    ∀ w : World, w.sp.closed = false →
      ∃ w1 outs, run w (cbs.map (Op.subscribe subject)) = some (w1, outs) ∧
        w1.sp.closed = false ∧ (Reachable w → Reachable w1) ∧
        (∀ o ∈ outs, ∃ sub, o = Out.subscribed (some sub) none) ∧
        (mapSlice w1.sp.subscribers subject).length =
          (mapSlice w.sp.subscribers subject).length + cbs.length := by
  induction cbs with
  | nil =>
    intro w ho
    exact ⟨w, [], rfl, ho, fun h => h, by simp, by simp⟩
  | cons cb cbs ih =>
    intro w ho
    have hs : Subscribe w subject cb =
        ({ sp := { w.sp with
                    subscribers := mapStore w.sp.subscribers subject
                      (mapSlice w.sp.subscribers subject ++ [⟨subject, cb, w.heap.make.2⟩]) },
           heap := w.heap.make.1 },
         some ⟨subject, cb, w.heap.make.2⟩, none) := by
      simp [Subscribe, ho]
    have ho1 : (Subscribe w subject cb).1.sp.closed = false := by
      rw [hs]
      exact ho
    obtain ⟨w1, outs, hr, hc, hreach, hout, hlen⟩ := ih (Subscribe w subject cb).1 ho1
    refine ⟨w1, Out.subscribed (Subscribe w subject cb).2.1 (Subscribe w subject cb).2.2 :: outs,
      ?_, hc, ?_, ?_, ?_⟩
    · simp only [List.map_cons, run, step, hr]
    · intro h
      exact hreach (reachable_subscribe w h subject cb)
    · intro o ho2
      rcases List.mem_cons.1 ho2 with rfl | h1
      · rw [hs]
        exact ⟨_, rfl⟩
      · exact hout o h1
    · have hm : mapSlice (Subscribe w subject cb).1.sp.subscribers subject =
          mapSlice w.sp.subscribers subject ++ [⟨subject, cb, w.heap.make.2⟩] := by
        rw [hs]
        simp [mapSlice_mapStore]
      rw [hlen, hm, List.length_append, List.length_singleton, List.length_cons]
      omega

end subpub

namespace repository

theorem subscribeAll_grows (key : String) (hk : key ≠ "") (handlers : List Callback) :
    ∀ r : InMemoryRepository, r.closed = false →
      (r.subscribeAll key handlers).1.closed = false ∧
      (r.subscribeAll key handlers).2 = handlers.map (fun _ => none) ∧
      mapSlice (r.subscribeAll key handlers).1.subscribers key =
        mapSlice r.subscribers key ++ handlers := by
  induction handlers with
  | nil =>
    intro r ho
    exact ⟨ho, rfl, by simp [InMemoryRepository.subscribeAll]⟩
  | cons handler handlers ih =>
    intro r ho
    have hs : r.Subscribe key handler =
        ({ r with subscribers :=
            mapStore r.subscribers key (mapSlice r.subscribers key ++ [handler]) }, none) := by
      simp [InMemoryRepository.Subscribe, ho, hk]
    have ho1 : (r.Subscribe key handler).1.closed = false := by
      rw [hs]
      exact ho
    obtain ⟨h1, h2, h3⟩ := ih (r.Subscribe key handler).1 ho1
    refine ⟨h1, ?_, ?_⟩
    · simp only [InMemoryRepository.subscribeAll, h2, List.map_cons]
      rw [hs]
    · simp only [InMemoryRepository.subscribeAll]
      rw [h3, hs]
      simp [mapSlice_mapStore]

end repository

namespace config

/-- C15 fails as stated: the default configuration is valid and has
`MaxSubscribersPerKey` 1000, and 1001 `Subscribe` calls on one subject of a
fresh broker all succeed and leave 1001 subscriptions under it; 1001
`Subscribe` calls on one key of a fresh store all return nil and leave 1001
callbacks under it. -/
theorem max_subscribers_counterexample :
    Default.validate = none ∧ Default.PubSub.MaxSubscribersPerKey = 1000 ∧
    (∃ w outs,
      subpub.run subpub.World.init
        ((List.replicate 1001 7).map (subpub.Op.subscribe "test")) = some (w, outs) ∧
      (∀ o ∈ outs, ∃ sub, o = subpub.Out.subscribed (some sub) none) ∧
      (mapSlice w.sp.subscribers "test").length = 1001) ∧
    (repository.NewInMemoryRepository.subscribeAll "test"
        (List.replicate 1001 ⟨0, "test"⟩)).2 = List.replicate 1001 none ∧
    (mapSlice (repository.NewInMemoryRepository.subscribeAll "test"
        (List.replicate 1001 ⟨0, "test"⟩)).1.subscribers "test").length = 1001 := by
  refine ⟨by decide, rfl, ?_, ?_, ?_⟩
  · obtain ⟨w, outs, h1, _, _, h2, h3⟩ :=
      subpub.run_subscribes "test" (List.replicate 1001 7) subpub.World.init rfl
    refine ⟨w, outs, h1, h2, ?_⟩
    rw [h3, List.length_replicate]
    rfl
  · rw [(repository.subscribeAll_grows "test" (by decide) _
      repository.NewInMemoryRepository rfl).2.1, List.map_replicate]
  · rw [(repository.subscribeAll_grows "test" (by decide) _
      repository.NewInMemoryRepository rfl).2.2, List.length_append, List.length_replicate]
    rfl

/-- C15 as amended: `MaxSubscribersPerKey` is not enforced.  On an open
broker every sequence of `Subscribe` calls on a subject succeeds and makes the
list of the subject longer by one per call; on an open store every sequence
of `Subscribe` calls on a non-empty key returns nil and appends every handler
to the list of the key; so, whatever the configuration, the broker reaches a
state with more subscribers under a subject than `MaxSubscribersPerKey`. -/
theorem max_subscribers_not_enforced (cfg : Config) (w : subpub.World)
    (ho : w.sp.closed = false) (subject : String) (cbs : List subpub.MessageHandler)
    (r : repository.InMemoryRepository) (hr : r.closed = false) (key : String)
    (hk : key ≠ "") (handlers : List repository.Callback) :
    (∃ w1 outs, subpub.run w (cbs.map (subpub.Op.subscribe subject)) = some (w1, outs) ∧
      w1.sp.closed = false ∧ (∀ o ∈ outs, ∃ sub, o = subpub.Out.subscribed (some sub) none) ∧
      (mapSlice w1.sp.subscribers subject).length =
        (mapSlice w.sp.subscribers subject).length + cbs.length) ∧
    ((r.subscribeAll key handlers).1.closed = false ∧
      (r.subscribeAll key handlers).2 = handlers.map (fun _ => none) ∧
      mapSlice (r.subscribeAll key handlers).1.subscribers key =
        mapSlice r.subscribers key ++ handlers) ∧
    (∃ w2, subpub.Reachable w2 ∧
      cfg.PubSub.MaxSubscribersPerKey < ((mapSlice w2.sp.subscribers subject).length : Int)) := by
  refine ⟨?_, repository.subscribeAll_grows key hk handlers r hr, ?_⟩
  · obtain ⟨w1, outs, h1, h2, _, h3, h4⟩ := subpub.run_subscribes subject cbs w ho
    exact ⟨w1, outs, h1, h2, h3, h4⟩
  · obtain ⟨w2, outs, _, _, h2, _, h4⟩ := subpub.run_subscribes subject
      (List.replicate (cfg.PubSub.MaxSubscribersPerKey.toNat + 1) 0) subpub.World.init rfl
    refine ⟨w2, h2 subpub.Reachable.init, ?_⟩
    rw [h4]
    simp only [List.length_replicate]
    omega

/-- C15 as amended, at a configuration with `MaxSubscribersPerKey` 1 and two
`Subscribe` calls on `"test"`, on the broker and on the store. -/
theorem max_subscribers_not_enforced_witness :
    (∃ w1 outs, subpub.run subpub.World.init
        [subpub.Op.subscribe "test" 7, subpub.Op.subscribe "test" 8] = some (w1, outs) ∧
      (mapSlice w1.sp.subscribers "test").length = 2) ∧
    mapSlice (repository.NewInMemoryRepository.subscribeAll "test"
        [⟨0, "test"⟩, ⟨1, "test"⟩]).1.subscribers "test" = [⟨0, "test"⟩, ⟨1, "test"⟩] := by
  have h := max_subscribers_not_enforced
    { Default with PubSub := { MaxSubscribersPerKey := 1, MessageBufferSize := 100,
                               CleanupInterval := 5 * Minute } }
    subpub.World.init rfl "test" [7, 8] repository.NewInMemoryRepository rfl "test"
    (by decide) [⟨0, "test"⟩, ⟨1, "test"⟩]
  obtain ⟨⟨w1, outs, h1, _, _, h2⟩, ⟨_, _, h3⟩, _⟩ := h
  exact ⟨⟨w1, outs, h1, h2⟩, h3⟩

end config

/-! ## Lemmas on what a call does to the channel of a stream -/

namespace grpc

theorem exit_frame (w w1 : World) (st : Stream) (h : Handler.Subscribe.exit w st = some w1) :
    (∀ i : Nat, i ≠ st.events → w1.chans[i]? = w.chans[i]?) ∧
    w1.chans.length = w.chans.length ∧ w1.h.eventRepo = w.h.eventRepo ∧
    (∀ k b, b ∈ mapSlice w.h.subs k → b ≠ st.events → b ∈ mapSlice w1.h.subs k) := by
  obtain ⟨ch, _, _, hch, hrepo, hsubs⟩ := exit_some w w1 st h
  refine ⟨?_, by rw [hch, List.length_set], hrepo, ?_⟩
  · intro i hi
    rw [hch, List.getElem?_set_ne (fun e => hi e.symm)]
  · intro k b hb hne
    rw [hsubs k]
    split
    · rename_i hk
      rw [hk] at hb
      exact (mem_setDelete _ _ _).2 ⟨hb, hne⟩
    · exact hb

theorem Subscribe_frame (w w1 : World) (key : String) (e : Entered)
    (h : Handler.Subscribe w key = some (w1, e)) :
    (∀ i : Nat, i < w.chans.length → w1.chans[i]? = w.chans[i]?) ∧
    (∀ k b, b ∈ mapSlice w.h.subs k → b < w.chans.length → b ∈ mapSlice w1.h.subs k) ∧
    ((w1.h.eventRepo.subscribers = w.h.eventRepo.subscribers ∧
        w.chans.length ≤ w1.chans.length) ∨
      (w1.h.eventRepo.subscribers =
          mapStore w.h.eventRepo.subscribers key
            (mapSlice w.h.eventRepo.subscribers key ++ [⟨w.chans.length, key⟩]) ∧
        w1.chans.length = w.chans.length + 1)) := by
  unfold Handler.Subscribe at h
  split at h
  · simp only [Option.some.injEq, Prod.mk.injEq] at h
    rw [← h.1]
    exact ⟨fun _ _ => rfl, fun _ _ hb _ => hb, Or.inl ⟨rfl, Nat.le_refl _⟩⟩
  · simp only [] at h
    have hreg : ∀ k b, b ∈ mapSlice w.h.subs k →
        b ∈ mapSlice (mapStore w.h.subs key
          (setInsert (mapSlice w.h.subs key) w.chans.length)) k := by
      intro k b hb
      rw [mapSlice_mapStore]
      split
      · rename_i hk
        rw [hk] at hb
        exact (mem_setInsert _ _ _).2 (Or.inl hb)
      · exact hb
    rcases Execute_cases w.h.eventRepo key ⟨w.chans.length, key⟩ with ⟨hn, hs⟩ | ⟨hn, hs⟩
    · simp only [hn, Option.some.injEq, Prod.mk.injEq] at h
      rw [← h.1]
      refine ⟨?_, fun k b hb _ => hreg k b hb, Or.inr ⟨hs, by simp⟩⟩
      intro i hi
      exact List.getElem?_append_left hi
    · split at h
      · split at h
        · simp at h
        · rename_i w2 hx
          simp only [Option.some.injEq, Prod.mk.injEq] at h
          rw [← h.1]
          obtain ⟨f1, f2, f3, f4⟩ := exit_frame _ w2 _ hx
          refine ⟨?_, ?_, Or.inl ⟨?_, ?_⟩⟩
          · intro i hi
            rw [f1 i (by simp only []; omega)]
            exact List.getElem?_append_left hi
          · intro k b hb hlt
            exact f4 k b (hreg k b hb) (by simp only []; omega)
          · rw [f3]
            simp only [hs]
          · rw [f2]
            simp
      · rename_i hx
        exact absurd hx hn

theorem loop_frame (w w1 : World) (st : Stream) (wk : Wake) (l : Looped)
    (h : Handler.Subscribe.loop w st wk = some (w1, l)) :
    (∀ i : Nat, i ≠ st.events → w1.chans[i]? = w.chans[i]?) ∧
    w1.chans.length = w.chans.length ∧ w1.h.eventRepo = w.h.eventRepo ∧
    (∀ k b, b ∈ mapSlice w.h.subs k → b ≠ st.events → b ∈ mapSlice w1.h.subs k) := by
  have hset : ∀ (ch1 : EventChan) (w2 : World),
      Handler.Subscribe.exit { w with chans := w.chans.set st.events ch1 } st = some w2 →
      (∀ i : Nat, i ≠ st.events → w2.chans[i]? = w.chans[i]?) ∧
      w2.chans.length = w.chans.length ∧ w2.h.eventRepo = w.h.eventRepo ∧
      (∀ k b, b ∈ mapSlice w.h.subs k → b ≠ st.events → b ∈ mapSlice w2.h.subs k) := by
    intro ch1 w2 hx
    obtain ⟨f1, f2, f3, f4⟩ := exit_frame _ w2 st hx
    refine ⟨?_, by rw [f2]; simp, f3, f4⟩
    intro i hi
    rw [f1 i hi]
    exact List.getElem?_set_ne (fun e => hi e.symm)
  cases wk with
  | ctxDone =>
    simp only [Handler.Subscribe.loop] at h
    cases hx : Handler.Subscribe.exit w st with
    | none => simp [hx] at h
    | some w2 =>
      simp only [hx, Option.some.injEq, Prod.mk.injEq] at h
      rw [← h.1]
      exact exit_frame w w2 st hx
  | event sendFails =>
    simp only [Handler.Subscribe.loop] at h
    cases hg : w.chans[st.events]? with
    | none => simp [hg] at h
    | some ch =>
      simp only [hg] at h
      cases hr : ch.recv with
      | mk ch1 r =>
        cases r with
        | value v =>
          simp only [hr] at h
          cases sendFails with
          | false =>
            simp only [Bool.false_eq_true, if_false, Option.some.injEq, Prod.mk.injEq] at h
            rw [← h.1]
            exact ⟨fun i hi => List.getElem?_set_ne (fun e => hi e.symm), by simp, rfl,
              fun _ _ hb _ => hb⟩
          | true =>
            simp only [if_true] at h
            cases hx : Handler.Subscribe.exit { w with chans := w.chans.set st.events ch1 } st with
            | none => simp [hx] at h
            | some w2 =>
              simp only [hx, Option.some.injEq, Prod.mk.injEq] at h
              rw [← h.1]
              exact hset ch1 w2 hx
        | closedEmpty =>
          simp only [hr] at h
          cases hx : Handler.Subscribe.exit w st with
          | none => simp [hx] at h
          | some w2 =>
            simp only [hx, Option.some.injEq, Prod.mk.injEq] at h
            rw [← h.1]
            exact exit_frame w w2 st hx
        | notReady =>
          simp only [hr, Option.some.injEq, Prod.mk.injEq] at h
          rw [← h.1]
          exact ⟨fun _ _ => rfl, rfl, rfl, fun _ _ hb _ => hb⟩

theorem Publish_length (w w1 : World) (idNow : time.Time) (now : Nat) (key data : String)
    (code : Option Code) (drops : List String)
    (h : Handler.Publish w idNow now key data = some (w1, code, drops)) :
    w1.chans.length = w.chans.length := by
  have hc := (Publish_preserves w w1 idNow now key data code drops h).2.2
  rcases Nat.lt_trichotomy w1.chans.length w.chans.length with hlt | heq | hgt
  · have h1 := hc w1.chans.length
    rw [List.getElem?_eq_none (Nat.le_refl _)] at h1
    obtain ⟨x, hx⟩ : ∃ x, w.chans[w1.chans.length]? = some x :=
      ⟨_, List.getElem?_eq_getElem hlt⟩
    rw [hx] at h1
    simp at h1
  · exact heq
  · have h1 := hc w.chans.length
    rw [List.getElem?_eq_none (Nat.le_refl _)] at h1
    obtain ⟨x, hx⟩ : ∃ x, w1.chans[w.chans.length]? = some x :=
      ⟨_, List.getElem?_eq_getElem hgt⟩
    rw [hx] at h1
    simp at h1

theorem callbackInv_frame (w w1 : World) (hi : CallbackInv w)
    (hs : w1.h.eventRepo.subscribers = w.h.eventRepo.subscribers)
    (hl : w.chans.length ≤ w1.chans.length) : CallbackInv w1 := by
  refine ⟨?_, ?_, ?_⟩
  · intro k cb hcb
    rw [hs] at hcb
    exact Nat.lt_of_lt_of_le (hi.cbLt k cb hcb) hl
  · intro k
    rw [hs]
    exact hi.cbNodup k
  · intro k1 k2 cb1 cb2 h1 h2 he
    rw [hs] at h1 h2
    exact hi.cbKey k1 k2 cb1 cb2 h1 h2 he

theorem callbackInv_register (w w1 : World) (key : String) (hi : CallbackInv w)
    (hs : w1.h.eventRepo.subscribers =
      mapStore w.h.eventRepo.subscribers key
        (mapSlice w.h.eventRepo.subscribers key ++ [⟨w.chans.length, key⟩]))
    (hl : w1.chans.length = w.chans.length + 1) : CallbackInv w1 := by
  have hold : ∀ k cb, cb ∈ mapSlice w1.h.eventRepo.subscribers k →
      cb ∈ mapSlice w.h.eventRepo.subscribers k ∨
        (cb = ⟨w.chans.length, key⟩ ∧ k = key) := by
    intro k cb hcb
    rw [hs, mapSlice_mapStore] at hcb
    split at hcb
    · rename_i hk
      rcases List.mem_append.1 hcb with h1 | h1
      · left
        rw [hk]
        exact h1
      · exact Or.inr ⟨List.mem_singleton.1 h1, hk⟩
    · exact Or.inl hcb
  refine ⟨?_, ?_, ?_⟩
  · intro k cb hcb
    rcases hold k cb hcb with h1 | ⟨rfl, _⟩
    · have := hi.cbLt k cb h1
      omega
    · simp only []
      omega
  · intro k
    rw [hs, mapSlice_mapStore]
    split
    · rw [List.map_append]
      refine List.Nodup.append (hi.cbNodup key) (by simp) ?_
      intro a ha hb
      simp only [List.map_cons, List.map_nil, List.mem_singleton] at hb
      obtain ⟨cb, hcb, hev⟩ := List.mem_map.1 ha
      have := hi.cbLt key cb hcb
      omega
    · exact hi.cbNodup k
  · intro k1 k2 cb1 cb2 h1 h2 he
    rcases hold k1 cb1 h1 with g1 | ⟨rfl, rfl⟩
    · rcases hold k2 cb2 h2 with g2 | ⟨rfl, rfl⟩
      · exact hi.cbKey k1 k2 cb1 cb2 g1 g2 he
      · have := hi.cbLt k1 cb1 g1
        simp only [] at he
        omega
    · rcases hold k2 cb2 h2 with g2 | ⟨_, rfl⟩
      · have := hi.cbLt k2 cb2 g2
        simp only [] at he
        omega
      · rfl

theorem reachable_server_callbacks (w : World) (hr : Reachable w) : CallbackInv w := by
  induction hr with
  | init =>
    exact ⟨by simp [World.init, repository.NewInMemoryRepository, mapSlice, mapLookup],
      by simp [World.init, repository.NewInMemoryRepository, mapSlice, mapLookup],
      by simp [World.init, repository.NewInMemoryRepository, mapSlice, mapLookup]⟩
  | next w w1 op o hr1 hv hs ih =>
    cases op with
    | subscribe key =>
      simp only [step] at hs
      cases hx : Handler.Subscribe w key with
      | none => simp [hx] at hs
      | some r =>
        obtain ⟨w2, e⟩ := r
        simp only [hx, Option.some.injEq, Prod.mk.injEq] at hs
        rw [← hs.1]
        rcases (Subscribe_frame w w2 key e hx).2.2 with ⟨h1, h2⟩ | ⟨h1, h2⟩
        · exact callbackInv_frame w w2 ih h1 h2
        · exact callbackInv_register w w2 key ih h1 h2
    | wake st wk =>
      simp only [step] at hs
      cases hx : Handler.Subscribe.loop w st wk with
      | none => simp [hx] at hs
      | some r =>
        obtain ⟨w2, l⟩ := r
        simp only [hx, Option.some.injEq, Prod.mk.injEq] at hs
        rw [← hs.1]
        obtain ⟨_, f2, f3, _⟩ := loop_frame w w2 st wk l hx
        exact callbackInv_frame w w2 ih (by rw [f3]) (by rw [f2])
    | publish idNow now key data =>
      simp only [step] at hs
      cases hx : Handler.Publish w idNow now key data with
      | none => simp [hx] at hs
      | some r =>
        obtain ⟨w2, code, drops⟩ := r
        simp only [hx, Option.some.injEq, Prod.mk.injEq] at hs
        rw [← hs.1]
        exact callbackInv_frame w w2 ih (Publish_subscribers w w2 idNow now key data code drops hx)
          (by rw [Publish_length w w2 idNow now key data code drops hx])
    | closeRepo =>
      simp only [step, Option.some.injEq, Prod.mk.injEq] at hs
      rw [← hs.1]
      refine callbackInv_frame w _ ih ?_ (Nat.le_refl _)
      simp only [repository.InMemoryRepository.Close]
      split <;> rfl

theorem call_queue (cb : repository.Callback) (chans chans1 : List EventChan)
    (e : entity.Event) (d : Bool) (h : cb.call chans e = some (chans1, d)) (a : Nat)
    (q : EventChan) (hq : chans[a]? = some q) :
    ∃ q1, chans1[a]? = some q1 ∧ q1.cap = q.cap ∧ q1.closed = q.closed ∧
      q1.buf = if cb.events = a ∧ q.buf.length < q.cap then q.buf ++ [⟨e.Data⟩] else q.buf := by
  unfold repository.Callback.call at h
  cases hg : chans[cb.events]? with
  | none => simp [hg] at h
  | some ch =>
    simp only [hg] at h
    cases hs : ch.trySend ⟨e.Data⟩ with
    | none => simp [hs] at h
    | some r =>
      obtain ⟨ch1, ok⟩ := r
      simp only [hs, Option.some.injEq, Prod.mk.injEq] at h
      obtain ⟨rfl, _⟩ := h
      by_cases hea : cb.events = a
      · subst hea
        rw [hq] at hg
        simp only [Option.some.injEq] at hg
        subst hg
        have hlt : cb.events < chans.length := (List.getElem?_eq_some.1 hq).1
        refine ⟨ch1, by rw [List.getElem?_set]; simp [hlt], ?_⟩
        unfold EventChan.trySend at hs
        cases hcl : q.closed with
        | true => simp [hcl] at hs
        | false =>
          by_cases hl : q.buf.length < q.cap
          · simp only [hcl, hl, if_true, if_false, Option.some.injEq, Prod.mk.injEq,
              Bool.false_eq_true] at hs
            rw [← hs.1]
            simp [hl, hcl]
          · simp only [hcl, hl, if_false, Option.some.injEq, Prod.mk.injEq,
              Bool.false_eq_true] at hs
            rw [← hs.1]
            simp [hl, hcl]
      · refine ⟨q, by rw [List.getElem?_set_ne hea]; exact hq, rfl, rfl, ?_⟩
        simp [hea]

theorem notify_queue (e : entity.Event) (subscribers : List repository.Callback) :
    ∀ (chans chans1 : List EventChan) (drops : List String),
      repository.Save.notify e subscribers chans = some (chans1, drops) →
      (subscribers.map repository.Callback.events).Nodup →
      ∀ (a : Nat) (q : EventChan), chans[a]? = some q →
        ∃ q1, chans1[a]? = some q1 ∧ q1.cap = q.cap ∧ q1.closed = q.closed ∧
          q1.buf = if a ∈ subscribers.map repository.Callback.events ∧ q.buf.length < q.cap
            then q.buf ++ [⟨e.Data⟩] else q.buf := by
  induction subscribers with
  | nil =>
    intro chans chans1 drops h _ a q hq
    simp only [repository.Save.notify, Option.some.injEq, Prod.mk.injEq] at h
    rw [← h.1]
    exact ⟨q, hq, rfl, rfl, by simp⟩
  | cons cb rest ih =>
    intro chans chans1 drops h hn a q hq
    simp only [repository.Save.notify] at h
    cases hc : cb.call chans e with
    | none => simp [hc] at h
    | some r =>
      obtain ⟨chans2, d⟩ := r
      simp only [hc] at h
      cases hr : repository.Save.notify e rest chans2 with
      | none => simp [hr] at h
      | some r2 =>
        obtain ⟨chans3, drops3⟩ := r2
        simp only [hr, Option.some.injEq, Prod.mk.injEq] at h
        rw [← h.1]
        simp only [List.map_cons, List.nodup_cons] at hn
        obtain ⟨q2, hq2, hcap2, hcl2, hbuf2⟩ := call_queue cb chans chans2 e d hc a q hq
        obtain ⟨q1, hq1, hcap1, hcl1, hbuf1⟩ := ih chans2 chans3 drops3 hr hn.2 a q2 hq2
        refine ⟨q1, hq1, hcap1.trans hcap2, hcl1.trans hcl2, ?_⟩
        rw [hbuf1, hcap2]
        by_cases hea : cb.events = a
        · subst hea
          have hnot : ¬ (cb.events ∈ rest.map repository.Callback.events) := hn.1
          rw [hbuf2]
          simp [hnot]
        · have hm : (a ∈ (cb :: rest).map repository.Callback.events) ↔
              (a ∈ rest.map repository.Callback.events) := by
            simp only [List.map_cons, List.mem_cons]
            constructor
            · rintro (h1 | h1)
              · exact absurd h1.symm hea
              · exact h1
            · exact Or.inr
          have hb : q2.buf = q.buf := by
            rw [hbuf2]
            simp [hea]
          rw [hb]
          by_cases hin : a ∈ rest.map repository.Callback.events
          · have hin2 := hm.2 hin
            simp only [List.map_cons] at hin2
            simp [hin, hin2]
          · have hin2 : ¬ (a ∈ cb.events :: rest.map repository.Callback.events) :=
              fun h1 => hin (hm.1 (by simpa using h1))
            simp [hin, hin2]

theorem Save_queue (r r1 : repository.InMemoryRepository) (chans chans1 : List EventChan)
    (e : entity.Event) (err : Option errors.Error) (drops : List String)
    (h : r.Save chans e = some (r1, chans1, err, drops))
    (hn : ((mapSlice r.subscribers e.Key).map repository.Callback.events).Nodup)
    (a : Nat) (q : EventChan) (hq : chans[a]? = some q) :
    ∃ q1, chans1[a]? = some q1 ∧ q1.cap = q.cap ∧ q1.closed = q.closed ∧
      q1.buf = if err = none ∧
          a ∈ (mapSlice r.subscribers e.Key).map repository.Callback.events ∧
          q.buf.length < q.cap
        then q.buf ++ [⟨e.Data⟩] else q.buf := by
  unfold repository.InMemoryRepository.Save at h
  by_cases hc : r.closed = true
  · simp only [hc, if_true, Option.some.injEq, Prod.mk.injEq] at h
    obtain ⟨_, rfl, rfl, _⟩ := h
    exact ⟨q, hq, rfl, rfl, by simp⟩
  · rw [if_neg hc] at h
    simp only [] at h
    cases hl : mapLookup r.subscribers e.Key with
    | none =>
      simp only [hl, Option.some.injEq, Prod.mk.injEq] at h
      obtain ⟨_, rfl, rfl, _⟩ := h
      refine ⟨q, hq, rfl, rfl, ?_⟩
      simp [mapSlice, hl]
    | some subscribers =>
      have hm : mapSlice r.subscribers e.Key = subscribers := by simp [mapSlice, hl]
      simp only [hl] at h
      cases hr : repository.Save.notify e subscribers chans with
      | none => simp [hr] at h
      | some r2 =>
        obtain ⟨chans3, drops3⟩ := r2
        simp only [hr, Option.some.injEq, Prod.mk.injEq] at h
        obtain ⟨_, rfl, rfl, _⟩ := h
        rw [hm] at hn ⊢
        obtain ⟨q1, h1, h2, h3, h4⟩ := notify_queue e subscribers chans chans3 drops3 hr hn a q hq
        exact ⟨q1, h1, h2, h3, by simpa using h4⟩

theorem Publish_queue (w w1 : World) (idNow : time.Time) (now : Nat) (key data : String)
    (code : Option Code) (drops : List String)
    (h : Handler.Publish w idNow now key data = some (w1, code, drops))
    (hn : ((mapSlice w.h.eventRepo.subscribers key).map repository.Callback.events).Nodup)
    (a : Nat) (q : EventChan) (hq : w.chans[a]? = some q) :
    ∃ q1, w1.chans[a]? = some q1 ∧ q1.cap = q.cap ∧ q1.closed = q.closed ∧
      q1.buf = if code = none ∧
          a ∈ (mapSlice w.h.eventRepo.subscribers key).map repository.Callback.events ∧
          q.buf.length < q.cap
        then q.buf ++ [⟨data⟩] else q.buf := by
  unfold Handler.Publish at h
  split at h
  · simp only [Option.some.injEq, Prod.mk.injEq] at h
    obtain ⟨rfl, rfl, _⟩ := h
    exact ⟨q, hq, rfl, rfl, by simp⟩
  · split at h
    · simp at h
    · rename_i repo chans err drops1 hx
      simp only [Option.some.injEq, Prod.mk.injEq] at h
      obtain ⟨rfl, rfl, _⟩ := h
      simp only [publish.Execute] at hx
      cases hv : (entity.NewEvent idNow now key data).Validate with
      | some e1 =>
        simp only [hv, Option.some.injEq, Prod.mk.injEq] at hx
        obtain ⟨_, rfl, rfl, _⟩ := hx
        exact ⟨q, hq, rfl, rfl, by simp⟩
      | none =>
        simp only [hv] at hx
        obtain ⟨q1, h1, h2, h3, h4⟩ := Save_queue _ _ _ _ _ _ _ hx hn a q hq
        refine ⟨q1, h1, h2, h3, ?_⟩
        rw [h4]
        cases err <;> simp [entity.NewEvent]

theorem Publish_total (w : World) (idNow : time.Time) (now : Nat) (key data : String)
    (h : ∀ cb ∈ mapSlice w.h.eventRepo.subscribers key,
      (w.chans[cb.events]?).map EventChan.closed = some false) :
    ∃ w1 code drops, Handler.Publish w idNow now key data = some (w1, code, drops) := by
  unfold Handler.Publish
  split
  · exact ⟨_, _, _, rfl⟩
  · simp only [publish.Execute]
    cases hv : (entity.NewEvent idNow now key data).Validate with
    | some e1 => exact ⟨_, _, _, rfl⟩
    | none =>
      simp only []
      cases hc : w.h.eventRepo.closed with
      | true =>
        simp only [repository.InMemoryRepository.Save, hc, if_true]
        exact ⟨_, _, _, rfl⟩
      | false =>
        obtain ⟨r1, chans1, drops, hs⟩ :=
          repository.Save_total w.h.eventRepo w.chans (entity.NewEvent idNow now key data) hc h
        simp only [hs]
        exact ⟨_, _, _, rfl⟩

theorem live_callback_iff (w : World) (hg : Registered w) (hc : CallbackInv w) (st : Stream)
    (hl : w.live st) (key : String) :
    st.events ∈ (mapSlice w.h.eventRepo.subscribers key).map repository.Callback.events ↔
      key = st.key := by
  constructor
  · intro h
    obtain ⟨cb, hcb, hev⟩ := List.mem_map.1 h
    exact hc.cbKey key st.key cb ⟨st.events, st.key⟩ hcb (hg st.key st.events hl) hev
  · intro h
    rw [h]
    exact List.mem_map.2 ⟨⟨st.events, st.key⟩, hg st.key st.events hl, rfl⟩

theorem Publish_live_queue (w w1 : World) (hr : Reachable w) (st : Stream) (hl : w.live st)
    (q : EventChan) (hq : w.chans[st.events]? = some q) (hcap : q.cap = 100)
    (idNow : time.Time) (now : Nat) (key data : String) (code : Option Code)
    (drops : List String) (h : Handler.Publish w idNow now key data = some (w1, code, drops)) :
    w1.live st ∧
      w1.chans[st.events]? = some { q with buf :=
        if code = none ∧ key = st.key ∧ q.buf.length < 100 then q.buf ++ [⟨data⟩] else q.buf } := by
  have hci := reachable_server_callbacks w hr
  have hreg := reachable_server_registered w hr
  obtain ⟨q1, h1, h2, h3, h4⟩ :=
    Publish_queue w w1 idNow now key data code drops h (hci.cbNodup key) st.events q hq
  have hsubs := (Publish_preserves w w1 idNow now key data code drops h).1
  refine ⟨?_, ?_⟩
  · unfold World.live
    rw [hsubs]
    exact hl
  · rw [h1]
    obtain ⟨b1, c1, d1⟩ := q1
    simp only [] at h2 h3 h4
    simp only [live_callback_iff w hreg hci st hl key, hcap] at h4
    rw [h2, h3, h4]

theorem loop_value (w : World) (st : Stream) (q : EventChan)
    (hq : w.chans[st.events]? = some q) (v : proto.Event) (rest : List proto.Event)
    (hb : q.buf = v :: rest) :
    Handler.Subscribe.loop w st (Wake.event false) =
      some ({ w with chans := w.chans.set st.events { q with buf := rest } },
        Looped.continues (some v)) := by
  simp [Handler.Subscribe.loop, hq, EventChan.recv, hb]

theorem loop_empty (w : World) (st : Stream) (q : EventChan)
    (hq : w.chans[st.events]? = some q) (hc : q.closed = false) (hb : q.buf = [])
    (sf : Bool) :
    Handler.Subscribe.loop w st (Wake.event sf) = some (w, Looped.continues none) := by
  simp [Handler.Subscribe.loop, hq, EventChan.recv, hb, hc]

theorem step_queue (w w1 : World) (hr : Reachable w) (st : Stream) (hl : w.live st)
    (q : EventChan) (hq : w.chans[st.events]? = some q) (op : Op) (o : Out)
    (hv : op.valid w) (hs : step w op = some (w1, o)) (hn : returnsIn st (op, o) = false) :
    w1.live st ∧ ∃ q1, w1.chans[st.events]? = some q1 ∧
      sentBy st (op, o) ++ q1.buf =
        q.buf ++ (if q.buf.length < 100 then publishedBy st.key (op, o) else []) := by
  have hi := reachable_server_inv w hr
  have hlt : st.events < w.chans.length := (List.getElem?_eq_some.1 hq).1
  have hopen : q.closed = false := by
    have h1 := hi.liveOpen st.key st.events hl
    simpa [hq] using h1
  have hcap : q.cap = 100 := (hi.chanOk q (List.getElem?_mem hq)).1
  cases op with
  | subscribe key =>
    simp only [step] at hs
    cases hx : Handler.Subscribe w key with
    | none => simp [hx] at hs
    | some r =>
      obtain ⟨w2, e⟩ := r
      simp only [hx, Option.some.injEq, Prod.mk.injEq] at hs
      obtain ⟨rfl, rfl⟩ := hs
      obtain ⟨f1, f2, _⟩ := Subscribe_frame w w2 key e hx
      refine ⟨f2 st.key st.events hl hlt, q, by rw [f1 st.events hlt]; exact hq, ?_⟩
      simp [sentBy, publishedBy]
  | wake st2 wk =>
    simp only [step] at hs
    cases hx : Handler.Subscribe.loop w st2 wk with
    | none => simp [hx] at hs
    | some r =>
      obtain ⟨w2, l⟩ := r
      simp only [hx, Option.some.injEq, Prod.mk.injEq] at hs
      obtain ⟨rfl, rfl⟩ := hs
      by_cases he : st2.events = st.events
      · have hv2 : st.events ∈ mapSlice w.h.subs st2.key := by
          have h2 : st2.events ∈ mapSlice w.h.subs st2.key := hv
          rw [he] at h2
          exact h2
        have hk : st2.key = st.key := hi.liveKey st2.key st.key st.events hv2 hl
        have hst : st2 = st := by
          cases st2
          cases st
          simp only [] at he hk
          rw [he, hk]
        rw [hst] at hx hn ⊢
        cases l with
        | returned c => simp [returnsIn] at hn
        | continues s =>
          cases wk with
          | ctxDone =>
            simp only [Handler.Subscribe.loop] at hx
            cases hy : Handler.Subscribe.exit w st <;> simp [hy] at hx
          | event sf =>
            cases hb : q.buf with
            | nil =>
              rw [loop_empty w st q hq hopen hb sf] at hx
              simp only [Option.some.injEq, Prod.mk.injEq, Looped.continues.injEq] at hx
              obtain ⟨rfl, rfl⟩ := hx
              exact ⟨hl, q, hq, by simp [sentBy, publishedBy, hb]⟩
            | cons v rest =>
              cases sf with
              | true =>
                simp only [Handler.Subscribe.loop, hq, EventChan.recv, hb, if_true] at hx
                split at hx <;> simp at hx
              | false =>
                rw [loop_value w st q hq v rest hb] at hx
                simp only [Option.some.injEq, Prod.mk.injEq, Looped.continues.injEq] at hx
                obtain ⟨rfl, rfl⟩ := hx
                refine ⟨hl, { q with buf := rest }, ?_, ?_⟩
                · simp [List.getElem?_set, hlt]
                · simp [sentBy, publishedBy]
      · obtain ⟨f1, _, _, f4⟩ := loop_frame w w2 st2 wk l hx
        have hne : st2 ≠ st := fun e => he (by rw [e])
        refine ⟨f4 st.key st.events hl (fun e => he e.symm), q,
          by rw [f1 st.events (fun e => he e.symm)]; exact hq, ?_⟩
        cases l with
        | returned c => simp [sentBy, publishedBy]
        | continues s => cases s <;> simp [sentBy, publishedBy, hne]
  | publish idNow now key data =>
    simp only [step] at hs
    cases hx : Handler.Publish w idNow now key data with
    | none => simp [hx] at hs
    | some r =>
      obtain ⟨w2, code, drops⟩ := r
      simp only [hx, Option.some.injEq, Prod.mk.injEq] at hs
      obtain ⟨rfl, rfl⟩ := hs
      obtain ⟨g1, g2⟩ :=
        Publish_live_queue w w2 hr st hl q hq hcap idNow now key data code drops hx
      refine ⟨g1, _, g2, ?_⟩
      cases code with
      | some c => simp [sentBy, publishedBy]
      | none =>
        by_cases hk : key = st.key <;> by_cases hlen : q.buf.length < 100 <;>
          simp [sentBy, publishedBy, hk, hlen]
  | closeRepo =>
    simp only [step, Option.some.injEq, Prod.mk.injEq] at hs
    obtain ⟨rfl, rfl⟩ := hs
    exact ⟨hl, q, hq, by simp [sentBy, publishedBy]⟩

theorem publishedBy_length (key : String) (p : Op × Out) : (publishedBy key p).length ≤ 1 := by
  unfold publishedBy
  split
  · split <;> simp
  · simp

theorem acceptedOn_sublist (st : Stream) (tr : List (Op × Out)) :
    ∀ n : Nat, (acceptedOn st n tr).Sublist (publishedOn st.key tr) := by
  induction tr with
  | nil =>
    intro n
    simp [acceptedOn, publishedOn]
  | cons p tr ih =>
    intro n
    simp only [acceptedOn, publishedOn]
    refine List.Sublist.append ?_ (ih _)
    split
    · exact List.Sublist.refl _
    · exact List.nil_sublist _

theorem acceptedOn_all (st : Stream) (tr : List (Op × Out)) :
    ∀ n : Nat, n + (publishedOn st.key tr).length ≤ 100 →
      acceptedOn st n tr = publishedOn st.key tr := by
  induction tr with
  | nil =>
    intro n _
    simp [acceptedOn, publishedOn]
  | cons p tr ih =>
    intro n hn
    simp only [acceptedOn, publishedOn, List.length_append] at hn ⊢
    have h1 := publishedBy_length st.key p
    by_cases hlt : n < 100
    · simp only [hlt, if_true]
      rw [ih _ (by omega)]
    · have h0 : (publishedBy st.key p).length = 0 := by omega
      have hnil : publishedBy st.key p = [] := List.length_eq_zero.1 h0
      simp only [hlt, if_false, hnil, List.length_nil, List.nil_append]
      rw [ih _ (by omega)]

theorem runs_queue (w w1 : World) (tr : List (Op × Out)) (hrun : Runs w tr w1) :
    Reachable w → ∀ st : Stream, w.live st → ∀ q : EventChan, w.chans[st.events]? = some q →
      (∀ p ∈ tr, returnsIn st p = false) →
      Reachable w1 ∧ w1.live st ∧ ∃ q1, w1.chans[st.events]? = some q1 ∧
        sentTo st tr ++ q1.buf = q.buf ++ acceptedOn st q.buf.length tr := by
  induction hrun with
  | done w =>
    intro hr st hl q hq _
    exact ⟨hr, hl, q, hq, by simp [sentTo, acceptedOn]⟩
  | next w w2 w3 op o tr hv hs _ ih =>
    intro hr st hl q hq hn
    obtain ⟨hl2, q2, hq2, hb2⟩ :=
      step_queue w w2 hr st hl q hq op o hv hs (hn (op, o) (List.mem_cons_self _ _))
    obtain ⟨hr3, hl3, q3, hq3, hb3⟩ := ih (Reachable.next w w2 op o hr hv hs) st hl2 q2 hq2
      (fun p hp => hn p (List.mem_cons_of_mem _ hp))
    refine ⟨hr3, hl3, q3, hq3, ?_⟩
    have hlen : q2.buf.length =
        q.buf.length + (if q.buf.length < 100 then publishedBy st.key (op, o) else []).length -
          (sentBy st (op, o)).length := by
      have h1 := congrArg List.length hb2
      simp only [List.length_append] at h1
      omega
    simp only [sentTo, acceptedOn]
    rw [← hlen, List.append_assoc, hb3, ← List.append_assoc, hb2, List.append_assoc]

/-! ## The delivery queue of a `Subscribe` stream -/

/-- C9: in every reachable state no channel holds more than 100 events; the
callback of a live `Subscribe` stream is in the subscriber list of its key,
and the channel `q` of the stream is open with capacity 100. The callback,
called with fewer than 100 events pending, appends the event at the tail;
called with 100 pending it returns having logged the drop and leaves all
channels as they were. `Handler.Publish` returns whenever the channels of the
callbacks of its key are open, and when it returns the stream is still live
and its queue is `q` with the data appended at the tail if the publish
succeeded under the key of the stream with fewer than 100 events pending, and
`q` unchanged otherwise. A receive takes the oldest event: a round of the loop
of `Handler.Subscribe` on a non-empty queue sends the oldest pending event to
the client and leaves the rest in order, and on an empty queue sends nothing.
Over every run of the server in which the stream does not return, the events
sent to the client followed by the events still pending are the events pending
at the start followed by the events accepted, in order; at most 100 are
pending at the end; the accepted events are taken in order from the events
published under the key of the stream, so the client sees the events in the
order of their publishing (`A` before `B`), and they are all the published
events when the queue cannot overflow. -/
theorem delivery_queue_bounded_fifo (w : World) (hr : Reachable w) (st : Stream)
    (hl : w.live st) :
    (∀ ch ∈ w.chans, ch.buf.length ≤ 100) ∧
    (⟨st.events, st.key⟩ : repository.Callback) ∈ mapSlice w.h.eventRepo.subscribers st.key ∧
    ∃ q, w.chans[st.events]? = some q ∧ q.closed = false ∧ q.cap = 100 ∧
      (∀ event : entity.Event, q.buf.length < 100 →
        repository.Callback.call ⟨st.events, st.key⟩ w.chans event =
          some (w.chans.set st.events { q with buf := q.buf ++ [⟨event.Data⟩] }, false)) ∧
      (∀ event : entity.Event, q.buf.length = 100 →
        repository.Callback.call ⟨st.events, st.key⟩ w.chans event = some (w.chans, true)) ∧
      (∀ (idNow : time.Time) (now : Nat) (key data : String),
        (∀ cb ∈ mapSlice w.h.eventRepo.subscribers key,
          (w.chans[cb.events]?).map EventChan.closed = some false) →
        ∃ w1 code drops, Handler.Publish w idNow now key data = some (w1, code, drops)) ∧
      (∀ (idNow : time.Time) (now : Nat) (key data : String) (w1 : World)
          (code : Option Code) (drops : List String),
        Handler.Publish w idNow now key data = some (w1, code, drops) →
        w1.live st ∧
          w1.chans[st.events]? = some { q with buf :=
            if code = none ∧ key = st.key ∧ q.buf.length < 100 then q.buf ++ [⟨data⟩]
            else q.buf }) ∧
      (∀ v rest, q.buf = v :: rest → q.recv = ({ q with buf := rest }, Received.value v)) ∧
      (∀ v rest, q.buf = v :: rest →
        Handler.Subscribe.loop w st (Wake.event false) =
          some ({ w with chans := w.chans.set st.events { q with buf := rest } },
            Looped.continues (some v))) ∧
      (q.buf = [] → ∀ sendFails : Bool,
        Handler.Subscribe.loop w st (Wake.event sendFails) =
          some (w, Looped.continues none)) ∧
      (∀ (tr : List (Op × Out)) (w1 : World), Runs w tr w1 →
        (∀ p ∈ tr, returnsIn st p = false) →
        w1.live st ∧ ∃ q1, w1.chans[st.events]? = some q1 ∧ q1.buf.length ≤ 100 ∧
          sentTo st tr ++ q1.buf = q.buf ++ acceptedOn st q.buf.length tr ∧
          (acceptedOn st q.buf.length tr).Sublist (publishedOn st.key tr) ∧
          (sentTo st tr).Sublist (q.buf ++ publishedOn st.key tr) ∧
          (q.buf.length + (publishedOn st.key tr).length ≤ 100 →
            acceptedOn st q.buf.length tr = publishedOn st.key tr)) := by
  have hi := reachable_server_inv w hr
  have ho := hi.liveOpen st.key st.events hl
  cases hg : w.chans[st.events]? with
  | none => simp [hg] at ho
  | some q =>
    simp only [hg, Option.map_some', Option.some.injEq] at ho
    obtain ⟨hcap, hlen⟩ := hi.chanOk q (List.getElem?_mem hg)
    refine ⟨fun ch hch => (hi.chanOk ch hch).2,
      reachable_server_registered w hr st.key st.events hl, q, rfl, ho, hcap,
      ?_, ?_, ?_, ?_, ?_, ?_, ?_, ?_⟩
    · intro event hlt
      simp [repository.Callback.call, hg, EventChan.trySend, ho, hcap, hlt]
    · intro event hfull
      simp only [repository.Callback.call, hg, EventChan.trySend, ho, hcap, hfull,
        Bool.false_eq_true, if_false, Nat.lt_irrefl, Bool.not_false, Option.some.injEq,
        Prod.mk.injEq, and_true]
      exact set_same w.chans st.events q hg
    · intro idNow now key data hopen
      exact Publish_total w idNow now key data hopen
    · intro idNow now key data w1 code drops hp
      exact Publish_live_queue w w1 hr st hl q hg hcap idNow now key data code drops hp
    · intro v rest hb
      simp [EventChan.recv, hb]
    · intro v rest hb
      exact loop_value w st q hg v rest hb
    · intro hb sendFails
      exact loop_empty w st q hg ho hb sendFails
    · intro tr w1 hrun hn
      obtain ⟨hr1, hl1, q1, hq1, hb1⟩ := runs_queue w w1 tr hrun hr st hl q hg hn
      have hsub : (sentTo st tr).Sublist (q.buf ++ publishedOn st.key tr) := by
        have h1 : (sentTo st tr).Sublist (sentTo st tr ++ q1.buf) :=
          List.sublist_append_left _ _
        rw [hb1] at h1
        exact h1.trans (List.Sublist.append (List.Sublist.refl _) (acceptedOn_sublist st tr _))
      exact ⟨hl1, q1, hq1, ((reachable_server_inv w1 hr1).chanOk q1 (List.getElem?_mem hq1)).2,
        hb1, acceptedOn_sublist st tr _, hsub, acceptedOn_all st tr _⟩

/-- C9, at the stream subscribed to `"orders"`: `A` and then `B` are published,
and two rounds of the loop send `A` to the client and then `B`, leaving the
queue empty. -/
theorem delivery_queue_bounded_fifo_witness :
    run World.init
      [Op.subscribe "orders", Op.publish ⟨2025, 5, 1, 12, 0, 0, 1⟩ 1 "orders" "A",
        Op.publish ⟨2025, 5, 1, 12, 0, 0, 2⟩ 2 "orders" "B",
        Op.wake ⟨"orders", 0⟩ (Wake.event false), Op.wake ⟨"orders", 0⟩ (Wake.event false)] =
      some ((World.mk ⟨⟨[("orders", [⟨"20250501120000.000000001", "orders", "A", 1⟩, ⟨"20250501120000.000000002", "orders", "B", 2⟩])], [("orders", [⟨0, "orders"⟩])], false⟩, [("orders", [0])]⟩
      [⟨[], 100, false⟩]),
        [Out.entered (Entered.streaming ⟨"orders", 0⟩), Out.published none [],
          Out.published none [], Out.looped (Looped.continues (some ⟨"A"⟩)),
          Out.looped (Looped.continues (some ⟨"B"⟩))]) ∧
    World.live (World.mk ⟨⟨[], [("orders", [⟨0, "orders"⟩])], false⟩, [("orders", [0])]⟩
      [⟨[], 100, false⟩]) ⟨"orders", 0⟩ ∧
    sentTo ⟨"orders", 0⟩
      [(Op.publish ⟨2025, 5, 1, 12, 0, 0, 1⟩ 1 "orders" "A", Out.published none []),
      (Op.publish ⟨2025, 5, 1, 12, 0, 0, 2⟩ 2 "orders" "B", Out.published none []),
      (Op.wake ⟨"orders", 0⟩ (Wake.event false), Out.looped (Looped.continues (some ⟨"A"⟩))),
      (Op.wake ⟨"orders", 0⟩ (Wake.event false), Out.looped (Looped.continues (some ⟨"B"⟩)))] = [⟨"A"⟩, ⟨"B"⟩] ∧
    ∃ q1, (World.mk ⟨⟨[("orders", [⟨"20250501120000.000000001", "orders", "A", 1⟩, ⟨"20250501120000.000000002", "orders", "B", 2⟩])], [("orders", [⟨0, "orders"⟩])], false⟩, [("orders", [0])]⟩
      [⟨[], 100, false⟩]).chans[0]? = some q1 ∧ q1.buf.length ≤ 100 ∧
      [(⟨"A"⟩ : proto.Event), ⟨"B"⟩] ++ q1.buf = [⟨"A"⟩, ⟨"B"⟩] := by
  have hr0 : Reachable (World.mk ⟨⟨[], [("orders", [⟨0, "orders"⟩])], false⟩, [("orders", [0])]⟩
      [⟨[], 100, false⟩]) :=
    Reachable.next World.init _ (Op.subscribe "orders")
      (Out.entered (Entered.streaming ⟨"orders", 0⟩)) Reachable.init trivial (by decide)
  have hruns : Runs (World.mk ⟨⟨[], [("orders", [⟨0, "orders"⟩])], false⟩, [("orders", [0])]⟩
      [⟨[], 100, false⟩])
      [(Op.publish ⟨2025, 5, 1, 12, 0, 0, 1⟩ 1 "orders" "A", Out.published none []),
      (Op.publish ⟨2025, 5, 1, 12, 0, 0, 2⟩ 2 "orders" "B", Out.published none []),
      (Op.wake ⟨"orders", 0⟩ (Wake.event false), Out.looped (Looped.continues (some ⟨"A"⟩))),
      (Op.wake ⟨"orders", 0⟩ (Wake.event false), Out.looped (Looped.continues (some ⟨"B"⟩)))]
      (World.mk ⟨⟨[("orders", [⟨"20250501120000.000000001", "orders", "A", 1⟩, ⟨"20250501120000.000000002", "orders", "B", 2⟩])], [("orders", [⟨0, "orders"⟩])], false⟩, [("orders", [0])]⟩
      [⟨[], 100, false⟩]) :=
    Runs.next _ (World.mk ⟨⟨[("orders", [⟨"20250501120000.000000001", "orders", "A", 1⟩])], [("orders", [⟨0, "orders"⟩])], false⟩, [("orders", [0])]⟩
      [⟨[⟨"A"⟩], 100, false⟩]) _ _ _ _ trivial (by decide)
      (Runs.next _ (World.mk ⟨⟨[("orders", [⟨"20250501120000.000000001", "orders", "A", 1⟩, ⟨"20250501120000.000000002", "orders", "B", 2⟩])], [("orders", [⟨0, "orders"⟩])], false⟩, [("orders", [0])]⟩
      [⟨[⟨"A"⟩, ⟨"B"⟩], 100, false⟩]) _ _ _ _ trivial (by decide)
        (Runs.next _ (World.mk ⟨⟨[("orders", [⟨"20250501120000.000000001", "orders", "A", 1⟩, ⟨"20250501120000.000000002", "orders", "B", 2⟩])], [("orders", [⟨0, "orders"⟩])], false⟩, [("orders", [0])]⟩
      [⟨[⟨"B"⟩], 100, false⟩]) _ _ _ _ (by show World.live _ _; decide) (by decide)
          (Runs.next _ (World.mk ⟨⟨[("orders", [⟨"20250501120000.000000001", "orders", "A", 1⟩, ⟨"20250501120000.000000002", "orders", "B", 2⟩])], [("orders", [⟨0, "orders"⟩])], false⟩, [("orders", [0])]⟩
      [⟨[], 100, false⟩]) _ _ _ _ (by show World.live _ _; decide) (by decide) (Runs.done _))))
  have e1 : sentTo ⟨"orders", 0⟩
      [(Op.publish ⟨2025, 5, 1, 12, 0, 0, 1⟩ 1 "orders" "A", Out.published none []),
      (Op.publish ⟨2025, 5, 1, 12, 0, 0, 2⟩ 2 "orders" "B", Out.published none []),
      (Op.wake ⟨"orders", 0⟩ (Wake.event false), Out.looped (Looped.continues (some ⟨"A"⟩))),
      (Op.wake ⟨"orders", 0⟩ (Wake.event false), Out.looped (Looped.continues (some ⟨"B"⟩)))] = [⟨"A"⟩, ⟨"B"⟩] := by decide
  have e2 : acceptedOn ⟨"orders", 0⟩ 0
      [(Op.publish ⟨2025, 5, 1, 12, 0, 0, 1⟩ 1 "orders" "A", Out.published none []),
      (Op.publish ⟨2025, 5, 1, 12, 0, 0, 2⟩ 2 "orders" "B", Out.published none []),
      (Op.wake ⟨"orders", 0⟩ (Wake.event false), Out.looped (Looped.continues (some ⟨"A"⟩))),
      (Op.wake ⟨"orders", 0⟩ (Wake.event false), Out.looped (Looped.continues (some ⟨"B"⟩)))] = [⟨"A"⟩, ⟨"B"⟩] := by decide
  refine ⟨by decide, by decide, e1, ?_⟩
  obtain ⟨q, h1, _, _, _, _, _, _, _, _, _, htr⟩ :=
    (delivery_queue_bounded_fifo (World.mk ⟨⟨[], [("orders", [⟨0, "orders"⟩])], false⟩, [("orders", [0])]⟩
      [⟨[], 100, false⟩]) hr0 ⟨"orders", 0⟩ (by decide)).2.2
  simp only [List.getElem?_cons_zero, Option.some.injEq] at h1
  subst h1
  obtain ⟨_, q1, hq1, hlen, heq, _⟩ := htr _ _ hruns (by decide)
  refine ⟨q1, hq1, hlen, ?_⟩
  rw [e1] at heq
  rw [heq]
  exact e2

end grpc
